import Mathlib

/-!
# zFIFO: scatter-gather DMA driver (`zfifo.c`)

A shallow embedding of the transfer path of the zFIFO kernel driver:
`alloc_sg_buf` (page pinning, scatterlist fill, descriptor ring writer with
its merge pass), `zfifo_send`, `zfifo_recv`, `zfifo_dmac_reset` and
`zfifo_ioctl`.

Conventions of the embedding.
* Machine integers are natural numbers, reduced modulo `2 ^ w` wherever the C
  expression is evaluated in a `w`-bit unsigned type.
* The loop counters `i` and `d` of `alloc_sg_buf` are bounded by the number of
  scatterlist entries, which `kcalloc` keeps many orders of magnitude below
  `2 ^ 26`; they are plain natural numbers.
* Kernel services that are not part of the driver (`kmalloc`,
  `get_user_pages`, `dma_map_sg`, `copy_from_user`, the device registers) are
  fields of an environment record `Kernel`.
* Descriptor memory is a function from 32-bit word index to value, together
  with the chronological log of the stores made to it.
-/

namespace ZFifo

/-! ## Architecture and constants -/

/-- Compile-time target: `aarch64` selects the `__aarch64__` branches of the
source, `PAGE_SHIFT` is the kernel page-size exponent. -/
structure Arch where
  aarch64 : Bool
  PAGE_SHIFT : Nat

/-- Width of `unsigned long`. -/
def BITS_PER_LONG (a : Arch) : Nat := if a.aarch64 then 64 else 32

/-- Width of a bus address (`dma_addr_t`): 64 bits on aarch64; on the other
targets the driver sets `dma_mask_bit = 32` and writes `HIGH32(x) = 0`, bus
addresses are 32-bit values. -/
def DMA_ADDR_BITS (a : Arch) : Nat := if a.aarch64 then 64 else 32

/-- Kernel `PAGE_SIZE`, that is `1UL << PAGE_SHIFT`. -/
def PAGE_SIZE (a : Arch) : Nat := 2 ^ a.PAGE_SHIFT

/-- Register word offset `MM2S_DMACR`. -/
def MM2S_DMACR : Nat := 0
/-- Register word offset `MM2S_DMASR`. -/
def MM2S_DMASR : Nat := 1
/-- Register word offset `MM2S_CURDESC`. -/
def MM2S_CURDESC : Nat := 2
/-- Register word offset `MM2S_CURDESC_H`. -/
def MM2S_CURDESC_H : Nat := 3
/-- Register word offset `MM2S_TAILDESC`. -/
def MM2S_TAILDESC : Nat := 4
/-- Register word offset `MM2S_TAILDESC_H`. -/
def MM2S_TAILDESC_H : Nat := 5
/-- Register word offset `SG_CTL`. -/
def SG_CTL : Nat := 11
/-- Register word offset `S2MM_DMACR`. -/
def S2MM_DMACR : Nat := 12
/-- Register word offset `S2MM_DMASR`. -/
def S2MM_DMASR : Nat := 13
/-- Register word offset `S2MM_CURDESC`. -/
def S2MM_CURDESC : Nat := 14
/-- Register word offset `S2MM_CURDESC_H`. -/
def S2MM_CURDESC_H : Nat := 15
/-- Register word offset `S2MM_TAILDESC`. -/
def S2MM_TAILDESC : Nat := 16
/-- Register word offset `S2MM_TAILDESC_H`. -/
def S2MM_TAILDESC_H : Nat := 17

/-- Control bit `DMACR_RS = 1u<<0`, run/stop. -/
def DMACR_RS : Nat := 1 <<< 0
/-- Control bit `DMACR_RESET = 1u<<2`. -/
def DMACR_RESET : Nat := 1 <<< 2
/-- Status bit `DMASR_HALTED = 1u<<0`. -/
def DMASR_HALTED : Nat := 1 <<< 0
/-- Status bit `DMASR_IDLE = 1u<<1`. -/
def DMASR_IDLE : Nat := 1 <<< 1
/-- Status bit `DMASR_IOC_Irq = 1u<<12`, completion interrupt. -/
def DMASR_IOC_Irq : Nat := 1 <<< 12
/-- Status bit `DMASR_ERR_Irq = 1u<<14`, error interrupt. -/
def DMASR_ERR_Irq : Nat := 1 <<< 14

/-- Descriptor space in bytes, `desc_size = 1100*1024`. -/
def desc_size : Nat := 1100 * 1024

/-- Number of bits of the DMAC buffer counter. -/
def dmac_buf_bits : Nat := 20

/-- The value `zfifo_platform_driver_probe` stores in `this->dmac_buf_len`:
`(2u << (dmac_buf_bits-1)) - 1`, evaluated in 32-bit unsigned arithmetic. -/
def probe_dmac_buf_len : Nat := ((2 <<< (dmac_buf_bits - 1)) % 2 ^ 32 + 2 ^ 32 - 1) % 2 ^ 32

/-- Source macro `LOW32(x)`. -/
def LOW32 (x : Nat) : Nat := x &&& 0xFFFFFFFF

/-- Source macro `HIGH32(x)`: `(x>>32) & 0xFFFFFFFF` on aarch64, `0` otherwise. -/
def HIGH32 (a : Arch) (x : Nat) : Nat :=
  if a.aarch64 then (x >>> 32) &&& 0xFFFFFFFF else 0

/-- Control-word flag `ctrl_sof = 1u << 27`. -/
def ctrl_sof : Nat := 1 <<< 27

/-- Control-word flag `ctrl_eof = 1u << 26`. -/
def ctrl_eof : Nat := 1 <<< 26

/-! ## Scatterlist -/

/-- One scatterlist entry as filled by `sg_set_page(sg, page, len, offset)`. -/
structure SgEntry where
  page : Nat
  length : Nat
  offset : Nat
deriving DecidableEq, Repr

/-- One entry of the scatterlist after `dma_map_sg`: its bus address and
length fields. -/
structure Seg where
  dma_address : Nat
  dma_length : Nat
deriving DecidableEq, Repr

/-- Kernel accessor `sg_dma_address(sg)`, a `dma_addr_t`. -/
def sg_dma_address (a : Arch) (sg : Seg) : Nat := sg.dma_address % 2 ^ DMA_ADDR_BITS a

/-- Kernel accessor `sg_dma_len(sg)`, an `unsigned int`. -/
def sg_dma_len (sg : Seg) : Nat := sg.dma_length % 2 ^ 32

/-- The page count `alloc_sg_buf` requests:
`((udata + len - 1)>>PAGE_SHIFT) - (udata>>PAGE_SHIFT) + 1` in `unsigned long`. -/
def npages_req (a : Arch) (udata len : Nat) : Nat :=
  let w := 2 ^ BITS_PER_LONG a
  ((((udata + len + w - 1) % w) >>> a.PAGE_SHIFT) + w - (udata >>> a.PAGE_SHIFT) + 1) % w

/-- The `page_len` of one iteration of the fill loop:
`(fp_offset+len_rem) > PAGE_SIZE ? (PAGE_SIZE-fp_offset) : len_rem`, computed in
`unsigned long` and stored in an `unsigned`. -/
def page_len (a : Arch) (fp_offset len_rem : Nat) : Nat :=
  let w := 2 ^ BITS_PER_LONG a
  (if (fp_offset + len_rem) % w > PAGE_SIZE a
    then (PAGE_SIZE a + w - fp_offset) % w
    else len_rem) % 2 ^ 32

/-- The fill loop `for (i=0; i<npages; i++)` of `alloc_sg_buf`. The first
argument counts the iterations still to run; `i`, `fp_offset` and `len_rem` are
the loop variables. -/
def fill_sgl (a : Arch) (pages : Nat → Nat) : Nat → Nat → Nat → Nat → List SgEntry
  | 0, _, _, _ => []
  | n + 1, i, fp_offset, len_rem =>
    let pl := page_len a fp_offset len_rem
    { page := pages i, length := pl, offset := fp_offset } ::
      fill_sgl a pages n (i + 1) 0 ((len_rem + 2 ^ BITS_PER_LONG a - pl) % 2 ^ BITS_PER_LONG a)

/-- The first-page offset `udata & (~PAGE_MASK)`, stored in an `unsigned`. -/
def first_page_offset (a : Arch) (udata : Nat) : Nat :=
  (udata &&& (PAGE_SIZE a - 1)) % 2 ^ 32

/-! ## Descriptor ring writer -/

/-- Descriptor memory `sg_desc` (32-bit words), the log of stores made to it
in program order, and the running descriptor counter `d`. -/
structure DescState where
  mem : Nat → Nat
  log : List (Nat × Nat)
  d : Nat

/-- The store `sg_desc[idx] = val` to a 32-bit word. -/
def DescState.store (st : DescState) (idx val : Nat) : DescState :=
  { st with
    mem := fun j => if j = idx then val % 2 ^ 32 else st.mem j
    log := st.log ++ [(idx, val % 2 ^ 32)] }

/-- The address `prev_addr` read back from descriptor `d-1`. -/
def prev_addr (a : Arch) (st : DescState) : Nat :=
  if a.aarch64 then
    (st.mem ((st.d - 1) * 16 + 2) + ((st.mem ((st.d - 1) * 16 + 3)) <<< 32) % 2 ^ 64) % 2 ^ 64
  else st.mem ((st.d - 1) * 16 + 2)

/-- The length `prev_len` read back from descriptor `d-1`. -/
def prev_len (st : DescState) : Nat := st.mem ((st.d - 1) * 16 + 6) &&& 0x007FFFFF

/-- The test that decides a merge for scatterlist entry `i`:
`i!=0 && i!=num_sg-1`, bus-contiguous with descriptor `d-1`, and the combined
length below `dmac_buf_len`. -/
def merge_test (a : Arch) (dmac_buf_len num_sg i : Nat) (sg : Seg) (st : DescState) : Bool :=
  decide (i ≠ 0 ∧ i ≠ num_sg - 1) &&
  decide (sg_dma_address a sg = (prev_addr a st + prev_len st) % 2 ^ DMA_ADDR_BITS a) &&
  decide ((prev_len st + sg_dma_len sg) % 2 ^ 32 < dmac_buf_len)

/-- One iteration of `for_each_sg(sgl, sg, num_sg, i)` in `alloc_sg_buf`. -/
def desc_step (a : Arch) (dmac_buf_len sg_phys num_sg i : Nat) (sg : Seg)
    (st : DescState) : DescState :=
  let d := st.d
  let next_desc := (sg_phys + 0x40 * (d + 1)) % 2 ^ DMA_ADDR_BITS a
  let hw_addr := sg_dma_address a sg
  let hw_len := sg_dma_len sg
  if merge_test a dmac_buf_len num_sg i sg st then
    st.store ((d - 1) * 16 + 6)
      ((st.mem ((d - 1) * 16 + 6) &&& 0xFF800000) +
        (((prev_len st + hw_len) % 2 ^ 32) &&& 0x007FFFFF))
  else
    let st := st.store (d * 16 + 0) (LOW32 next_desc)
    let st := st.store (d * 16 + 1) (HIGH32 a next_desc)
    let st := st.store (d * 16 + 2) (LOW32 hw_addr)
    let st := st.store (d * 16 + 3) (HIGH32 a hw_addr)
    let st := st.store (d * 16 + 4) 0
    let st := st.store (d * 16 + 5) 0
    let st := st.store (d * 16 + 6)
      ((hw_len &&& 0x007FFFFF) ||| (if i = 0 then ctrl_sof else 0) |||
        (if i = num_sg - 1 then ctrl_eof else 0))
    let st := st.store (d * 16 + 7) 0
    { st with d := d + 1 }

/-- The loop `for_each_sg(sgl, sg, num_sg, i)` from index `i` over the
remaining entries. -/
def desc_loop (a : Arch) (dmac_buf_len sg_phys num_sg : Nat) :
    Nat → List Seg → DescState → DescState
  | _, [], st => st
  | i, sg :: rest, st =>
    desc_loop a dmac_buf_len sg_phys num_sg (i + 1) rest
      (desc_step a dmac_buf_len sg_phys num_sg i sg st)

/-- The slot each remaining scatterlist entry is stored in by `desc_loop`: the
descriptor index `d-1` it is folded into, or the fresh index `d` it is written
to. -/
def placement (a : Arch) (dmac_buf_len sg_phys num_sg : Nat) :
    Nat → List Seg → DescState → List Nat
  | _, [], _ => []
  | i, sg :: rest, st =>
    let st1 := desc_step a dmac_buf_len sg_phys num_sg i sg st
    (st1.d - 1) :: placement a dmac_buf_len sg_phys num_sg (i + 1) rest st1

/-! ## Kernel environment, events and results -/

/-- Kernel `enum dma_data_direction`, the two values the driver uses. -/
inductive dma_data_direction where
  | DMA_TO_DEVICE
  | DMA_FROM_DEVICE
deriving DecidableEq, Repr

/-- The user parameter block `zfifo_io` of `zfifo.h`. -/
structure zfifo_io where
  len : Nat
  data : Nat
deriving DecidableEq, Repr

/-- Externally visible actions of the driver, in program order. -/
inductive Event where
  /-- A call `get_user_pages(start, nr_pages, write ? FOLL_WRITE : 0, ...)`. -/
  | pin (start nr_pages : Nat) (write : Bool)
  /-- A call `release_pinned(pages, npages)`. -/
  | unpin (npages : Nat)
  /-- A store `sg_desc[idx] = val`. -/
  | desc (idx val : Nat)
  /-- A store `this->dma_regs[idx] = val`. -/
  | reg (idx val : Nat)
deriving DecidableEq, Repr

/-- The kernel services and the hardware the driver runs against. -/
structure Kernel where
  arch : Arch
  /-- Whether `kmalloc(sizeof(*sg_map))` succeeds. -/
  kmalloc_sg_map : Bool
  /-- Whether `kmalloc(npages_req * sizeof(*pages))` succeeds. -/
  kmalloc_pages : Nat → Bool
  /-- The return value of `get_user_pages(start, nr_pages, write, ...)`. -/
  get_user_pages : Nat → Nat → Bool → Int
  /-- The page handle stored in `pages[i]`. -/
  pages : Nat → Nat
  /-- Whether `kcalloc(npages, sizeof(*sgl))` succeeds. -/
  kcalloc_sgl : Nat → Bool
  /-- The mapped entries `dma_map_sg` produces; its return value is their number. -/
  dma_map_sg : List SgEntry → dma_data_direction → List Seg
  /-- The value of the `n`-th read of register `idx` during a call. -/
  reg_read : Nat → Nat → Nat
  /-- The result of `copy_from_user(&zio, param, sizeof(zfifo_io))`: bytes not
  copied, and the block read. -/
  copy_from_user : Nat → Nat × zfifo_io

/-- The fields of `zfifo_device_data` the transfer path uses. -/
structure zfifo_device_data where
  tx_desc : Nat → Nat
  rx_desc : Nat → Nat
  tx_phys : Nat
  rx_phys : Nat
  dmac_buf_len : Nat

/-- The record `sg_mapping` returned by `alloc_sg_buf`. -/
structure sg_mapping where
  npages : Nat
  sgl : List SgEntry
  dir : dma_data_direction
  num_sg : Nat
deriving DecidableEq, Repr

/-- What `alloc_sg_buf` leaves behind: the returned pointer (`none` for
`NULL`), the descriptor memory and the actions performed. -/
structure AllocResult where
  sg_map : Option sg_mapping
  sg_desc : Nat → Nat
  events : List Event

/-- How a driver function ends: it returns a value, it faults on a `NULL`
dereference, or its polling loop is still spinning when the fuel is spent. -/
inductive Ret where
  | value (v : Int)
  | oops
  | hang
deriving DecidableEq, Repr

/-- Final device state, actions performed and outcome of a driver call. -/
structure CallResult where
  dev : zfifo_device_data
  events : List Event
  ret : Ret

/-- Kernel error number `EINVAL`. -/
def EINVAL : Int := 22
/-- Kernel error number `ENOTTY`. -/
def ENOTTY : Int := 25

/-- Kernel `_IOC(dir,type,nr,size)` in the generic layout of `asm-generic/ioctl.h`. -/
def _IOC (dir type nr size : Nat) : Nat :=
  (dir <<< 30) ||| (type <<< 8) ||| (nr <<< 0) ||| (size <<< 16)

/-- The magic `ZFIFO_MAGIC`, the character `Z`. -/
def ZFIFO_MAGIC : Nat := 90

/-- The size `sizeof(zfifo_io *)`. -/
def sizeof_ptr (a : Arch) : Nat := BITS_PER_LONG a / 8

/-- `IOCTL_SEND = _IOW(ZFIFO_MAGIC, 1, zfifo_io *)`. -/
def IOCTL_SEND (a : Arch) : Nat := _IOC 1 ZFIFO_MAGIC 1 (sizeof_ptr a)

/-- `IOCTL_RECV = _IOR(ZFIFO_MAGIC, 2, zfifo_io *)`. -/
def IOCTL_RECV (a : Arch) : Nat := _IOC 2 ZFIFO_MAGIC 2 (sizeof_ptr a)

/-- `IOCTL_RESET = _IOW(ZFIFO_MAGIC, 2, int)`. -/
def IOCTL_RESET : Nat := _IOC 1 ZFIFO_MAGIC 2 4

/-! ## `alloc_sg_buf` -/

/-- The function `alloc_sg_buf(this, bufp, len, dir, sg_desc, sg_phys)`. -/
def alloc_sg_buf (k : Kernel) (this : zfifo_device_data) (bufp len : Nat)
    (dir : dma_data_direction) (sg_desc : Nat → Nat) (sg_phys : Nat) : AllocResult :=
  let udata := bufp
  let req := npages_req k.arch udata len
  if !k.kmalloc_sg_map then
    { sg_map := none, sg_desc := sg_desc, events := [] }
  else if !k.kmalloc_pages req then
    { sg_map := none, sg_desc := sg_desc, events := [] }
  else
    let write := decide (dir = dma_data_direction.DMA_FROM_DEVICE)
    let npages := k.get_user_pages udata req write
    if npages ≤ 0 then
      { sg_map := none, sg_desc := sg_desc, events := [Event.pin udata req write] }
    else if !k.kcalloc_sgl npages.toNat then
      { sg_map := none, sg_desc := sg_desc,
        events := [Event.pin udata req write, Event.unpin npages.toNat] }
    else
      let fp_offset := first_page_offset k.arch udata
      let sgl := fill_sgl k.arch k.pages npages.toNat 0 fp_offset len
      let mapped := k.dma_map_sg sgl dir
      let num_sg := mapped.length
      let st := desc_loop k.arch this.dmac_buf_len sg_phys num_sg 0 mapped
        { mem := sg_desc, log := [], d := 0 }
      { sg_map := some { npages := npages.toNat, sgl := sgl, dir := dir, num_sg := st.d },
        sg_desc := st.mem,
        events := Event.pin udata req write :: st.log.map (fun w => Event.desc w.1 w.2) }

/-! ## Send, receive, reset -/

/-- A busy-wait `while (busy(reg)) {}`: `read n` is the value of the `n`-th
read. Returns the number of reads made when the loop exits within the fuel. -/
def spin (busy : Nat → Bool) (read : Nat → Nat) : Nat → Nat → Option Nat
  | 0, _ => none
  | fuel + 1, n => if busy (read n) then spin busy read fuel (n + 1) else some (n + 1)

/-- The loop condition `~reg & DMASR_IOC_Irq` on a 32-bit register value. -/
def ioc_pending (v : Nat) : Bool := ((2 ^ 32 - 1 - v % 2 ^ 32) &&& DMASR_IOC_Irq) ≠ 0

/-- The loop condition `reg & DMACR_RESET`. -/
def reset_pending (v : Nat) : Bool := (v &&& DMACR_RESET) ≠ 0

/-- The address `phys + (0x40 * (num_sg-1))` computed by send and receive. -/
def tail_desc (a : Arch) (phys num_sg : Nat) : Nat :=
  let w := 2 ^ BITS_PER_LONG a
  (phys % 2 ^ DMA_ADDR_BITS a + (0x40 * ((num_sg + w - 1) % w)) % w) % 2 ^ DMA_ADDR_BITS a

/-- The function `zfifo_recv(this, bufp, len)`. -/
def zfifo_recv (k : Kernel) (this : zfifo_device_data) (bufp len fuel : Nat) : CallResult :=
  let r := alloc_sg_buf k this bufp len dma_data_direction.DMA_FROM_DEVICE
    this.rx_desc this.rx_phys
  let dev := { this with rx_desc := r.sg_desc }
  match r.sg_map with
  | none => { dev := dev, events := r.events, ret := Ret.oops }
  | some sg_map =>
    let head := this.rx_phys % 2 ^ DMA_ADDR_BITS k.arch
    let tail := tail_desc k.arch this.rx_phys sg_map.num_sg
    let started := r.events ++
      [Event.reg S2MM_CURDESC (LOW32 head),
       Event.reg S2MM_CURDESC_H (HIGH32 k.arch head),
       Event.reg S2MM_DMACR DMACR_RS,
       Event.reg S2MM_TAILDESC (LOW32 tail),
       Event.reg S2MM_TAILDESC_H (HIGH32 k.arch tail)]
    match spin ioc_pending (k.reg_read S2MM_DMASR) fuel 0 with
    | none => { dev := dev, events := started, ret := Ret.hang }
    | some _ =>
      { dev := dev,
        events := started ++
          [Event.reg S2MM_DMASR (DMASR_IOC_Irq ||| DMASR_ERR_Irq),
           Event.reg S2MM_DMACR 0,
           Event.unpin sg_map.npages],
        ret := Ret.value 0 }

/-- The function `zfifo_send(this, bufp, len)`. -/
def zfifo_send (k : Kernel) (this : zfifo_device_data) (bufp len fuel : Nat) : CallResult :=
  let r := alloc_sg_buf k this bufp len dma_data_direction.DMA_TO_DEVICE
    this.tx_desc this.tx_phys
  let dev := { this with tx_desc := r.sg_desc }
  match r.sg_map with
  | none => { dev := dev, events := r.events, ret := Ret.oops }
  | some sg_map =>
    let head := this.tx_phys % 2 ^ DMA_ADDR_BITS k.arch
    let tail := tail_desc k.arch this.tx_phys sg_map.num_sg
    let started := r.events ++
      [Event.reg MM2S_CURDESC (LOW32 head),
       Event.reg MM2S_CURDESC_H (HIGH32 k.arch head),
       Event.reg MM2S_DMACR DMACR_RS,
       Event.reg MM2S_TAILDESC (LOW32 tail),
       Event.reg MM2S_TAILDESC_H (HIGH32 k.arch tail)]
    match spin ioc_pending (k.reg_read MM2S_DMASR) fuel 0 with
    | none => { dev := dev, events := started, ret := Ret.hang }
    | some _ =>
      { dev := dev,
        events := started ++
          [Event.reg MM2S_DMASR (DMASR_IOC_Irq ||| DMASR_ERR_Irq),
           Event.reg MM2S_DMACR 0,
           Event.unpin sg_map.npages],
        ret := Ret.value 0 }

/-- The function `zfifo_dmac_reset(this)`; it returns nothing, `Ret.value 0`
stands for normal completion. -/
def zfifo_dmac_reset (k : Kernel) (this : zfifo_device_data) (fuel : Nat) : CallResult :=
  match spin reset_pending (k.reg_read MM2S_DMACR) fuel 0 with
  | none => { dev := this, events := [Event.reg MM2S_DMACR DMACR_RESET], ret := Ret.hang }
  | some _ =>
    match spin reset_pending (k.reg_read S2MM_DMACR) fuel 0 with
    | none =>
      { dev := this,
        events := [Event.reg MM2S_DMACR DMACR_RESET, Event.reg S2MM_DMACR DMACR_RESET],
        ret := Ret.hang }
    | some _ =>
      { dev := this,
        events := [Event.reg MM2S_DMACR DMACR_RESET, Event.reg S2MM_DMACR DMACR_RESET],
        ret := Ret.value 0 }

/-! ## `zfifo_ioctl` -/

/-- The `switch(ioctlnum)` of `zfifo_ioctl`. The values returned by
`zfifo_send` and `zfifo_recv` are discarded; a call that does not come back
does not let `zfifo_ioctl` come back either. -/
def ioctl_dispatch (k : Kernel) (this : zfifo_device_data) (ioctlnum : Nat) (zio : zfifo_io)
    (fuel : Nat) : CallResult :=
  if ioctlnum = IOCTL_SEND k.arch then
    let r := zfifo_send k this zio.data zio.len fuel
    match r.ret with
    | Ret.value _ => { r with ret := Ret.value 0 }
    | _ => r
  else if ioctlnum = IOCTL_RECV k.arch then
    let r := zfifo_recv k this zio.data zio.len fuel
    match r.ret with
    | Ret.value _ => { r with ret := Ret.value 0 }
    | _ => r
  else if ioctlnum = IOCTL_RESET then
    { dev := this, events := [], ret := Ret.value 0 }
  else
    { dev := this, events := [], ret := Ret.value (-ENOTTY) }

/-- The function `zfifo_ioctl(file, ioctlnum, param)`, with `this` the device
behind `file->private_data`. -/
def zfifo_ioctl (k : Kernel) (this : zfifo_device_data) (ioctlnum param fuel : Nat) :
    CallResult :=
  let cp := k.copy_from_user param
  let zio := cp.2
  if ioctlnum ≠ IOCTL_RESET then
    if cp.1 ≠ 0 then
      { dev := this, events := [], ret := Ret.value (Int.ofNat cp.1) }
    else if (zio.data % 2 ^ DMA_ADDR_BITS k.arch) &&& 0x3 ≠ 0 then
      { dev := this, events := [], ret := Ret.value (-EINVAL) }
    else if zio.len &&& 0x3 ≠ 0 then
      { dev := this, events := [], ret := Ret.value (-EINVAL) }
    else if zio.len = 0 then
      { dev := this, events := [], ret := Ret.value 0 }
    else ioctl_dispatch k this ioctlnum zio fuel
  else ioctl_dispatch k this ioctlnum zio fuel

/-- The library call `zf_reset(fd)` of `libzfifo.c`: `ioctl(fd, IOCTL_RESET, 0)`. -/
def zf_reset (k : Kernel) (this : zfifo_device_data) (fuel : Nat) : CallResult :=
  zfifo_ioctl k this IOCTL_RESET 0 fuel

/-! ## Observers and predicates used in the statements -/

/-- The scatterlist `alloc_sg_buf` hands to its descriptor loop: the pinned
pages, filled by the fill loop and mapped by `dma_map_sg`. -/
def mapped_sg (k : Kernel) (bufp len : Nat) (dir : dma_data_direction) : List Seg :=
  let write := decide (dir = dma_data_direction.DMA_FROM_DEVICE)
  let npages := k.get_user_pages bufp (npages_req k.arch bufp len) write
  k.dma_map_sg (fill_sgl k.arch k.pages npages.toNat 0 (first_page_offset k.arch bufp) len) dir

/-- The bus address of descriptor slot `d` of a ring whose first descriptor is
at `phys`: descriptors are `0x40` bytes (16 words) apart. -/
def slot_addr (a : Arch) (phys d : Nat) : Nat :=
  (phys % 2 ^ DMA_ADDR_BITS a + 0x40 * d) % 2 ^ DMA_ADDR_BITS a

/-- The register stores among a sequence of actions, in program order. -/
def reg_writes : List Event → List (Nat × Nat)
  | [] => []
  | Event.reg idx val :: es => (idx, val) :: reg_writes es
  | _ :: es => reg_writes es

/-- The descriptor stores among a sequence of actions, in program order. -/
def desc_writes : List Event → List (Nat × Nat)
  | [] => []
  | Event.desc idx val :: es => (idx, val) :: desc_writes es
  | _ :: es => desc_writes es

/-- The page-pinning calls among a sequence of actions, in program order. -/
def pin_calls : List Event → List (Nat × Nat × Bool)
  | [] => []
  | Event.pin start nr write :: es => (start, nr, write) :: pin_calls es
  | _ :: es => pin_calls es

/-- The eight words of descriptor `k` in `mem`: next pointer, buffer address
`addr`, reserved zeros, control word with length field `len % 2 ^ 23` and flag
bits `flags`, status zero. -/
def SlotWords (a : Arch) (sg_phys : Nat) (mem : Nat → Nat) (k addr len flags : Nat) : Prop :=
  mem (k * 16 + 0) = ((sg_phys + 0x40 * (k + 1)) % 2 ^ DMA_ADDR_BITS a) % 2 ^ 32 ∧
  mem (k * 16 + 1) = ((sg_phys + 0x40 * (k + 1)) % 2 ^ DMA_ADDR_BITS a) / 2 ^ 32 ∧
  mem (k * 16 + 2) = addr % 2 ^ 32 ∧
  mem (k * 16 + 3) = addr / 2 ^ 32 ∧
  mem (k * 16 + 4) = 0 ∧
  mem (k * 16 + 5) = 0 ∧
  mem (k * 16 + 6) = len % 2 ^ 23 + flags ∧
  mem (k * 16 + 7) = 0

/-- Summary of a run of `desc_loop` over `rest` from a state whose current
slot `st.d-1` holds address `A`, length `L` and flag bits `F`. -/
def SuffixPost (a : Arch) (cap sg_phys num_sg : Nat) (rest : List Seg) (i : Nat)
    (st : DescState) (A L F : Nat) : Prop :=
  let st' := desc_loop a cap sg_phys num_sg i rest st
  let pl := placement a cap sg_phys num_sg i rest st
  st.d ≤ st'.d ∧ (rest ≠ [] → st.d < st'.d) ∧
  (∀ j, j < (st.d - 1) * 16 → st'.mem j = st.mem j) ∧
  (∀ x ∈ pl, st.d - 1 ≤ x) ∧
  (∃ m, m ≤ rest.length ∧ (∀ j, j < rest.length → (pl[j]? = some (st.d - 1) ↔ j < m)) ∧
    SlotWords a sg_phys st'.mem (st.d - 1) A (L + ((rest.take m).map sg_dma_len).sum) F) ∧
  (∀ k, st.d ≤ k → k < st'.d → ∃ f n sg, 0 < n ∧ f + n ≤ rest.length ∧ rest[f]? = some sg ∧
    (∀ j, j < rest.length → (pl[j]? = some k ↔ f ≤ j ∧ j < f + n)) ∧
    SlotWords a sg_phys st'.mem k (sg_dma_address a sg)
      ((((rest.drop f).take n).map sg_dma_len).sum) (if k = st'.d - 1 then 2 ^ 26 else 0))

/-- The invariant of the cap: every used control word is a 32-bit value whose
length field is below `cap`. -/
def LenBelow (cap : Nat) (st : DescState) : Prop :=
  ∀ k, k < st.d → st.mem (k * 16 + 6) < 2 ^ 32 ∧ st.mem (k * 16 + 6) % 2 ^ 23 < cap

/-! ## Concrete environments -/

/-- A 64-bit target with 4 KiB pages. -/
def arch64 : Arch := { aarch64 := true, PAGE_SHIFT := 12 }

/-- A 32-bit target with 4 KiB pages. -/
def arch32 : Arch := { aarch64 := false, PAGE_SHIFT := 12 }

/-- An environment in which every allocation succeeds, `get_user_pages` answers
`gup`, page `i` sits at bus address `0x80000000 + 0x1000 * i` and is mapped
one-to-one by `dma_map_sg`, the status registers read as complete, and
`copy_from_user` delivers `zio`. -/
def mkKernel (a : Arch) (gup : Nat → Nat → Bool → Int) (zio : zfifo_io) : Kernel :=
  { arch := a
    kmalloc_sg_map := true
    kmalloc_pages := fun _ => true
    get_user_pages := gup
    pages := fun i => i
    kcalloc_sgl := fun _ => true
    dma_map_sg := fun sgl _ =>
      sgl.map (fun e => { dma_address := 0x80000000 + 0x1000 * e.page + e.offset,
                          dma_length := e.length })
    reg_read := fun idx _ => if idx = MM2S_DMASR ∨ idx = S2MM_DMASR then DMASR_IOC_Irq else 0
    copy_from_user := fun _ => (0, zio) }

/-- The answer of `get_user_pages` when every requested page is pinned. -/
def gup_all : Nat → Nat → Bool → Int := fun _ nr _ => Int.ofNat nr

/-- The answer of `get_user_pages` when only the first page of the range is mapped. -/
def gup_one : Nat → Nat → Bool → Int := fun _ _ _ => 1

/-- The answer of `get_user_pages` when no page of the range is mapped. -/
def gup_none : Nat → Nat → Bool → Int := fun _ _ _ => 0

/-- A device as left by probe and setup: descriptor rings at bus addresses
`0x40000000` and `0x40200000`, `dmac_buf_len` as computed by probe. -/
def demo_dev : zfifo_device_data :=
  { tx_desc := fun _ => 0
    rx_desc := fun _ => 0
    tx_phys := 0x40000000
    rx_phys := 0x40200000
    dmac_buf_len := probe_dmac_buf_len }

/-- An environment for a transfer of 8192 bytes at `0x10ff8`, which spans
three pages, all of them pinned. -/
def demo_kernel : Kernel := mkKernel arch64 gup_all { len := 8192, data := 0x10ff8 }

/-- The mapping `alloc_sg_buf` returns for a send in `demo_kernel`: three
pages, the middle one folded into descriptor 0, two descriptors used. -/
def demo_map : sg_mapping :=
  { npages := 3
    sgl := [{ page := 0, length := 8, offset := 4088 },
            { page := 1, length := 4096, offset := 0 },
            { page := 2, length := 4088, offset := 0 }]
    dir := dma_data_direction.DMA_TO_DEVICE
    num_sg := 2 }

/-- The mapping `alloc_sg_buf` returns for a receive in `demo_kernel`. -/
def demo_map_rx : sg_mapping := { demo_map with dir := dma_data_direction.DMA_FROM_DEVICE }

/-- An environment like `demo_kernel` in which `dma_map_sg` fails: it maps no
entry and returns 0. -/
def unmapped_kernel : Kernel := { demo_kernel with dma_map_sg := fun _ _ => [] }

/-! ## Device setup -/

/-- Kernel error number `ENODEV`. -/
def ENODEV : Int := 19

/-- Kernel error number `ENOMEM`. -/
def ENOMEM : Int := 12

/-- Kernel constant `MAX_ERRNO`. -/
def MAX_ERRNO : Nat := 4095

/-- Kernel predicate `IS_ERR_OR_NULL(ptr)`: the pointer is `NULL` or lies in
the last `MAX_ERRNO` values of the address space. -/
def IS_ERR_OR_NULL (a : Arch) (ptr : Nat) : Bool :=
  decide (ptr = 0) || decide (2 ^ BITS_PER_LONG a - MAX_ERRNO ≤ ptr)

/-- The descriptor-region fields of `zfifo_device_data` that
`zfifo_device_setup` fills: the two bases returned by `dma_alloc_coherent`
(CPU pointer and bus address) and the first usable descriptor of each region
(CPU pointer `tx_desc`/`rx_desc`, bus address `tx_phys`/`rx_phys`). -/
structure desc_regions where
  tx_desc_base : Nat
  rx_desc_base : Nat
  tx_phys_base : Nat
  rx_phys_base : Nat
  tx_desc : Nat
  rx_desc : Nat
  tx_phys : Nat
  rx_phys : Nat
deriving DecidableEq, Repr

/-- The alignment skip `tx_offset` / `rx_offset` of `zfifo_device_setup`:
`base & 0x3f`, replaced by `0x40 - offset` when it is not zero. -/
def desc_offset (base : Nat) : Nat :=
  let offset := (base &&& 0x3f) % 2 ^ 32
  if offset ≠ 0 then (0x40 + 2 ^ 32 - offset) % 2 ^ 32 else offset

/-- The function `zfifo_device_setup(this)`. `this_null` says whether `this`
is `NULL`; `tx_alloc` and `rx_alloc` are what the two calls of
`dma_alloc_coherent` return (CPU pointer, bus address). The result is the
return value and, on success, the region fields. -/
def zfifo_device_setup (a : Arch) (this_null : Bool) (tx_alloc rx_alloc : Nat × Nat) :
    Int × Option desc_regions :=
  if this_null then (-ENODEV, none)
  else if IS_ERR_OR_NULL a tx_alloc.1 || IS_ERR_OR_NULL a rx_alloc.1 then (-ENOMEM, none)
  else
    let tx_offset := desc_offset tx_alloc.1
    let rx_offset := desc_offset rx_alloc.1
    let tx := (tx_alloc.1 + tx_offset) % 2 ^ BITS_PER_LONG a
    let rx := (rx_alloc.1 + rx_offset) % 2 ^ BITS_PER_LONG a
    (0, some
      { tx_desc_base := tx_alloc.1
        rx_desc_base := rx_alloc.1
        tx_phys_base := tx_alloc.2
        rx_phys_base := rx_alloc.2
        tx_desc := tx
        rx_desc := rx
        tx_phys := (tx_alloc.2 + tx_offset) % 2 ^ DMA_ADDR_BITS a
        rx_phys := (rx_alloc.2 + rx_offset) % 2 ^ DMA_ADDR_BITS a })

/-! ## Byte ranges described by descriptors -/

/-- The bus addresses `addr, addr+1, ..., addr+len-1` of a range of `len`
bytes, each taken modulo the width of a bus address. -/
def bus_range (a : Arch) (addr len : Nat) : List Nat :=
  (List.range len).map (fun i => (addr + i) % 2 ^ DMA_ADDR_BITS a)

/-- The field `buffer_address` of descriptor `k`, read back from its words 2
(low) and 3 (high). -/
def desc_addr (mem : Nat → Nat) (k : Nat) : Nat := mem (k * 16 + 2) + mem (k * 16 + 3) * 2 ^ 32

/-- The length field (control bits 22:0) of descriptor `k`. -/
def desc_len (mem : Nat → Nat) (k : Nat) : Nat := mem (k * 16 + 6) &&& 0x007FFFFF

/-- What the descriptors `0..d-1` describe: the concatenation of their bus
ranges `[buffer_address, buffer_address + length)`, read from descriptor
memory. -/
def desc_ranges (a : Arch) (mem : Nat → Nat) (d : Nat) : List Nat :=
  (List.range d).flatMap (fun k => bus_range a (desc_addr mem k) (desc_len mem k))

/-- What the mapped scatterlist describes, in the words of the specification:
the concatenation of the bus ranges of the segments, in order. -/
def spec_seg_ranges (a : Arch) (segs : List Seg) : List Nat :=
  segs.flatMap (fun sg => bus_range a (sg_dma_address a sg) (sg_dma_len sg))

/-- The sum of the length fields of descriptors `0..d-1`. -/
def desc_len_sum (mem : Nat → Nat) (d : Nat) : Nat := ((List.range d).map (desc_len mem)).sum

/-- Every used descriptor is well formed: described by a bus address, an exact
length below `2 ^ 23` and flag bits above the length field. -/
def SlotsExact (a : Arch) (sg_phys : Nat) (st : DescState) : Prop :=
  ∀ k, k < st.d → ∃ A L F, SlotWords a sg_phys st.mem k A L F ∧ A < 2 ^ DMA_ADDR_BITS a ∧
    L < 2 ^ 23 ∧ F % 2 ^ 23 = 0 ∧ F < 2 ^ 32

/-! ## Bus-contiguous transfers -/

/-- The entries `rest` follow one another on the bus, the first one starting
at bus address `start`. -/
def contig_from (a : Arch) : Nat → List Seg → Prop
  | _, [] => True
  | start, sg :: rest =>
    sg_dma_address a sg = start ∧
      contig_from a ((start + sg_dma_len sg) % 2 ^ DMA_ADDR_BITS a) rest

/-- Deciding `contig_from`, entry by entry. -/
def contig_from_dec (a : Arch) : (start : Nat) → (rest : List Seg) →
    Decidable (contig_from a start rest)
  | _, [] => isTrue trivial
  | start, sg :: rest =>
    @instDecidableAnd _ _ (Nat.decEq (sg_dma_address a sg) start)
      (contig_from_dec a ((start + sg_dma_len sg) % 2 ^ DMA_ADDR_BITS a) rest)

instance (a : Arch) (start : Nat) (rest : List Seg) : Decidable (contig_from a start rest) :=
  contig_from_dec a start rest

/-- A run of entries is bus-contiguous: each entry starts at the bus address
where its predecessor ends. -/
def BusContiguous (a : Arch) : List Seg → Prop
  | [] => True
  | x :: rest =>
    contig_from a ((sg_dma_address a x + sg_dma_len x) % 2 ^ DMA_ADDR_BITS a) rest

instance (a : Arch) (run : List Seg) : Decidable (BusContiguous a run) :=
  match run with
  | [] => isTrue trivial
  | x :: rest =>
    contig_from_dec a ((sg_dma_address a x + sg_dma_len x) % 2 ^ DMA_ADDR_BITS a) rest

/-! ## Partitions into runs -/

/-- A partition of the mapped entries allowed by the merge policy, in the
words of the specification: consecutive non-empty runs that make up `segs`,
every run bus-contiguous, every run of two or more entries with total length
strictly below `cap`, and the last entry in a run by itself. -/
def spec_valid_partition (a : Arch) (cap : Nat) (segs : List Seg) (P : List (List Seg)) : Prop :=
  P.flatten = segs ∧
  (∀ R ∈ P, R ≠ []) ∧
  (∀ R ∈ P, BusContiguous a R) ∧
  (∀ R ∈ P, 2 ≤ R.length → (R.map sg_dma_len).sum < cap) ∧
  (∀ R, P.getLast? = some R → R.length = 1)

/-- The runs `P`, laid out from scatterlist index `i`, respect the merge
policy and a run of two or more entries ends before the last index. -/
def RunsOK (a : Arch) (cap num_sg : Nat) : Nat → List (List Seg) → Prop
  | _, [] => True
  | i, R :: P =>
    R ≠ [] ∧ BusContiguous a R ∧
      (2 ≤ R.length → (R.map sg_dma_len).sum < cap ∧ i + R.length < num_sg) ∧
      RunsOK a cap num_sg (i + R.length) P

/-! ## Scattered transfers and the store log -/

/-- The entries `rest` never continue their predecessor on the bus, as the
merge test sees it: the first one does not start at bus address `start`, and
each later one does not start where the one before it ends. -/
def scattered_from (a : Arch) : Nat → List Seg → Prop
  | _, [] => True
  | start, sg :: rest =>
    sg_dma_address a sg ≠ start ∧
      scattered_from a
        ((sg_dma_address a sg + sg_dma_len sg % 2 ^ 23) % 2 ^ DMA_ADDR_BITS a) rest

/-- An environment like `mkKernel` on the 64-bit target with every page
pinned, in which the pinned pages are physically scattered: page `i` of the
buffer sits in every other page frame, at bus address `0x80000000 + 0x2000 * i`. -/
def scattered_kernel (zio : zfifo_io) : Kernel :=
  { mkKernel arch64 gup_all zio with pages := fun i => 2 * i }

/-- The store log is sound: every store went to a word of a used descriptor,
and every used descriptor was stored to. -/
def LogOK (st : DescState) : Prop :=
  (∀ p ∈ st.log, p.1 < st.d * 16) ∧ (∀ k, k < st.d → ∃ v, (k * 16 + 7, v) ∈ st.log)

/-! ## Bitwise arithmetic -/

/-- Masking with `0x007FFFFF` keeps the low 23 bits. -/
theorem and_7FFFFF (x : Nat) : x &&& 0x007FFFFF = x % 2 ^ 23 :=
  Nat.and_pow_two_sub_one_eq_mod x 23

/-- Masking with `0xFFFFFFFF` keeps the low 32 bits. -/
theorem and_FFFFFFFF (x : Nat) : x &&& 0xFFFFFFFF = x % 2 ^ 32 :=
  Nat.and_pow_two_sub_one_eq_mod x 32

/-- Masking with `0x3` is the remainder modulo 4. -/
theorem and_3 (x : Nat) : x &&& 0x3 = x % 4 :=
  Nat.and_pow_two_sub_one_eq_mod x 2

/-- Masking a 32-bit value with `0xFF800000` clears its low 23 bits. -/
theorem and_FF800000 (x : Nat) (h : x < 2 ^ 32) : x &&& 0xFF800000 = x / 2 ^ 23 * 2 ^ 23 := by
  apply Nat.eq_of_testBit_eq
  intro i
  rw [Nat.testBit_and]
  have hm : (0xFF800000 : Nat) = (2 ^ 9 - 1) <<< 23 := by decide
  rw [hm, Nat.testBit_shiftLeft, Nat.testBit_two_pow_sub_one, ← Nat.shiftLeft_eq,
    Nat.testBit_shiftLeft, ← Nat.shiftRight_eq_div_pow, Nat.testBit_shiftRight]
  by_cases h1 : 23 ≤ i
  · have e : 23 + (i - 23) = i := by omega
    by_cases h2 : i - 23 < 9
    · simp [h1, h2, e]
    · have : x.testBit i = false := by
        apply Nat.testBit_lt_two_pow
        calc x < 2 ^ 32 := h
          _ ≤ 2 ^ i := Nat.pow_le_pow_right (by decide) (by omega)
      simp [h1, h2, e, this]
  · simp [h1]

/-- The control word: a 23-bit length OR-ed with the two frame flags is their sum. -/
theorem or_flags (l s e : Nat) (hl : l < 2 ^ 23) (hs : s = 0 ∨ s = 2 ^ 27) (he : e = 0 ∨ e = 2 ^ 26) :
    l ||| s ||| e = l + s + e := by
  have h1 : ∀ b, b < 2 ^ 26 → b ||| 2 ^ 26 = b + 2 ^ 26 := by
    intro b hb
    have := Nat.mul_add_lt_is_or hb 1
    rw [Nat.mul_one] at this
    rw [Nat.lor_comm, ← this]; omega
  have h2 : ∀ b, b < 2 ^ 27 → b ||| 2 ^ 27 = b + 2 ^ 27 := by
    intro b hb
    have := Nat.mul_add_lt_is_or hb 1
    rw [Nat.mul_one] at this
    rw [Nat.lor_comm, ← this]; omega
  rcases hs with rfl | rfl <;> rcases he with rfl | rfl
  · simp
  · simp; exact h1 l (by omega)
  · simp; exact h2 l (by omega)
  · rw [Nat.lor_assoc, Nat.lor_comm (2 ^ 27) (2 ^ 26), ← Nat.lor_assoc, h1 l (by omega),
      h2 _ (by omega)]
    omega



/-- Reading descriptor memory after a store. -/
theorem store_mem (st : DescState) (idx v j : Nat) :
    (st.store idx v).mem j = if j = idx then v % 2 ^ 32 else st.mem j := rfl

/-- A store leaves the descriptor counter alone. -/
theorem store_d (st : DescState) (idx v : Nat) : (st.store idx v).d = st.d := rfl

/-- A merging iteration keeps `d`. -/
theorem desc_step_merge_d (a : Arch) (cap sg_phys num_sg i : Nat) (sg : Seg) (st : DescState)
    (h : merge_test a cap num_sg i sg st = true) :
    (desc_step a cap sg_phys num_sg i sg st).d = st.d := by
  simp [desc_step, h, DescState.store]

/-- A merging iteration rewrites word 6 of descriptor `d-1` and nothing else. -/
theorem desc_step_merge_mem (a : Arch) (cap sg_phys num_sg i : Nat) (sg : Seg) (st : DescState)
    (h : merge_test a cap num_sg i sg st = true) (j : Nat) :
    (desc_step a cap sg_phys num_sg i sg st).mem j =
      if j = (st.d - 1) * 16 + 6 then
        ((st.mem ((st.d - 1) * 16 + 6) &&& 0xFF800000) +
          (((prev_len st + sg_dma_len sg) % 2 ^ 32) &&& 0x007FFFFF)) % 2 ^ 32
      else st.mem j := by
  simp [desc_step, h, DescState.store]

/-- A non-merging iteration increments `d`. -/
theorem desc_step_fresh_d (a : Arch) (cap sg_phys num_sg i : Nat) (sg : Seg) (st : DescState)
    (h : merge_test a cap num_sg i sg st = false) :
    (desc_step a cap sg_phys num_sg i sg st).d = st.d + 1 := by
  simp [desc_step, h, DescState.store]

/-- A non-merging iteration writes the eight words of descriptor `d` and nothing else. -/
theorem desc_step_fresh_mem (a : Arch) (cap sg_phys num_sg i : Nat) (sg : Seg) (st : DescState)
    (h : merge_test a cap num_sg i sg st = false) (j : Nat) :
    (desc_step a cap sg_phys num_sg i sg st).mem j =
      if j = st.d * 16 + 7 then 0
      else if j = st.d * 16 + 6 then
        ((sg_dma_len sg &&& 0x007FFFFF) ||| (if i = 0 then ctrl_sof else 0) |||
          (if i = num_sg - 1 then ctrl_eof else 0)) % 2 ^ 32
      else if j = st.d * 16 + 5 then 0
      else if j = st.d * 16 + 4 then 0
      else if j = st.d * 16 + 3 then
        HIGH32 a (sg_dma_address a sg) % 2 ^ 32
      else if j = st.d * 16 + 2 then LOW32 (sg_dma_address a sg) % 2 ^ 32
      else if j = st.d * 16 + 1 then
        HIGH32 a ((sg_phys + 0x40 * (st.d + 1)) % 2 ^ DMA_ADDR_BITS a) % 2 ^ 32
      else if j = st.d * 16 + 0 then
        LOW32 ((sg_phys + 0x40 * (st.d + 1)) % 2 ^ DMA_ADDR_BITS a) % 2 ^ 32
      else st.mem j := by
  simp [desc_step, h, DescState.store]

/-- The macro `LOW32` is the remainder modulo `2 ^ 32`. -/
theorem LOW32_eq (x : Nat) : LOW32 x = x % 2 ^ 32 := and_FFFFFFFF x

/-- The two targets. -/
theorem DMA_ADDR_BITS_cases (a : Arch) :
    (a.aarch64 = true ∧ DMA_ADDR_BITS a = 64) ∨ (a.aarch64 = false ∧ DMA_ADDR_BITS a = 32) := by
  unfold DMA_ADDR_BITS
  cases a.aarch64 <;> simp

/-- On a `dma_addr_t` value the macro `HIGH32` is the quotient by `2 ^ 32`, on both targets. -/
theorem HIGH32_eq (a : Arch) (x : Nat) (h : x < 2 ^ DMA_ADDR_BITS a) : HIGH32 a x = x / 2 ^ 32 := by
  unfold HIGH32
  rcases DMA_ADDR_BITS_cases a with ⟨h1, h2⟩ | ⟨h1, h2⟩
  · rw [h2] at h
    simp only [h1, if_true]
    rw [and_FFFFFFFF, Nat.shiftRight_eq_div_pow]
    omega
  · rw [h2] at h
    simp [h1]
    omega

/-- A `dma_addr_t` has at most 64 bits. -/
theorem two_pow_dma_le (a : Arch) : 2 ^ DMA_ADDR_BITS a ≤ 2 ^ 64 := by
  rcases DMA_ADDR_BITS_cases a with ⟨_, h2⟩ | ⟨_, h2⟩
  · rw [h2]
  · rw [h2]; decide

/-- The accessor `sg_dma_address` yields a `dma_addr_t` value. -/
theorem sg_dma_address_lt (a : Arch) (sg : Seg) : sg_dma_address a sg < 2 ^ DMA_ADDR_BITS a :=
  Nat.mod_lt _ (Nat.pos_pow_of_pos _ (by decide))

/-- The start-of-frame flag is bit 27. -/
theorem ctrl_sof_eq : ctrl_sof = 2 ^ 27 := by decide
/-- The end-of-frame flag is bit 26. -/
theorem ctrl_eof_eq : ctrl_eof = 2 ^ 26 := by decide

/-- The descriptor a non-merging iteration writes. -/
theorem desc_step_fresh_slot (a : Arch) (cap sg_phys num_sg i : Nat) (sg : Seg) (st : DescState)
    (h : merge_test a cap num_sg i sg st = false) :
    SlotWords a sg_phys (desc_step a cap sg_phys num_sg i sg st).mem st.d
      (sg_dma_address a sg) (sg_dma_len sg)
      ((if i = 0 then 2 ^ 27 else 0) + (if i = num_sg - 1 then 2 ^ 26 else 0)) := by
  have hA := sg_dma_address_lt a sg
  have hN : (sg_phys + 0x40 * (st.d + 1)) % 2 ^ DMA_ADDR_BITS a < 2 ^ DMA_ADDR_BITS a :=
    Nat.mod_lt _ (Nat.pos_pow_of_pos _ (by decide))
  have hA64 : sg_dma_address a sg < 2 ^ 64 := lt_of_lt_of_le hA (two_pow_dma_le a)
  have hN64 : (sg_phys + 0x40 * (st.d + 1)) % 2 ^ DMA_ADDR_BITS a < 2 ^ 64 :=
    lt_of_lt_of_le hN (two_pow_dma_le a)
  have hctrl : ((sg_dma_len sg &&& 0x007FFFFF) ||| (if i = 0 then ctrl_sof else 0) |||
      (if i = num_sg - 1 then ctrl_eof else 0)) =
      sg_dma_len sg % 2 ^ 23 + (if i = 0 then 2 ^ 27 else 0) +
        (if i = num_sg - 1 then 2 ^ 26 else 0) := by
    rw [and_7FFFFF, ctrl_sof_eq, ctrl_eof_eq]
    apply or_flags
    · exact Nat.mod_lt _ (by decide)
    · split <;> simp
    · split <;> simp
  refine ⟨?_, ?_, ?_, ?_, ?_, ?_, ?_, ?_⟩ <;>
    rw [desc_step_fresh_mem a cap sg_phys num_sg i sg st h]
  · simp [LOW32_eq]
  · simp; rw [HIGH32_eq a _ hN]; omega
  · simp [LOW32_eq]
  · simp; rw [HIGH32_eq a _ hA]; omega
  · simp
  · simp
  · simp only [hctrl]; simp
    have : sg_dma_len sg % 2 ^ 23 < 2 ^ 23 := Nat.mod_lt _ (by decide)
    split <;> split <;> omega
  · simp

/-- A non-merging iteration leaves the descriptors below `d` alone. -/
theorem desc_step_fresh_frame (a : Arch) (cap sg_phys num_sg i : Nat) (sg : Seg) (st : DescState)
    (h : merge_test a cap num_sg i sg st = false) (j : Nat) (hj : j < st.d * 16) :
    (desc_step a cap sg_phys num_sg i sg st).mem j = st.mem j := by
  rw [desc_step_fresh_mem a cap sg_phys num_sg i sg st h]
  simp only [show ¬ j = st.d * 16 + 7 by omega, show ¬ j = st.d * 16 + 6 by omega,
    show ¬ j = st.d * 16 + 5 by omega, show ¬ j = st.d * 16 + 4 by omega,
    show ¬ j = st.d * 16 + 3 by omega, show ¬ j = st.d * 16 + 2 by omega,
    show ¬ j = st.d * 16 + 1 by omega, show ¬ j = st.d * 16 + 0 by omega, if_false]

/-- A merging iteration adds the entry length to the length field of descriptor `d-1` and keeps its other words and its flag bits. -/
theorem desc_step_merge_slot (a : Arch) (cap sg_phys num_sg i : Nat) (sg : Seg) (st : DescState)
    (h : merge_test a cap num_sg i sg st = true) (A L F : Nat)
    (hs : SlotWords a sg_phys st.mem (st.d - 1) A L F) (hF : F % 2 ^ 23 = 0) (hF2 : F < 2 ^ 32) :
    SlotWords a sg_phys (desc_step a cap sg_phys num_sg i sg st).mem (st.d - 1) A
      (L + sg_dma_len sg) F := by
  obtain ⟨h0, h1, h2, h3, h4, h5, h6, h7⟩ := hs
  refine ⟨?_, ?_, ?_, ?_, ?_, ?_, ?_, ?_⟩ <;>
    rw [desc_step_merge_mem a cap sg_phys num_sg i sg st h]
  · simpa using h0
  · simpa using h1
  · simpa using h2
  · simpa using h3
  · simpa using h4
  · simpa using h5
  · simp only [if_true]
    have hlt : st.mem ((st.d - 1) * 16 + 6) < 2 ^ 32 := by rw [h6]; omega
    rw [and_FF800000 _ hlt, and_7FFFFF]
    unfold prev_len
    rw [and_7FFFFF, h6]
    omega
  · simpa using h7

/-- A merging iteration leaves every word but word 6 of descriptor `d-1` alone. -/
theorem desc_step_merge_frame (a : Arch) (cap sg_phys num_sg i : Nat) (sg : Seg) (st : DescState)
    (h : merge_test a cap num_sg i sg st = true) (j : Nat) (hj : j ≠ (st.d - 1) * 16 + 6) :
    (desc_step a cap sg_phys num_sg i sg st).mem j = st.mem j := by
  rw [desc_step_merge_mem a cap sg_phys num_sg i sg st h]
  simp [hj]

/-! ## The descriptor loop, slot by slot -/

/-- Only an interior scatterlist entry can be merged. -/
theorem merge_test_idx (a : Arch) (cap num_sg i : Nat) (sg : Seg) (st : DescState)
    (h : merge_test a cap num_sg i sg st = true) : i ≠ 0 ∧ i ≠ num_sg - 1 := by
  unfold merge_test at h
  simp only [Bool.and_eq_true, decide_eq_true_eq] at h
  exact h.1.1

/-- The slot description depends on the eight words of the slot only. -/
theorem slotWords_congr (a : Arch) (sg_phys : Nat) (m1 m2 : Nat → Nat) (k A L F : Nat)
    (h : ∀ j, k * 16 ≤ j → j < k * 16 + 8 → m2 j = m1 j)
    (hs : SlotWords a sg_phys m1 k A L F) : SlotWords a sg_phys m2 k A L F := by
  obtain ⟨h0, h1, h2, h3, h4, h5, h6, h7⟩ := hs
  refine ⟨?_, ?_, ?_, ?_, ?_, ?_, ?_, ?_⟩
  · rw [h _ (by omega) (by omega)]; exact h0
  · rw [h _ (by omega) (by omega)]; exact h1
  · rw [h _ (by omega) (by omega)]; exact h2
  · rw [h _ (by omega) (by omega)]; exact h3
  · rw [h _ (by omega) (by omega)]; exact h4
  · rw [h _ (by omega) (by omega)]; exact h5
  · rw [h _ (by omega) (by omega)]; exact h6
  · rw [h _ (by omega) (by omega)]; exact h7

/-- Rewriting the length and flag arguments of a slot description. -/
theorem slotWords_len (a : Arch) (sg_phys : Nat) (m1 : Nat → Nat) (k A L L2 F F2 : Nat)
    (hL : L = L2) (hF : F = F2)
    (hs : SlotWords a sg_phys m1 k A L F) : SlotWords a sg_phys m1 k A L2 F2 := by
  subst hL; subst hF; exact hs

/-- The loop invariant of `desc_loop`: from a state whose current slot is described, a run over the remaining entries folds an initial run of them into the current slot and puts the others, run by run, into fresh slots, the last of which carries the end-of-frame flag. -/
theorem desc_loop_suffix (a : Arch) (cap sg_phys num_sg : Nat) :
    ∀ (rest : List Seg) (i : Nat) (st : DescState) (A L F : Nat),
      0 < i → 0 < st.d → i + rest.length = num_sg →
      SlotWords a sg_phys st.mem (st.d - 1) A L F → F % 2 ^ 23 = 0 → F < 2 ^ 32 →
      SuffixPost a cap sg_phys num_sg rest i st A L F := by
  intro rest
  induction rest with
  | nil =>
    intro i st A L F _ _ _ hs _ _
    refine ⟨le_refl _, fun h => absurd rfl h, fun _ _ => rfl, ?_, ⟨0, le_refl _, ?_, ?_⟩, ?_⟩
    · intro x hx; simp [placement] at hx
    · intro j hj; simp at hj
    · simpa [desc_loop] using hs
    · intro k h1 h2; simp only [desc_loop] at h2; omega
  | cons sg rest ih =>
    intro i st A L F hi hd hn hs hF hF2
    simp only [List.length_cons] at hn
    unfold SuffixPost
    simp only [desc_loop, placement]
    cases hm : merge_test a cap num_sg i sg st with
    | true =>
      have hidx := merge_test_idx a cap num_sg i sg st hm
      have hrest : rest ≠ [] := by
        intro h0; subst h0; simp at hn; omega
      have hd1 := desc_step_merge_d a cap sg_phys num_sg i sg st hm
      have hs1 := desc_step_merge_slot a cap sg_phys num_sg i sg st hm A L F hs hF hF2
      rw [← hd1] at hs1
      obtain ⟨g1, g2, g3, g4, ⟨m, gm1, gm2, gm3⟩, g5⟩ :=
        ih (i + 1) (desc_step a cap sg_phys num_sg i sg st) A (L + sg_dma_len sg) F
          (by omega) (by omega) (by omega) hs1 hF hF2
      rw [hd1] at g1 g2 g3 g4 gm2 gm3 g5
      refine ⟨g1, fun _ => g2 hrest, ?_, ?_, ⟨m + 1, ?_, ?_, ?_⟩, ?_⟩
      · intro j hj
        rw [g3 j hj]
        exact desc_step_merge_frame a cap sg_phys num_sg i sg st hm j (by omega)
      · intro x hx
        rw [hd1] at hx
        rcases List.mem_cons.mp hx with rfl | hx
        · exact le_refl _
        · exact g4 x hx
      · simp; exact gm1
      · intro j hj
        rw [hd1]
        cases j with
        | zero => simp
        | succ j =>
          simp only [List.length_cons] at hj
          simp only [List.getElem?_cons_succ]
          rw [gm2 j (by omega)]
          omega
      · apply slotWords_len _ _ _ _ _ _ _ _ _ _ rfl gm3
        simp [Nat.add_assoc]
      · intro k hk1 hk2
        obtain ⟨f, n, sg', hn0, hfn, hsg, hpl, hw⟩ := g5 k hk1 hk2
        refine ⟨f + 1, n, sg', hn0, by simp; omega, by simpa using hsg, ?_, by simpa using hw⟩
        intro j hj
        rw [hd1]
        cases j with
        | zero =>
          simp only [List.getElem?_cons_zero, Option.some.injEq]
          omega
        | succ j =>
          simp only [List.length_cons] at hj
          simp only [List.getElem?_cons_succ]
          rw [hpl j (by omega)]
          omega
    | false =>
      have hd1 := desc_step_fresh_d a cap sg_phys num_sg i sg st hm
      have hs1 := desc_step_fresh_slot a cap sg_phys num_sg i sg st hm
      have hfr := desc_step_fresh_frame a cap sg_phys num_sg i sg st hm
      have hd1' : (desc_step a cap sg_phys num_sg i sg st).d - 1 = st.d := by omega
      rw [← hd1'] at hs1
      have hi0 : ¬ i = 0 := by omega
      simp only [hi0, if_false, Nat.zero_add] at hs1
      obtain ⟨g1, g2, g3, g4, ⟨m, gm1, gm2, gm3⟩, g5⟩ :=
        ih (i + 1) (desc_step a cap sg_phys num_sg i sg st) (sg_dma_address a sg)
          (sg_dma_len sg) (if i = num_sg - 1 then 2 ^ 26 else 0)
          (by omega) (by omega) (by omega) hs1 (by split <;> simp) (by split <;> simp)
      rw [hd1'] at g3 g4 gm2 gm3
      rw [hd1] at g1 g2 g5
      refine ⟨by omega, fun _ => by omega, ?_, ?_, ⟨0, Nat.zero_le _, ?_, ?_⟩, ?_⟩
      · intro j hj
        rw [g3 j (by omega)]
        exact hfr j (by omega)
      · intro x hx
        rw [hd1'] at hx
        rcases List.mem_cons.mp hx with rfl | hx
        · omega
        · have := g4 x hx; omega
      · intro j hj
        rw [hd1']
        constructor
        · intro h
          have hmem : st.d - 1 ∈ st.d :: placement a cap sg_phys num_sg (i + 1) rest
              (desc_step a cap sg_phys num_sg i sg st) := List.getElem?_mem h
          rcases List.mem_cons.mp hmem with h' | h'
          · omega
          · have := g4 _ h'; omega
        · intro h; omega
      · simp only [List.take_zero, List.map_nil, List.sum_nil, Nat.add_zero]
        apply slotWords_congr a sg_phys st.mem _ _ _ _ _ _ hs
        intro j hj1 hj2
        rw [g3 j (by omega)]
        exact hfr j (by omega)
      · intro k hk1 hk2
        by_cases hk : k = st.d
        · subst hk
          refine ⟨0, m + 1, sg, by omega, by simp; omega, by simp, ?_, ?_⟩
          · intro j hj
            rw [hd1']
            cases j with
            | zero => simp
            | succ j =>
              simp only [List.length_cons] at hj
              simp only [List.getElem?_cons_succ]
              rw [gm2 j (by omega)]
              omega
          · apply slotWords_len _ _ _ _ _ _ _ _ _ ?_ ?_ gm3
            · simp
            · by_cases hr : rest = []
              · subst hr
                simp only [List.length_nil] at hn
                simp only [desc_loop, hd1]
                have : i = num_sg - 1 := by omega
                simp [this]
              · have := g2 hr
                have h1 : ¬ i = num_sg - 1 := by
                  have : 0 < rest.length := List.length_pos.mpr hr
                  omega
                have h2 : ¬ st.d = (desc_loop a cap sg_phys num_sg (i + 1) rest
                    (desc_step a cap sg_phys num_sg i sg st)).d - 1 := by omega
                simp [h1, h2]
        · obtain ⟨f, n, sg', hn0, hfn, hsg, hpl, hw⟩ := g5 k (by omega) hk2
          refine ⟨f + 1, n, sg', hn0, by simp; omega, by simpa using hsg, ?_, by simpa using hw⟩
          intro j hj
          rw [hd1']
          cases j with
          | zero =>
            simp only [List.getElem?_cons_zero, Option.some.injEq]
            omega
          | succ j =>
            simp only [List.length_cons] at hj
            simp only [List.getElem?_cons_succ]
            rw [hpl j (by omega)]
            omega

/-- Entry 0 is never merged. -/
theorem merge_test_zero (a : Arch) (cap num_sg : Nat) (sg : Seg) (st : DescState) :
    merge_test a cap num_sg 0 sg st = false := by
  simp [merge_test]

/-- Every used slot of a complete run of `desc_loop` holds a consecutive run of
scatterlist entries: the address of the first, the sum of their lengths, the
start-of-frame flag in slot 0 only and the end-of-frame flag in the last slot only. -/
theorem desc_loop_slots (a : Arch) (cap sg_phys : Nat) (segs : List Seg) (st0 : DescState)
    (h0 : st0.d = 0) :
    let st' := desc_loop a cap sg_phys segs.length 0 segs st0
    let pl := placement a cap sg_phys segs.length 0 segs st0
    (segs ≠ [] → 0 < st'.d) ∧
    ∀ k, k < st'.d → ∃ f n sg, 0 < n ∧ f + n ≤ segs.length ∧ segs[f]? = some sg ∧
      (∀ j, j < segs.length → (pl[j]? = some k ↔ f ≤ j ∧ j < f + n)) ∧
      SlotWords a sg_phys st'.mem k (sg_dma_address a sg)
        ((((segs.drop f).take n).map sg_dma_len).sum)
        ((if k = 0 then 2 ^ 27 else 0) + (if k = st'.d - 1 then 2 ^ 26 else 0)) := by
  cases segs with
  | nil =>
    simp only [desc_loop, h0]
    exact ⟨fun h => absurd rfl h, fun k hk => absurd hk (Nat.not_lt_zero _)⟩
  | cons sg rest =>
    simp only [desc_loop, placement, List.length_cons, Nat.zero_add]
    have hm := merge_test_zero a cap (rest.length + 1) sg st0
    have hd1 := desc_step_fresh_d a cap sg_phys (rest.length + 1) 0 sg st0 hm
    have hs1 := desc_step_fresh_slot a cap sg_phys (rest.length + 1) 0 sg st0 hm
    rw [h0] at hd1 hs1
    simp only [if_true, Nat.zero_add, Nat.add_sub_cancel] at hs1 hd1
    have hd1' : (desc_step a cap sg_phys (rest.length + 1) 0 sg st0).d - 1 = 0 := by omega
    have hs1' : SlotWords a sg_phys (desc_step a cap sg_phys (rest.length + 1) 0 sg st0).mem
        ((desc_step a cap sg_phys (rest.length + 1) 0 sg st0).d - 1) (sg_dma_address a sg)
        (sg_dma_len sg) (2 ^ 27 + if 0 = rest.length then 2 ^ 26 else 0) := by
      rw [hd1']; exact hs1
    obtain ⟨g1, g2, _, g4, ⟨m, gm1, gm2, gm3⟩, g5⟩ :=
      desc_loop_suffix a cap sg_phys (rest.length + 1) rest 1
        (desc_step a cap sg_phys (rest.length + 1) 0 sg st0) (sg_dma_address a sg)
        (sg_dma_len sg) (2 ^ 27 + if 0 = rest.length then 2 ^ 26 else 0)
        (by omega) (by omega) (by omega) hs1' (by split <;> simp) (by split <;> simp)
    rw [hd1'] at g4 gm2 gm3
    rw [hd1] at g1 g2 g5
    refine ⟨fun _ => by omega, ?_⟩
    intro k hk
    by_cases hk0 : k = 0
    · subst hk0
      refine ⟨0, m + 1, sg, by omega, by omega, by simp, ?_, ?_⟩
      · intro j hj
        rw [hd1']
        cases j with
        | zero => simp
        | succ j =>
          simp only [List.getElem?_cons_succ]
          rw [gm2 j (by omega)]
          omega
      · apply slotWords_len _ _ _ _ _ _ _ _ _ ?_ ?_ gm3
        · simp
        · by_cases hr : rest = []
          · subst hr
            simp only [List.length_nil, Nat.zero_add] at hd1
            simp [desc_loop, hd1]
          · have := g2 hr
            have h1 : ¬ 0 = rest.length := by
              have : 0 < rest.length := List.length_pos.mpr hr
              omega
            have h2 : ¬ 0 = (desc_loop a cap sg_phys (rest.length + 1) 1 rest
                (desc_step a cap sg_phys (rest.length + 1) 0 sg st0)).d - 1 := by omega
            simp [h1, h2]
    · obtain ⟨f, n, sg', hn0, hfn, hsg, hpl, hw⟩ := g5 k (by omega) hk
      refine ⟨f + 1, n, sg', hn0, by omega, by simpa using hsg, ?_, ?_⟩
      · intro j hj
        rw [hd1']
        cases j with
        | zero =>
          simp only [List.getElem?_cons_zero, Option.some.injEq]
          omega
        | succ j =>
          simp only [List.getElem?_cons_succ]
          rw [hpl j (by omega)]
          omega
      · apply slotWords_len _ _ _ _ _ _ _ _ _ ?_ ?_ hw
        · simp
        · simp [hk0]

/-! ## `alloc_sg_buf` as a run of the descriptor loop -/

/-- When `alloc_sg_buf` returns a mapping, the descriptor memory, the count
`num_sg` and the actions are those of the descriptor loop run over the mapped
scatterlist from `d = 0`. -/
theorem alloc_sg_buf_some (k : Kernel) (this : zfifo_device_data) (bufp len : Nat)
    (dir : dma_data_direction) (sg_desc : Nat → Nat) (sg_phys : Nat) (m : sg_mapping)
    (h : (alloc_sg_buf k this bufp len dir sg_desc sg_phys).sg_map = some m) :
    (alloc_sg_buf k this bufp len dir sg_desc sg_phys).sg_desc =
      (desc_loop k.arch this.dmac_buf_len sg_phys (mapped_sg k bufp len dir).length 0
        (mapped_sg k bufp len dir) { mem := sg_desc, log := [], d := 0 }).mem ∧
    m.num_sg =
      (desc_loop k.arch this.dmac_buf_len sg_phys (mapped_sg k bufp len dir).length 0
        (mapped_sg k bufp len dir) { mem := sg_desc, log := [], d := 0 }).d ∧
    (alloc_sg_buf k this bufp len dir sg_desc sg_phys).events =
      Event.pin bufp (npages_req k.arch bufp len)
          (decide (dir = dma_data_direction.DMA_FROM_DEVICE)) ::
        (desc_loop k.arch this.dmac_buf_len sg_phys (mapped_sg k bufp len dir).length 0
          (mapped_sg k bufp len dir) { mem := sg_desc, log := [], d := 0 }).log.map
          (fun w => Event.desc w.1 w.2) := by
  simp only [alloc_sg_buf] at h ⊢
  split_ifs at h with h1 h2 h3 h4
  simp only [Option.some.injEq] at h
  subst h
  simp [h1, h2, h3, h4, mapped_sg]

/-- Reading bits 27 and 26 of a control word. -/
theorem flag_bits (l : Nat) (p q : Prop) [Decidable p] [Decidable q] (hl : l < 2 ^ 23) :
    ((l + ((if p then 2 ^ 27 else 0) + (if q then 2 ^ 26 else 0))).testBit 27 = true ↔ p) ∧
    ((l + ((if p then 2 ^ 27 else 0) + (if q then 2 ^ 26 else 0))).testBit 26 = true ↔ q) := by
  simp only [Nat.testBit_to_div_mod, decide_eq_true_eq]
  by_cases hp : p <;> by_cases hq : q <;> simp only [hp, hq, if_true, if_false] <;>
    constructor <;> constructor <;> intro h <;> first | trivial | omega

/-- C2. For every transfer for which `alloc_sg_buf` returns a mapping with at
least one mapped scatterlist entry, whatever the descriptor memory held before:
at least one descriptor is used; among the used descriptors `0..num_sg-1` the
start-of-frame bit (bit 27 of word 6) is set in descriptor 0 and in no other,
the end-of-frame bit (bit 26) is set in descriptor `num_sg-1` and in no other;
and when `num_sg = 1` descriptor 0 carries both. -/
theorem C2_frame_flags (k : Kernel) (this : zfifo_device_data) (bufp len : Nat)
    (dir : dma_data_direction) (sg_desc : Nat → Nat) (sg_phys : Nat) (m : sg_mapping)
    (h : (alloc_sg_buf k this bufp len dir sg_desc sg_phys).sg_map = some m)
    (hne : mapped_sg k bufp len dir ≠ []) :
    0 < m.num_sg ∧
    (∀ d, d < m.num_sg →
      (((alloc_sg_buf k this bufp len dir sg_desc sg_phys).sg_desc (d * 16 + 6)).testBit 27 = true
        ↔ d = 0) ∧
      (((alloc_sg_buf k this bufp len dir sg_desc sg_phys).sg_desc (d * 16 + 6)).testBit 26 = true
        ↔ d = m.num_sg - 1)) ∧
    (m.num_sg = 1 →
      ((alloc_sg_buf k this bufp len dir sg_desc sg_phys).sg_desc 6).testBit 27 = true ∧
      ((alloc_sg_buf k this bufp len dir sg_desc sg_phys).sg_desc 6).testBit 26 = true) := by
  obtain ⟨e1, e2, _⟩ := alloc_sg_buf_some k this bufp len dir sg_desc sg_phys m h
  obtain ⟨p1, p2⟩ := desc_loop_slots k.arch this.dmac_buf_len sg_phys (mapped_sg k bufp len dir)
    { mem := sg_desc, log := [], d := 0 } rfl
  rw [e1, e2]
  have key : ∀ d, d < (desc_loop k.arch this.dmac_buf_len sg_phys (mapped_sg k bufp len dir).length 0
        (mapped_sg k bufp len dir) { mem := sg_desc, log := [], d := 0 }).d →
      (((desc_loop k.arch this.dmac_buf_len sg_phys (mapped_sg k bufp len dir).length 0
        (mapped_sg k bufp len dir) { mem := sg_desc, log := [], d := 0 }).mem (d * 16 + 6)).testBit 27
          = true ↔ d = 0) ∧
      (((desc_loop k.arch this.dmac_buf_len sg_phys (mapped_sg k bufp len dir).length 0
        (mapped_sg k bufp len dir) { mem := sg_desc, log := [], d := 0 }).mem (d * 16 + 6)).testBit 26
          = true ↔ d = (desc_loop k.arch this.dmac_buf_len sg_phys
            (mapped_sg k bufp len dir).length 0 (mapped_sg k bufp len dir)
            { mem := sg_desc, log := [], d := 0 }).d - 1) := by
    intro d hd
    obtain ⟨f, n, sg, _, _, _, _, hw⟩ := p2 d hd
    obtain ⟨_, _, _, _, _, _, h6, _⟩ := hw
    rw [h6]
    exact flag_bits _ _ _ (Nat.mod_lt _ (by decide))
  refine ⟨p1 hne, key, ?_⟩
  intro h1
  have h0 := key 0 (by omega)
  rw [Nat.zero_mul, Nat.zero_add] at h0
  exact ⟨h0.1.mpr rfl, h0.2.mpr (by omega)⟩

/-! ## Descriptor words and register programming -/

/-- C6. After `alloc_sg_buf` returns a mapping, every used slot `d < num_sg`
holds a run `f, ..., f+n-1` of consecutive scatterlist entries (exactly the
entries the loop stored in slot `d`) and its eight words are: words 0 and 1 the
low and high 32 bits of `sg_phys + 0x40*(d+1)`; words 2 and 3 the low and high
32 bits of the bus address of entry `f`, the first one stored in the slot;
words 4 and 5 zero; word 6 the sum of the lengths of the entries of the slot in
bits 22:0, OR-ed with bit 27 exactly when `d = 0` and with bit 26 exactly when
`d = num_sg-1`; word 7 zero. -/
theorem C6_descriptor_words (k : Kernel) (this : zfifo_device_data) (bufp len : Nat)
    (dir : dma_data_direction) (sg_desc : Nat → Nat) (sg_phys : Nat) (m : sg_mapping)
    (h : (alloc_sg_buf k this bufp len dir sg_desc sg_phys).sg_map = some m) :
    ∀ d, d < m.num_sg →
      ∃ f n sg, 0 < n ∧ f + n ≤ (mapped_sg k bufp len dir).length ∧
        (mapped_sg k bufp len dir)[f]? = some sg ∧
        (∀ j, j < (mapped_sg k bufp len dir).length →
          ((placement k.arch this.dmac_buf_len sg_phys (mapped_sg k bufp len dir).length 0
              (mapped_sg k bufp len dir) { mem := sg_desc, log := [], d := 0 })[j]? = some d
            ↔ f ≤ j ∧ j < f + n)) ∧
        (alloc_sg_buf k this bufp len dir sg_desc sg_phys).sg_desc (d * 16 + 0) =
          ((sg_phys + 0x40 * (d + 1)) % 2 ^ DMA_ADDR_BITS k.arch) % 2 ^ 32 ∧
        (alloc_sg_buf k this bufp len dir sg_desc sg_phys).sg_desc (d * 16 + 1) =
          ((sg_phys + 0x40 * (d + 1)) % 2 ^ DMA_ADDR_BITS k.arch) / 2 ^ 32 ∧
        (alloc_sg_buf k this bufp len dir sg_desc sg_phys).sg_desc (d * 16 + 2) =
          sg_dma_address k.arch sg % 2 ^ 32 ∧
        (alloc_sg_buf k this bufp len dir sg_desc sg_phys).sg_desc (d * 16 + 3) =
          sg_dma_address k.arch sg / 2 ^ 32 ∧
        (alloc_sg_buf k this bufp len dir sg_desc sg_phys).sg_desc (d * 16 + 4) = 0 ∧
        (alloc_sg_buf k this bufp len dir sg_desc sg_phys).sg_desc (d * 16 + 5) = 0 ∧
        (alloc_sg_buf k this bufp len dir sg_desc sg_phys).sg_desc (d * 16 + 6) =
          (((((mapped_sg k bufp len dir).drop f).take n).map sg_dma_len).sum % 2 ^ 23) |||
            (if d = 0 then ctrl_sof else 0) ||| (if d = m.num_sg - 1 then ctrl_eof else 0) ∧
        (alloc_sg_buf k this bufp len dir sg_desc sg_phys).sg_desc (d * 16 + 7) = 0 := by
  obtain ⟨e1, e2, _⟩ := alloc_sg_buf_some k this bufp len dir sg_desc sg_phys m h
  obtain ⟨_, p2⟩ := desc_loop_slots k.arch this.dmac_buf_len sg_phys (mapped_sg k bufp len dir)
    { mem := sg_desc, log := [], d := 0 } rfl
  intro d hd
  rw [e2] at hd
  obtain ⟨f, n, sg, hn, hfn, hsg, hpl, h0, h1, h2, h3, h4, h5, h6, h7⟩ := p2 d hd
  rw [e1, e2]
  refine ⟨f, n, sg, hn, hfn, hsg, hpl, h0, h1, h2, h3, h4, h5, ?_, h7⟩
  rw [h6, ctrl_sof_eq, ctrl_eof_eq, or_flags _ _ _ (Nat.mod_lt _ (by decide))
    (by split <;> simp) (by split <;> simp)]
  omega

/-- Register stores of a concatenation. -/
theorem reg_writes_append (xs ys : List Event) :
    reg_writes (xs ++ ys) = reg_writes xs ++ reg_writes ys := by
  induction xs with
  | nil => rfl
  | cons x xs ih => cases x <;> simp [reg_writes, ih]

/-- Descriptor stores are not register stores. -/
theorem reg_writes_desc (ws : List (Nat × Nat)) :
    reg_writes (ws.map (fun w => Event.desc w.1 w.2)) = [] := by
  induction ws with
  | nil => rfl
  | cons x xs ih => simp [reg_writes, ih]

/-- The tail address when at least one descriptor is used: no wrap in `num_sg-1`. -/
theorem tail_desc_eq (a : Arch) (phys n : Nat) (hn : 0 < n) :
    tail_desc a phys n = (phys % 2 ^ DMA_ADDR_BITS a + 0x40 * (n - 1)) % 2 ^ DMA_ADDR_BITS a := by
  unfold tail_desc BITS_PER_LONG DMA_ADDR_BITS
  cases a.aarch64 <;> simp only [if_true, if_false, Bool.false_eq_true] <;> omega

/-- The register stores of an `alloc_sg_buf` that returned a mapping: none. -/
theorem alloc_sg_buf_reg_writes (k : Kernel) (this : zfifo_device_data) (bufp len : Nat)
    (dir : dma_data_direction) (sg_desc : Nat → Nat) (sg_phys : Nat) (m : sg_mapping)
    (h : (alloc_sg_buf k this bufp len dir sg_desc sg_phys).sg_map = some m) :
    reg_writes (alloc_sg_buf k this bufp len dir sg_desc sg_phys).events = [] := by
  obtain ⟨_, _, e3⟩ := alloc_sg_buf_some k this bufp len dir sg_desc sg_phys m h
  rw [e3]
  simp [reg_writes, reg_writes_desc]

/-- The first five register stores of a send whose `alloc_sg_buf` returned a mapping. -/
theorem zfifo_send_regs (k : Kernel) (this : zfifo_device_data) (bufp len fuel : Nat)
    (m : sg_mapping)
    (h : (alloc_sg_buf k this bufp len dma_data_direction.DMA_TO_DEVICE this.tx_desc
      this.tx_phys).sg_map = some m) :
    (reg_writes (zfifo_send k this bufp len fuel).events).take 5 =
      [(MM2S_CURDESC, LOW32 (this.tx_phys % 2 ^ DMA_ADDR_BITS k.arch)),
       (MM2S_CURDESC_H, HIGH32 k.arch (this.tx_phys % 2 ^ DMA_ADDR_BITS k.arch)),
       (MM2S_DMACR, DMACR_RS),
       (MM2S_TAILDESC, LOW32 (tail_desc k.arch this.tx_phys m.num_sg)),
       (MM2S_TAILDESC_H, HIGH32 k.arch (tail_desc k.arch this.tx_phys m.num_sg))] ∧
    (zfifo_send k this bufp len fuel).dev.tx_desc =
      (alloc_sg_buf k this bufp len dma_data_direction.DMA_TO_DEVICE this.tx_desc
        this.tx_phys).sg_desc := by
  have hr := alloc_sg_buf_reg_writes k this bufp len _ _ _ m h
  simp only [zfifo_send, h]
  cases spin ioc_pending (k.reg_read MM2S_DMASR) fuel 0 <;>
    simp [reg_writes_append, hr, reg_writes]

/-- The first five register stores of a receive whose `alloc_sg_buf` returned a mapping. -/
theorem zfifo_recv_regs (k : Kernel) (this : zfifo_device_data) (bufp len fuel : Nat)
    (m : sg_mapping)
    (h : (alloc_sg_buf k this bufp len dma_data_direction.DMA_FROM_DEVICE this.rx_desc
      this.rx_phys).sg_map = some m) :
    (reg_writes (zfifo_recv k this bufp len fuel).events).take 5 =
      [(S2MM_CURDESC, LOW32 (this.rx_phys % 2 ^ DMA_ADDR_BITS k.arch)),
       (S2MM_CURDESC_H, HIGH32 k.arch (this.rx_phys % 2 ^ DMA_ADDR_BITS k.arch)),
       (S2MM_DMACR, DMACR_RS),
       (S2MM_TAILDESC, LOW32 (tail_desc k.arch this.rx_phys m.num_sg)),
       (S2MM_TAILDESC_H, HIGH32 k.arch (tail_desc k.arch this.rx_phys m.num_sg))] ∧
    (zfifo_recv k this bufp len fuel).dev.rx_desc =
      (alloc_sg_buf k this bufp len dma_data_direction.DMA_FROM_DEVICE this.rx_desc
        this.rx_phys).sg_desc := by
  have hr := alloc_sg_buf_reg_writes k this bufp len _ _ _ m h
  simp only [zfifo_recv, h]
  cases spin ioc_pending (k.reg_read S2MM_DMASR) fuel 0 <;>
    simp [reg_writes_append, hr, reg_writes]

/-- A slot address is a `dma_addr_t` value. -/
theorem slot_addr_lt (a : Arch) (phys d : Nat) : slot_addr a phys d < 2 ^ DMA_ADDR_BITS a :=
  Nat.mod_lt _ (Nat.pos_pow_of_pos _ (by decide))

/-- Slot 0 is at the ring base. -/
theorem slot_addr_zero (a : Arch) (phys : Nat) :
    slot_addr a phys 0 = phys % 2 ^ DMA_ADDR_BITS a := by
  simp [slot_addr]

/-- The tail address is the address of slot `num_sg-1`. -/
theorem tail_desc_slot (a : Arch) (phys n : Nat) (hn : 0 < n) :
    tail_desc a phys n = slot_addr a phys (n - 1) := tail_desc_eq a phys n hn

/-- The head and tail registers where at least one entry is mapped. For every
send (resp. receive) whose `alloc_sg_buf` returned a mapping
with at least one mapped entry: the first five register stores are, in this
order, `MM2S_CURDESC` and `MM2S_CURDESC_H` (resp. `S2MM_`) with the low and high
32 bits of the bus address of slot 0, `DMACR` with the run bit, then `TAILDESC`
and `TAILDESC_H` with the low and high 32 bits of the bus address of slot
`num_sg-1`; and slot `num_sg-1` is the one whose control word has the
end-of-frame bit set. -/
theorem head_tail_registers (k : Kernel) (this : zfifo_device_data) (bufp len fuel : Nat)
    (m : sg_mapping) :
    ((alloc_sg_buf k this bufp len dma_data_direction.DMA_TO_DEVICE this.tx_desc
        this.tx_phys).sg_map = some m →
      mapped_sg k bufp len dma_data_direction.DMA_TO_DEVICE ≠ [] →
      0 < m.num_sg ∧
      (reg_writes (zfifo_send k this bufp len fuel).events).take 5 =
        [(MM2S_CURDESC, slot_addr k.arch this.tx_phys 0 % 2 ^ 32),
         (MM2S_CURDESC_H, slot_addr k.arch this.tx_phys 0 / 2 ^ 32),
         (MM2S_DMACR, DMACR_RS),
         (MM2S_TAILDESC, slot_addr k.arch this.tx_phys (m.num_sg - 1) % 2 ^ 32),
         (MM2S_TAILDESC_H, slot_addr k.arch this.tx_phys (m.num_sg - 1) / 2 ^ 32)] ∧
      ((zfifo_send k this bufp len fuel).dev.tx_desc ((m.num_sg - 1) * 16 + 6)).testBit 26
        = true) ∧
    ((alloc_sg_buf k this bufp len dma_data_direction.DMA_FROM_DEVICE this.rx_desc
        this.rx_phys).sg_map = some m →
      mapped_sg k bufp len dma_data_direction.DMA_FROM_DEVICE ≠ [] →
      0 < m.num_sg ∧
      (reg_writes (zfifo_recv k this bufp len fuel).events).take 5 =
        [(S2MM_CURDESC, slot_addr k.arch this.rx_phys 0 % 2 ^ 32),
         (S2MM_CURDESC_H, slot_addr k.arch this.rx_phys 0 / 2 ^ 32),
         (S2MM_DMACR, DMACR_RS),
         (S2MM_TAILDESC, slot_addr k.arch this.rx_phys (m.num_sg - 1) % 2 ^ 32),
         (S2MM_TAILDESC_H, slot_addr k.arch this.rx_phys (m.num_sg - 1) / 2 ^ 32)] ∧
      ((zfifo_recv k this bufp len fuel).dev.rx_desc ((m.num_sg - 1) * 16 + 6)).testBit 26
        = true) := by
  constructor
  · intro h hne
    obtain ⟨e1, e2, _⟩ := alloc_sg_buf_some k this bufp len _ _ _ m h
    obtain ⟨p1, p2⟩ := desc_loop_slots k.arch this.dmac_buf_len this.tx_phys
      (mapped_sg k bufp len dma_data_direction.DMA_TO_DEVICE)
      { mem := this.tx_desc, log := [], d := 0 } rfl
    have hpos : 0 < m.num_sg := by rw [e2]; exact p1 hne
    obtain ⟨r1, r2⟩ := zfifo_send_regs k this bufp len fuel m h
    refine ⟨hpos, ?_, ?_⟩
    · rw [r1, tail_desc_slot _ _ _ hpos, ← slot_addr_zero, LOW32_eq, LOW32_eq,
        HIGH32_eq _ _ (slot_addr_lt _ _ _), HIGH32_eq _ _ (slot_addr_lt _ _ _)]
    · rw [r2, e1, e2]
      obtain ⟨f, n, sg, _, _, _, _, hw⟩ := p2 _ (Nat.sub_lt (p1 hne) Nat.one_pos)
      obtain ⟨_, _, _, _, _, _, h6, _⟩ := hw
      rw [h6]
      exact (flag_bits _ _ _ (Nat.mod_lt _ (by decide))).2.mpr rfl
  · intro h hne
    obtain ⟨e1, e2, _⟩ := alloc_sg_buf_some k this bufp len _ _ _ m h
    obtain ⟨p1, p2⟩ := desc_loop_slots k.arch this.dmac_buf_len this.rx_phys
      (mapped_sg k bufp len dma_data_direction.DMA_FROM_DEVICE)
      { mem := this.rx_desc, log := [], d := 0 } rfl
    have hpos : 0 < m.num_sg := by rw [e2]; exact p1 hne
    obtain ⟨r1, r2⟩ := zfifo_recv_regs k this bufp len fuel m h
    refine ⟨hpos, ?_, ?_⟩
    · rw [r1, tail_desc_slot _ _ _ hpos, ← slot_addr_zero, LOW32_eq, LOW32_eq,
        HIGH32_eq _ _ (slot_addr_lt _ _ _), HIGH32_eq _ _ (slot_addr_lt _ _ _)]
    · rw [r2, e1, e2]
      obtain ⟨f, n, sg, _, _, _, _, hw⟩ := p2 _ (Nat.sub_lt (p1 hne) Nat.one_pos)
      obtain ⟨_, _, _, _, _, _, h6, _⟩ := hw
      rw [h6]
      exact (flag_bits _ _ _ (Nat.mod_lt _ (by decide))).2.mpr rfl

/-! ## Request validation, failure paths and reset -/

/-- The request numbers `IOCTL_SEND` and `IOCTL_RESET` differ. -/
theorem IOCTL_SEND_ne_RESET (a : Arch) : IOCTL_SEND a ≠ IOCTL_RESET := by
  unfold IOCTL_SEND sizeof_ptr BITS_PER_LONG
  cases a.aarch64 <;> decide

/-- The request numbers `IOCTL_RECV` and `IOCTL_RESET` differ. -/
theorem IOCTL_RECV_ne_RESET (a : Arch) : IOCTL_RECV a ≠ IOCTL_RESET := by
  unfold IOCTL_RECV sizeof_ptr BITS_PER_LONG
  cases a.aarch64 <;> decide

/-- The request numbers `IOCTL_SEND` and `IOCTL_RECV` differ. -/
theorem IOCTL_SEND_ne_RECV (a : Arch) : IOCTL_SEND a ≠ IOCTL_RECV a := by
  unfold IOCTL_SEND IOCTL_RECV sizeof_ptr BITS_PER_LONG
  cases a.aarch64 <;> decide

/-- The alignment test `(dma_addr_t)zio.data & 0x3`. -/
theorem and_3_dma (a : Arch) (x : Nat) : (x % 2 ^ DMA_ADDR_BITS a) &&& 0x3 = x % 4 := by
  rw [and_3]
  rcases DMA_ADDR_BITS_cases a with ⟨_, h2⟩ | ⟨_, h2⟩ <;> rw [h2] <;> omega

/-- Truncation to `dma_addr_t` keeps the remainder modulo 4. -/
theorem mod_dma_mod4 (a : Arch) (x : Nat) : x % 2 ^ DMA_ADDR_BITS a % 4 = x % 4 := by
  rcases DMA_ADDR_BITS_cases a with ⟨_, h2⟩ | ⟨_, h2⟩ <;> rw [h2] <;> omega

/-- C4. A SEND or RECV request (the parameter block was copied in) whose buffer
address or whose length is not a multiple of 4 makes `zfifo_ioctl` return
`-EINVAL` having performed no action at all (no page pinning, no descriptor
store, no register store) and leaving the device state as it was. -/
theorem C4_misaligned_rejected (k : Kernel) (this : zfifo_device_data)
    (ioctlnum param fuel : Nat)
    (hreq : ioctlnum = IOCTL_SEND k.arch ∨ ioctlnum = IOCTL_RECV k.arch)
    (hcopy : (k.copy_from_user param).1 = 0)
    (hmis : (k.copy_from_user param).2.data % 4 ≠ 0 ∨ (k.copy_from_user param).2.len % 4 ≠ 0) :
    (zfifo_ioctl k this ioctlnum param fuel).ret = Ret.value (-EINVAL) ∧
    (zfifo_ioctl k this ioctlnum param fuel).events = [] ∧
    (zfifo_ioctl k this ioctlnum param fuel).dev = this := by
  have hne : ioctlnum ≠ IOCTL_RESET := by
    rcases hreq with h | h <;> rw [h]
    · exact IOCTL_SEND_ne_RESET _
    · exact IOCTL_RECV_ne_RESET _
  unfold zfifo_ioctl
  simp only [hne, ne_eq, not_false_eq_true, if_true, hcopy, not_true_eq_false, if_false,
    and_3_dma, and_3]
  by_cases hd : (k.copy_from_user param).2.data % 4 = 0
  · have hl : ¬ (k.copy_from_user param).2.len % 4 = 0 := by
      rcases hmis with h | h
      · exact absurd hd h
      · exact h
    simp [hd, hl, mod_dma_mod4]
  · simp [hd, mod_dma_mod4]

/-- C5 as stated fails: a SEND request with `len = 0` and the misaligned buffer
address `0x10001` is answered with `-EINVAL`, not with `0`. -/
theorem C5_zero_length_misaligned :
    ((mkKernel arch64 gup_all { len := 0, data := 0x10001 }).copy_from_user 0).2.len = 0 ∧
    (zfifo_ioctl (mkKernel arch64 gup_all { len := 0, data := 0x10001 }) demo_dev
      (IOCTL_SEND arch64) 0 0).ret = Ret.value (-EINVAL) ∧
    (zfifo_ioctl (mkKernel arch64 gup_all { len := 0, data := 0x10001 }) demo_dev
      (IOCTL_SEND arch64) 0 0).ret ≠ Ret.value 0 := by
  decide

/-- C5, amended. A SEND or RECV request (the parameter block was copied in)
with `len = 0` and a buffer address that is a multiple of 4 makes `zfifo_ioctl`
return `0` having performed no action at all (no page pinning, no descriptor
store, no register store) and leaving the device state as it was. -/
theorem C5_zero_length_noop (k : Kernel) (this : zfifo_device_data)
    (ioctlnum param fuel : Nat)
    (hreq : ioctlnum = IOCTL_SEND k.arch ∨ ioctlnum = IOCTL_RECV k.arch)
    (hcopy : (k.copy_from_user param).1 = 0)
    (hlen : (k.copy_from_user param).2.len = 0)
    (halign : (k.copy_from_user param).2.data % 4 = 0) :
    (zfifo_ioctl k this ioctlnum param fuel).ret = Ret.value 0 ∧
    (zfifo_ioctl k this ioctlnum param fuel).events = [] ∧
    (zfifo_ioctl k this ioctlnum param fuel).dev = this := by
  have hne : ioctlnum ≠ IOCTL_RESET := by
    rcases hreq with h | h <;> rw [h]
    · exact IOCTL_SEND_ne_RESET _
    · exact IOCTL_RECV_ne_RESET _
  unfold zfifo_ioctl
  simp [hne, hcopy, and_3_dma, and_3, hlen, halign, mod_dma_mod4]

/-- When `alloc_sg_buf` returns `NULL`, `zfifo_send` and `zfifo_recv` fault on
`sg_map->num_sg`: neither returns a status, and neither stores to a register. -/
theorem send_recv_null (k : Kernel) (this : zfifo_device_data) (bufp len fuel : Nat) :
    ((alloc_sg_buf k this bufp len dma_data_direction.DMA_TO_DEVICE this.tx_desc
        this.tx_phys).sg_map = none →
      (zfifo_send k this bufp len fuel).ret = Ret.oops) ∧
    ((alloc_sg_buf k this bufp len dma_data_direction.DMA_FROM_DEVICE this.rx_desc
        this.rx_phys).sg_map = none →
      (zfifo_recv k this bufp len fuel).ret = Ret.oops) := by
  constructor <;> intro h
  · simp [zfifo_send, h]
  · simp [zfifo_recv, h]

/-- C8 fails on the code. A SEND and a RECV of 8192 bytes at `0x10000` when
`get_user_pages` pins no page: `alloc_sg_buf` returns `NULL`, the caller
dereferences it, and the call ends in a fault instead of returning a failure
status; the only action performed is the pinning attempt. -/
theorem C8_pin_failure_faults (fuel : Nat) :
    (alloc_sg_buf (mkKernel arch64 gup_none { len := 8192, data := 0x10000 }) demo_dev
      0x10000 8192 dma_data_direction.DMA_TO_DEVICE demo_dev.tx_desc demo_dev.tx_phys).sg_map
      = none ∧
    (zfifo_ioctl (mkKernel arch64 gup_none { len := 8192, data := 0x10000 }) demo_dev
      (IOCTL_SEND arch64) 0 fuel).ret = Ret.oops ∧
    (zfifo_ioctl (mkKernel arch64 gup_none { len := 8192, data := 0x10000 }) demo_dev
      (IOCTL_SEND arch64) 0 fuel).events = [Event.pin 0x10000 2 false] ∧
    (zfifo_ioctl (mkKernel arch64 gup_none { len := 8192, data := 0x10000 }) demo_dev
      (IOCTL_RECV arch64) 0 fuel).ret = Ret.oops ∧
    (zfifo_ioctl (mkKernel arch64 gup_none { len := 8192, data := 0x10000 }) demo_dev
      (IOCTL_RECV arch64) 0 fuel).events = [Event.pin 0x10000 2 true] := by
  refine ⟨by decide, rfl, rfl, rfl, rfl⟩

/-- C10 fails on the code. The reset request `zf_reset`, that is `zfifo_ioctl`
with `IOCTL_RESET`, returns `0` without any register store: the reset bit is
written to neither control register. -/
theorem C10_ioctl_reset_writes_nothing (k : Kernel) (this : zfifo_device_data) (fuel : Nat) :
    (zf_reset k this fuel).ret = Ret.value 0 ∧
    (zf_reset k this fuel).events = [] ∧
    reg_writes (zf_reset k this fuel).events = [] := by
  have h1 : ¬ IOCTL_RESET = IOCTL_SEND k.arch := fun h => IOCTL_SEND_ne_RESET _ h.symm
  have h2 : ¬ IOCTL_RESET = IOCTL_RECV k.arch := fun h => IOCTL_RECV_ne_RESET _ h.symm
  simp [zf_reset, zfifo_ioctl, ioctl_dispatch, h1, h2, reg_writes]

/-- What the reset primitive run at probe time does: `zfifo_dmac_reset` stores
the reset bit to `MM2S_DMACR`, polls it until the bit reads back clear, does the
same with `S2MM_DMACR`, and completes, provided each register clears within the
fuel. -/
theorem zfifo_dmac_reset_writes (k : Kernel) (this : zfifo_device_data) (fuel n1 n2 : Nat)
    (h1 : spin reset_pending (k.reg_read MM2S_DMACR) fuel 0 = some n1)
    (h2 : spin reset_pending (k.reg_read S2MM_DMACR) fuel 0 = some n2) :
    (zfifo_dmac_reset k this fuel).ret = Ret.value 0 ∧
    (zfifo_dmac_reset k this fuel).events =
      [Event.reg MM2S_DMACR DMACR_RESET, Event.reg S2MM_DMACR DMACR_RESET] := by
  simp [zfifo_dmac_reset, h1, h2]

/-- C1 fails on the code. A transfer of 8192 bytes at the page-aligned address
`0x10000` asks for 2 pages; when `get_user_pages` pins only the first one (a
positive count), the fill loop builds the single segment (offset 0, length
4096): the lengths sum to 4096, not to 8192, and the call still reports
success. -/
theorem C1_short_pin_not_tiled :
    npages_req arch64 0x10000 8192 = 2 ∧
    (mkKernel arch64 gup_one { len := 8192, data := 0x10000 }).get_user_pages 0x10000 2 false = 1 ∧
    (alloc_sg_buf (mkKernel arch64 gup_one { len := 8192, data := 0x10000 }) demo_dev
      0x10000 8192 dma_data_direction.DMA_TO_DEVICE demo_dev.tx_desc demo_dev.tx_phys).sg_map
      = some { npages := 1, sgl := [{ page := 0, length := 4096, offset := 0 }],
               dir := dma_data_direction.DMA_TO_DEVICE, num_sg := 1 } ∧
    (([{ page := 0, length := 4096, offset := 0 }] : List SgEntry).map SgEntry.length).sum
      ≠ 8192 ∧
    (zfifo_ioctl (mkKernel arch64 gup_one { len := 8192, data := 0x10000 }) demo_dev
      (IOCTL_SEND arch64) 0 1).ret = Ret.value 0 := by
  decide

/-- C3 fails on the code. The cap computed by probe is `2^20 - 1 = 1048575`.
A SEND with buffer address `0x10008` and length `2^64 - 4`: `udata + len` wraps,
one page is requested and pinned, the fill loop stores the page length
`0xFFFFFFFC`, and the single descriptor written has the length field
`0x7FFFFC = 8388604`, above the cap. -/
theorem C3_wrapped_length_exceeds_cap :
    probe_dmac_buf_len = 2 ^ 20 - 1 ∧
    npages_req arch64 0x10008 (2 ^ 64 - 4) = 1 ∧
    (alloc_sg_buf (mkKernel arch64 gup_all { len := 2 ^ 64 - 4, data := 0x10008 }) demo_dev
      0x10008 (2 ^ 64 - 4) dma_data_direction.DMA_TO_DEVICE demo_dev.tx_desc
      demo_dev.tx_phys).sg_map
      = some { npages := 1, sgl := [{ page := 0, length := 0xFFFFFFFC, offset := 8 }],
               dir := dma_data_direction.DMA_TO_DEVICE, num_sg := 1 } ∧
    (alloc_sg_buf (mkKernel arch64 gup_all { len := 2 ^ 64 - 4, data := 0x10008 }) demo_dev
      0x10008 (2 ^ 64 - 4) dma_data_direction.DMA_TO_DEVICE demo_dev.tx_desc
      demo_dev.tx_phys).sg_desc 6 &&& 0x007FFFFF = 8388604 ∧
    probe_dmac_buf_len ≤
      (alloc_sg_buf (mkKernel arch64 gup_all { len := 2 ^ 64 - 4, data := 0x10008 }) demo_dev
        0x10008 (2 ^ 64 - 4) dma_data_direction.DMA_TO_DEVICE demo_dev.tx_desc
        demo_dev.tx_phys).sg_desc 6 &&& 0x007FFFFF := by
  decide

/-! ## Concrete runs -/

/-- Witness of C2: the three-page send of `demo_kernel` uses two descriptors. -/
theorem C2_frame_flags_witness :
    0 < demo_map.num_sg ∧
    (∀ d, d < demo_map.num_sg →
      (((alloc_sg_buf demo_kernel demo_dev 0x10ff8 8192 dma_data_direction.DMA_TO_DEVICE
          demo_dev.tx_desc demo_dev.tx_phys).sg_desc (d * 16 + 6)).testBit 27 = true ↔ d = 0) ∧
      (((alloc_sg_buf demo_kernel demo_dev 0x10ff8 8192 dma_data_direction.DMA_TO_DEVICE
          demo_dev.tx_desc demo_dev.tx_phys).sg_desc (d * 16 + 6)).testBit 26 = true
        ↔ d = demo_map.num_sg - 1)) ∧
    (demo_map.num_sg = 1 →
      ((alloc_sg_buf demo_kernel demo_dev 0x10ff8 8192 dma_data_direction.DMA_TO_DEVICE
          demo_dev.tx_desc demo_dev.tx_phys).sg_desc 6).testBit 27 = true ∧
      ((alloc_sg_buf demo_kernel demo_dev 0x10ff8 8192 dma_data_direction.DMA_TO_DEVICE
          demo_dev.tx_desc demo_dev.tx_phys).sg_desc 6).testBit 26 = true) :=
  C2_frame_flags demo_kernel demo_dev 0x10ff8 8192 dma_data_direction.DMA_TO_DEVICE
    demo_dev.tx_desc demo_dev.tx_phys demo_map (by decide) (by decide)

/-- Witness of C4: a send from the misaligned address `0x10002`. -/
theorem C4_misaligned_rejected_witness :
    (zfifo_ioctl (mkKernel arch64 gup_all { len := 8192, data := 0x10002 }) demo_dev
      (IOCTL_SEND arch64) 0 1).ret = Ret.value (-EINVAL) ∧
    (zfifo_ioctl (mkKernel arch64 gup_all { len := 8192, data := 0x10002 }) demo_dev
      (IOCTL_SEND arch64) 0 1).events = [] ∧
    (zfifo_ioctl (mkKernel arch64 gup_all { len := 8192, data := 0x10002 }) demo_dev
      (IOCTL_SEND arch64) 0 1).dev = demo_dev :=
  C4_misaligned_rejected (mkKernel arch64 gup_all { len := 8192, data := 0x10002 }) demo_dev
    (IOCTL_SEND arch64) 0 1 (Or.inl rfl) rfl (Or.inl (by decide))

/-- Witness of the amended C5: a receive of length 0 at the aligned address `0x10000`. -/
theorem C5_zero_length_noop_witness :
    (zfifo_ioctl (mkKernel arch64 gup_all { len := 0, data := 0x10000 }) demo_dev
      (IOCTL_RECV arch64) 0 1).ret = Ret.value 0 ∧
    (zfifo_ioctl (mkKernel arch64 gup_all { len := 0, data := 0x10000 }) demo_dev
      (IOCTL_RECV arch64) 0 1).events = [] ∧
    (zfifo_ioctl (mkKernel arch64 gup_all { len := 0, data := 0x10000 }) demo_dev
      (IOCTL_RECV arch64) 0 1).dev = demo_dev :=
  C5_zero_length_noop (mkKernel arch64 gup_all { len := 0, data := 0x10000 }) demo_dev
    (IOCTL_RECV arch64) 0 1 (Or.inr rfl) rfl rfl (by decide)

/-- Witness of C6: the words of descriptor 1 of the three-page send of
`demo_kernel`, which holds the last page alone. -/
theorem C6_descriptor_words_witness :
    ∃ f n sg, 0 < n ∧
      f + n ≤ (mapped_sg demo_kernel 0x10ff8 8192 dma_data_direction.DMA_TO_DEVICE).length ∧
      (mapped_sg demo_kernel 0x10ff8 8192 dma_data_direction.DMA_TO_DEVICE)[f]? = some sg ∧
      (∀ j, j < (mapped_sg demo_kernel 0x10ff8 8192 dma_data_direction.DMA_TO_DEVICE).length →
        ((placement demo_kernel.arch demo_dev.dmac_buf_len demo_dev.tx_phys
            (mapped_sg demo_kernel 0x10ff8 8192 dma_data_direction.DMA_TO_DEVICE).length 0
            (mapped_sg demo_kernel 0x10ff8 8192 dma_data_direction.DMA_TO_DEVICE)
            { mem := demo_dev.tx_desc, log := [], d := 0 })[j]? = some 1
          ↔ f ≤ j ∧ j < f + n)) ∧
      (alloc_sg_buf demo_kernel demo_dev 0x10ff8 8192 dma_data_direction.DMA_TO_DEVICE
        demo_dev.tx_desc demo_dev.tx_phys).sg_desc (1 * 16 + 0) =
        ((demo_dev.tx_phys + 0x40 * (1 + 1)) % 2 ^ DMA_ADDR_BITS demo_kernel.arch) % 2 ^ 32 ∧
      (alloc_sg_buf demo_kernel demo_dev 0x10ff8 8192 dma_data_direction.DMA_TO_DEVICE
        demo_dev.tx_desc demo_dev.tx_phys).sg_desc (1 * 16 + 1) =
        ((demo_dev.tx_phys + 0x40 * (1 + 1)) % 2 ^ DMA_ADDR_BITS demo_kernel.arch) / 2 ^ 32 ∧
      (alloc_sg_buf demo_kernel demo_dev 0x10ff8 8192 dma_data_direction.DMA_TO_DEVICE
        demo_dev.tx_desc demo_dev.tx_phys).sg_desc (1 * 16 + 2) =
        sg_dma_address demo_kernel.arch sg % 2 ^ 32 ∧
      (alloc_sg_buf demo_kernel demo_dev 0x10ff8 8192 dma_data_direction.DMA_TO_DEVICE
        demo_dev.tx_desc demo_dev.tx_phys).sg_desc (1 * 16 + 3) =
        sg_dma_address demo_kernel.arch sg / 2 ^ 32 ∧
      (alloc_sg_buf demo_kernel demo_dev 0x10ff8 8192 dma_data_direction.DMA_TO_DEVICE
        demo_dev.tx_desc demo_dev.tx_phys).sg_desc (1 * 16 + 4) = 0 ∧
      (alloc_sg_buf demo_kernel demo_dev 0x10ff8 8192 dma_data_direction.DMA_TO_DEVICE
        demo_dev.tx_desc demo_dev.tx_phys).sg_desc (1 * 16 + 5) = 0 ∧
      (alloc_sg_buf demo_kernel demo_dev 0x10ff8 8192 dma_data_direction.DMA_TO_DEVICE
        demo_dev.tx_desc demo_dev.tx_phys).sg_desc (1 * 16 + 6) =
        (((((mapped_sg demo_kernel 0x10ff8 8192 dma_data_direction.DMA_TO_DEVICE).drop f).take
            n).map sg_dma_len).sum % 2 ^ 23) |||
          (if 1 = 0 then ctrl_sof else 0) ||| (if 1 = demo_map.num_sg - 1 then ctrl_eof else 0) ∧
      (alloc_sg_buf demo_kernel demo_dev 0x10ff8 8192 dma_data_direction.DMA_TO_DEVICE
        demo_dev.tx_desc demo_dev.tx_phys).sg_desc (1 * 16 + 7) = 0 :=
  C6_descriptor_words demo_kernel demo_dev 0x10ff8 8192 dma_data_direction.DMA_TO_DEVICE
    demo_dev.tx_desc demo_dev.tx_phys demo_map (by decide) 1 (by decide)

/-- The register stores of the three-page send and receive of
`demo_kernel`; the rings are at `0x40000000` and `0x40200000`, two descriptors
are used, so the tail is `0x40` above the head. -/
theorem head_tail_registers_witness :
    (0 < demo_map.num_sg ∧
      (reg_writes (zfifo_send demo_kernel demo_dev 0x10ff8 8192 1).events).take 5 =
        [(MM2S_CURDESC, 0x40000000), (MM2S_CURDESC_H, 0), (MM2S_DMACR, DMACR_RS),
         (MM2S_TAILDESC, 0x40000040), (MM2S_TAILDESC_H, 0)] ∧
      ((zfifo_send demo_kernel demo_dev 0x10ff8 8192 1).dev.tx_desc
        ((demo_map.num_sg - 1) * 16 + 6)).testBit 26 = true) ∧
    (0 < demo_map_rx.num_sg ∧
      (reg_writes (zfifo_recv demo_kernel demo_dev 0x10ff8 8192 1).events).take 5 =
        [(S2MM_CURDESC, 0x40200000), (S2MM_CURDESC_H, 0), (S2MM_DMACR, DMACR_RS),
         (S2MM_TAILDESC, 0x40200040), (S2MM_TAILDESC_H, 0)] ∧
      ((zfifo_recv demo_kernel demo_dev 0x10ff8 8192 1).dev.rx_desc
        ((demo_map_rx.num_sg - 1) * 16 + 6)).testBit 26 = true) :=
  ⟨(head_tail_registers demo_kernel demo_dev 0x10ff8 8192 1 demo_map).1
      (by decide) (by decide),
   (head_tail_registers demo_kernel demo_dev 0x10ff8 8192 1 demo_map_rx).2
      (by decide) (by decide)⟩

/-- C7 fails on the code. The result of `dma_map_sg` is never tested: when it
maps no entry and returns 0, the send of 8192 bytes at `0x10ff8` still reaches
the hardware and returns 0. No descriptor is written, `num_sg` is 0, and the
tail-descriptor registers receive `0x3FFFFFC0`, which is `0x40` below the bus
base `0x40000000` of the ring: it is the address of no slot, and no slot
carries end-of-frame. The same holds for the receive, with `0x401FFFC0`. -/
theorem C7_unmapped_tail_below_ring :
    mapped_sg unmapped_kernel 0x10ff8 8192 dma_data_direction.DMA_TO_DEVICE = [] ∧
    (alloc_sg_buf unmapped_kernel demo_dev 0x10ff8 8192 dma_data_direction.DMA_TO_DEVICE
      demo_dev.tx_desc demo_dev.tx_phys).sg_map = some { demo_map with num_sg := 0 } ∧
    desc_writes (zfifo_send unmapped_kernel demo_dev 0x10ff8 8192 1).events = [] ∧
    (reg_writes (zfifo_send unmapped_kernel demo_dev 0x10ff8 8192 1).events).take 5 =
      [(MM2S_CURDESC, 0x40000000), (MM2S_CURDESC_H, 0), (MM2S_DMACR, DMACR_RS),
       (MM2S_TAILDESC, 0x3FFFFFC0), (MM2S_TAILDESC_H, 0)] ∧
    (zfifo_send unmapped_kernel demo_dev 0x10ff8 8192 1).ret = Ret.value 0 ∧
    desc_writes (zfifo_recv unmapped_kernel demo_dev 0x10ff8 8192 1).events = [] ∧
    (reg_writes (zfifo_recv unmapped_kernel demo_dev 0x10ff8 8192 1).events).take 5 =
      [(S2MM_CURDESC, 0x40200000), (S2MM_CURDESC_H, 0), (S2MM_DMACR, DMACR_RS),
       (S2MM_TAILDESC, 0x401FFFC0), (S2MM_TAILDESC_H, 0)] ∧
    (zfifo_recv unmapped_kernel demo_dev 0x10ff8 8192 1).ret = Ret.value 0 ∧
    slot_addr arch64 0x40000000 0 = 0x40000000 ∧ slot_addr arch64 0x40200000 0 = 0x40200000 ∧
    (zfifo_ioctl unmapped_kernel demo_dev (IOCTL_SEND arch64) 0 1).ret = Ret.value 0 := by
  decide

/-! ## The merge cap -/

/-- One iteration keeps every length field below the cap. -/
theorem desc_step_len_below (a : Arch) (cap sg_phys num_sg i : Nat) (sg : Seg) (st : DescState)
    (hJ : LenBelow cap st) (hd : i ≠ 0 → 0 < st.d) (hlen : sg_dma_len sg < cap) :
    LenBelow cap (desc_step a cap sg_phys num_sg i sg st) ∧
      0 < (desc_step a cap sg_phys num_sg i sg st).d := by
  cases hm : merge_test a cap num_sg i sg st with
  | true =>
    have hidx := merge_test_idx a cap num_sg i sg st hm
    have hd0 := hd hidx.1
    have hcap : (prev_len st + sg_dma_len sg) % 2 ^ 32 < cap := by
      unfold merge_test at hm
      simp only [Bool.and_eq_true, decide_eq_true_eq] at hm
      exact hm.2
    rw [desc_step_merge_d a cap sg_phys num_sg i sg st hm]
    refine ⟨?_, hd0⟩
    intro k hk
    rw [desc_step_merge_d a cap sg_phys num_sg i sg st hm] at hk
    rw [desc_step_merge_mem a cap sg_phys num_sg i sg st hm]
    by_cases hkd : k * 16 + 6 = (st.d - 1) * 16 + 6
    · simp only [hkd, if_true]
      have hold := (hJ (st.d - 1) (by omega)).1
      rw [and_FF800000 _ hold, and_7FFFFF]
      constructor
      · exact Nat.mod_lt _ (by decide)
      · omega
    · simp only [hkd, if_false]
      exact hJ k hk
  | false =>
    rw [desc_step_fresh_d a cap sg_phys num_sg i sg st hm]
    refine ⟨?_, by omega⟩
    intro k hk
    rw [desc_step_fresh_d a cap sg_phys num_sg i sg st hm] at hk
    by_cases hkd : k = st.d
    · subst hkd
      obtain ⟨_, _, _, _, _, _, h6, _⟩ := desc_step_fresh_slot a cap sg_phys num_sg i sg st hm
      rw [h6]
      have : sg_dma_len sg % 2 ^ 23 ≤ sg_dma_len sg := Nat.mod_le _ _
      constructor
      · split <;> split <;> omega
      · split <;> split <;> omega
    · rw [desc_step_fresh_frame a cap sg_phys num_sg i sg st hm _ (by omega)]
      exact hJ k (by omega)

/-- The loop keeps every length field below the cap. -/
theorem desc_loop_len_below (a : Arch) (cap sg_phys num_sg : Nat) :
    ∀ (rest : List Seg) (i : Nat) (st : DescState),
      LenBelow cap st → (i ≠ 0 → 0 < st.d) → (∀ sg ∈ rest, sg_dma_len sg < cap) →
      LenBelow cap (desc_loop a cap sg_phys num_sg i rest st) := by
  intro rest
  induction rest with
  | nil => intro i st hJ _ _; exact hJ
  | cons sg rest ih =>
    intro i st hJ hd hlen
    obtain ⟨h1, h2⟩ := desc_step_len_below a cap sg_phys num_sg i sg st hJ hd
      (hlen sg (List.mem_cons_self _ _))
    exact ih (i + 1) _ h1 (fun _ => h2) (fun s hs => hlen s (List.mem_cons_of_mem _ hs))

/-- The cap holds whenever the mapped entries themselves are below it: if every
mapped scatterlist entry is shorter than `dmac_buf_len`, every descriptor the
loop writes, merged or not, has a length field below `dmac_buf_len`. -/
theorem desc_loop_cap (a : Arch) (cap sg_phys : Nat) (mem0 : Nat → Nat) (segs : List Seg)
    (hlen : ∀ sg ∈ segs, sg_dma_len sg < cap) :
    ∀ k, k < (desc_loop a cap sg_phys segs.length 0 segs { mem := mem0, log := [], d := 0 }).d →
      (desc_loop a cap sg_phys segs.length 0 segs { mem := mem0, log := [], d := 0 }).mem
        (k * 16 + 6) &&& 0x007FFFFF < cap := by
  intro k hk
  rw [and_7FFFFF]
  exact (desc_loop_len_below a cap sg_phys segs.length segs 0 _
    (fun k hk => absurd hk (Nat.not_lt_zero _)) (fun h => absurd rfl h) hlen k hk).2

/-! ## The fill loop -/

/-- The two widths of `unsigned long`. -/
theorem BITS_PER_LONG_cases (a : Arch) : BITS_PER_LONG a = 64 ∨ BITS_PER_LONG a = 32 := by
  unfold BITS_PER_LONG
  cases a.aarch64 <;> simp

/-- A page size that fits an `unsigned`. -/
theorem page_size_lt (a : Arch) (hs : a.PAGE_SHIFT < 32) : PAGE_SIZE a < 2 ^ 32 :=
  Nat.pow_lt_pow_right (by decide) hs

/-- The page size is positive. -/
theorem page_size_pos (a : Arch) : 0 < PAGE_SIZE a := Nat.pos_pow_of_pos _ (by decide)

/-- An `unsigned long` has at least 32 bits. -/
theorem two_pow_32_le_long (a : Arch) : 2 ^ 32 ≤ 2 ^ BITS_PER_LONG a := by
  rcases BITS_PER_LONG_cases a with h | h
  · rw [h]; decide
  · rw [h]

/-- The `page_len` of an iteration when nothing wraps. -/
theorem page_len_eq (a : Arch) (hs : a.PAGE_SHIFT < 32) (off rem : Nat)
    (hoff : off < PAGE_SIZE a) (hfit : off + rem < 2 ^ BITS_PER_LONG a) :
    page_len a off rem = if off + rem > PAGE_SIZE a then PAGE_SIZE a - off else rem := by
  have hP := page_size_lt a hs
  have hW := two_pow_32_le_long a
  unfold page_len
  simp only [Nat.mod_eq_of_lt hfit]
  split
  · have e : (PAGE_SIZE a + 2 ^ BITS_PER_LONG a - off) % 2 ^ BITS_PER_LONG a
        = PAGE_SIZE a - off := by
      have : PAGE_SIZE a + 2 ^ BITS_PER_LONG a - off
          = (PAGE_SIZE a - off) + 2 ^ BITS_PER_LONG a := by omega
      rw [this, Nat.add_mod_right, Nat.mod_eq_of_lt (by omega)]
    rw [e, Nat.mod_eq_of_lt (by omega)]
  · rw [Nat.mod_eq_of_lt (by omega)]

/-- The fill loop, run for `n` pages from in-page offset `off` with `rem`
bytes to go, where `n` is the number of pages the byte range
`[off, off + rem)` touches. -/
theorem fill_sgl_spec (a : Arch) (pages : Nat → Nat) (hs : a.PAGE_SHIFT < 32) :
    ∀ (n i off rem : Nat), off < PAGE_SIZE a → 0 < rem → off + rem < 2 ^ BITS_PER_LONG a →
      n * PAGE_SIZE a < off + rem + PAGE_SIZE a → off + rem ≤ n * PAGE_SIZE a →
      (fill_sgl a pages n i off rem).length = n ∧
      ((fill_sgl a pages n i off rem).map SgEntry.length).sum = rem ∧
      (∀ e, (fill_sgl a pages n i off rem)[0]? = some e → e.offset = off) ∧
      (∀ j e, 0 < j → (fill_sgl a pages n i off rem)[j]? = some e → e.offset = 0) ∧
      (∀ j e, j + 1 < n → (fill_sgl a pages n i off rem)[j]? = some e →
        e.offset + e.length = PAGE_SIZE a) ∧
      (∀ j e, (fill_sgl a pages n i off rem)[j]? = some e →
        e.page = pages (i + j) ∧ 0 < e.length ∧ e.offset + e.length ≤ PAGE_SIZE a) := by
  intro n
  induction n with
  | zero =>
    intro i off rem _ hrem _ _ h2
    simp at h2
    omega
  | succ n ih =>
    intro i off rem hoff hrem hfit h1 h2
    have hP := page_size_pos a
    have hmul : (n + 1) * PAGE_SIZE a = n * PAGE_SIZE a + PAGE_SIZE a := Nat.succ_mul _ _
    have hpl := page_len_eq a hs off rem hoff hfit
    simp only [fill_sgl]
    by_cases hc : off + rem > PAGE_SIZE a
    · rw [if_pos hc] at hpl
      have hrem' : (rem + 2 ^ BITS_PER_LONG a - page_len a off rem) % 2 ^ BITS_PER_LONG a
          = rem - (PAGE_SIZE a - off) := by
        rw [hpl]
        have : rem + 2 ^ BITS_PER_LONG a - (PAGE_SIZE a - off)
            = (rem - (PAGE_SIZE a - off)) + 2 ^ BITS_PER_LONG a := by omega
        rw [this, Nat.add_mod_right, Nat.mod_eq_of_lt (by omega)]
      rw [hrem', hpl]
      obtain ⟨g1, g2, g3, g4, g5, g6⟩ := ih (i + 1) 0 (rem - (PAGE_SIZE a - off)) hP
        (by omega) (by omega) (by omega) (by omega)
      refine ⟨by simp [g1], by simp [g2]; omega, ?_, ?_, ?_, ?_⟩
      · intro e he
        simp only [List.getElem?_cons_zero, Option.some.injEq] at he
        rw [← he]
      · intro j e hj he
        cases j with
        | zero => omega
        | succ j =>
          simp only [List.getElem?_cons_succ] at he
          cases j with
          | zero => exact g3 e he
          | succ j => exact g4 (j + 1) e (by omega) he
      · intro j e hj he
        cases j with
        | zero =>
          simp only [List.getElem?_cons_zero, Option.some.injEq] at he
          rw [← he]
          simp only
          omega
        | succ j =>
          simp only [List.getElem?_cons_succ] at he
          exact g5 j e (by omega) he
      · intro j e he
        cases j with
        | zero =>
          simp only [List.getElem?_cons_zero, Option.some.injEq] at he
          rw [← he]
          simp only
          exact ⟨rfl, by omega, by omega⟩
        | succ j =>
          simp only [List.getElem?_cons_succ] at he
          have := g6 j e he
          rw [show i + (j + 1) = i + 1 + j by omega]
          exact this
    · rw [if_neg hc] at hpl
      have hn : n = 0 := by
        rcases Nat.eq_zero_or_pos n with h | h
        · exact h
        · exfalso
          have : PAGE_SIZE a ≤ n * PAGE_SIZE a := Nat.le_mul_of_pos_left _ h
          omega
      subst hn
      rw [hpl]
      simp only [fill_sgl]
      refine ⟨rfl, by simp, ?_, ?_, ?_, ?_⟩
      · intro e he
        simp only [List.getElem?_cons_zero, Option.some.injEq] at he
        rw [← he]
      · intro j e hj he
        cases j with
        | zero => omega
        | succ j => simp at he
      · intro j e hj he
        omega
      · intro j e he
        cases j with
        | zero =>
          simp only [List.getElem?_cons_zero, Option.some.injEq] at he
          rw [← he]
          simp only
          exact ⟨rfl, hrem, by omega⟩
        | succ j => simp at he

/-- The first-page offset is the address modulo the page size. -/
theorem first_page_offset_eq (a : Arch) (hs : a.PAGE_SHIFT < 32) (udata : Nat) :
    first_page_offset a udata = udata % PAGE_SIZE a := by
  unfold first_page_offset PAGE_SIZE
  rw [Nat.and_pow_two_sub_one_eq_mod]
  apply Nat.mod_eq_of_lt
  calc udata % 2 ^ a.PAGE_SHIFT < 2 ^ a.PAGE_SHIFT := Nat.mod_lt _ (Nat.pos_pow_of_pos _ (by decide))
    _ < 2 ^ 32 := Nat.pow_lt_pow_right (by decide) hs

/-- The requested page count when `udata + len` does not wrap. -/
theorem npages_req_eq (a : Arch) (udata len : Nat) (hlen : 0 < len)
    (hfit : udata + len < 2 ^ BITS_PER_LONG a) :
    npages_req a udata len = (udata % PAGE_SIZE a + len - 1) / PAGE_SIZE a + 1 := by
  have hP := page_size_pos a
  unfold npages_req
  simp only [Nat.shiftRight_eq_div_pow]
  change ((((udata + len + 2 ^ BITS_PER_LONG a - 1) % 2 ^ BITS_PER_LONG a) / PAGE_SIZE a) +
    2 ^ BITS_PER_LONG a - udata / PAGE_SIZE a + 1) % 2 ^ BITS_PER_LONG a = _
  have e1 : (udata + len + 2 ^ BITS_PER_LONG a - 1) % 2 ^ BITS_PER_LONG a = udata + len - 1 := by
    have : udata + len + 2 ^ BITS_PER_LONG a - 1 = (udata + len - 1) + 2 ^ BITS_PER_LONG a := by
      omega
    rw [this, Nat.add_mod_right, Nat.mod_eq_of_lt (by omega)]
  rw [e1]
  have e2 : (udata + len - 1) / PAGE_SIZE a
      = udata / PAGE_SIZE a + (udata % PAGE_SIZE a + len - 1) / PAGE_SIZE a := by
    have hdm := Nat.div_add_mod udata (PAGE_SIZE a)
    have : udata + len - 1 = PAGE_SIZE a * (udata / PAGE_SIZE a)
        + (udata % PAGE_SIZE a + len - 1) := by omega
    rw [this, Nat.mul_add_div hP]
  rw [e2]
  have hle : (udata % PAGE_SIZE a + len - 1) / PAGE_SIZE a ≤ udata % PAGE_SIZE a + len - 1 :=
    Nat.div_le_self _ _
  have hmod : udata % PAGE_SIZE a ≤ udata := Nat.mod_le _ _
  generalize (udata % PAGE_SIZE a + len - 1) / PAGE_SIZE a = t at hle ⊢
  generalize udata / PAGE_SIZE a = q
  have : q + t + 2 ^ BITS_PER_LONG a - q + 1 = (t + 1) + 2 ^ BITS_PER_LONG a := by omega
  rw [this, Nat.add_mod_right, Nat.mod_eq_of_lt (by omega)]

/-- The segment coverage property where it holds. For a buffer of `len > 0`
bytes at `udata` that does not wrap the address space, when all
`npages_req` pages are pinned the fill loop builds `npages_req` segments that
tile `[udata, udata+len)`: segment `j` lies in page `j`, segment 0 starts at the
in-page offset of `udata`, every later segment starts at offset 0, every segment
but the last ends on the page boundary, no segment is empty, and the lengths sum
to `len`. -/
theorem fill_sgl_tiles (a : Arch) (pages : Nat → Nat) (hs : a.PAGE_SHIFT < 32)
    (udata len : Nat) (hlen : 0 < len) (hfit : udata + len < 2 ^ BITS_PER_LONG a) :
    (fill_sgl a pages (npages_req a udata len) 0 (first_page_offset a udata) len).length
      = npages_req a udata len ∧
    ((fill_sgl a pages (npages_req a udata len) 0 (first_page_offset a udata) len).map
      SgEntry.length).sum = len ∧
    (∀ e, (fill_sgl a pages (npages_req a udata len) 0 (first_page_offset a udata) len)[0]?
      = some e → e.offset = udata % PAGE_SIZE a) ∧
    (∀ j e, 0 < j →
      (fill_sgl a pages (npages_req a udata len) 0 (first_page_offset a udata) len)[j]?
        = some e → e.offset = 0) ∧
    (∀ j e, j + 1 < npages_req a udata len →
      (fill_sgl a pages (npages_req a udata len) 0 (first_page_offset a udata) len)[j]?
        = some e → e.offset + e.length = PAGE_SIZE a) ∧
    (∀ j e, (fill_sgl a pages (npages_req a udata len) 0 (first_page_offset a udata) len)[j]?
        = some e → e.page = pages j ∧ 0 < e.length ∧ e.offset + e.length ≤ PAGE_SIZE a) := by
  have hP := page_size_pos a
  have hoff : udata % PAGE_SIZE a < PAGE_SIZE a := Nat.mod_lt _ hP
  have hmod : udata % PAGE_SIZE a ≤ udata := Nat.mod_le _ _
  rw [first_page_offset_eq a hs, npages_req_eq a udata len hlen hfit]
  have hdm := Nat.div_add_mod (udata % PAGE_SIZE a + len - 1) (PAGE_SIZE a)
  have hr : (udata % PAGE_SIZE a + len - 1) % PAGE_SIZE a < PAGE_SIZE a := Nat.mod_lt _ hP
  have hmul : ((udata % PAGE_SIZE a + len - 1) / PAGE_SIZE a + 1) * PAGE_SIZE a
      = PAGE_SIZE a * ((udata % PAGE_SIZE a + len - 1) / PAGE_SIZE a) + PAGE_SIZE a := by
    rw [Nat.succ_mul, Nat.mul_comm]
  generalize (udata % PAGE_SIZE a + len - 1) / PAGE_SIZE a = t at hdm hmul ⊢
  generalize (udata % PAGE_SIZE a + len - 1) % PAGE_SIZE a = r at hdm hr
  generalize PAGE_SIZE a * t = pt at hdm hmul
  have := fill_sgl_spec a pages hs (t + 1) 0
    (udata % PAGE_SIZE a) len hoff hlen (by omega) (by omega) (by omega)
  simpa using this

/-! ## Device setup: alignment of the first descriptor -/

/-- Masking with `0x3f` is the remainder modulo 64. -/
theorem and_3f (x : Nat) : x &&& 0x3f = x % 64 :=
  Nat.and_pow_two_sub_one_eq_mod x 6

/-- The alignment skip is below 64 and brings the base to a multiple of 64. -/
theorem desc_offset_spec (base : Nat) :
    desc_offset base < 64 ∧ (base + desc_offset base) % 64 = 0 := by
  unfold desc_offset
  simp only [and_3f]
  have h : base % 64 < 64 := Nat.mod_lt _ (by decide)
  split <;> omega

/-- The skip of `zfifo_device_setup`, for arbitrary bases. For every pair of
bases for which `zfifo_device_setup` succeeds: the first usable descriptor is reached
by skipping fewer than 64 bytes from the base, the same skip for the CPU pointer
and the bus address; its CPU address (`tx_desc`, `rx_desc`) is a multiple of 64;
its bus address (`tx_phys`, `rx_phys`) is a multiple of 64 exactly when the bus
base and the CPU base have the same residue modulo 64. -/
theorem zfifo_device_setup_skip (a : Arch) (tx_alloc rx_alloc : Nat × Nat)
    (r : desc_regions)
    (h : zfifo_device_setup a false tx_alloc rx_alloc = (0, some r)) :
    (∃ skip, skip < 64 ∧ r.tx_desc = (tx_alloc.1 + skip) % 2 ^ BITS_PER_LONG a ∧
      r.tx_phys = (tx_alloc.2 + skip) % 2 ^ DMA_ADDR_BITS a) ∧
    (∃ skip, skip < 64 ∧ r.rx_desc = (rx_alloc.1 + skip) % 2 ^ BITS_PER_LONG a ∧
      r.rx_phys = (rx_alloc.2 + skip) % 2 ^ DMA_ADDR_BITS a) ∧
    r.tx_desc % 64 = 0 ∧ r.rx_desc % 64 = 0 ∧
    (r.tx_phys % 64 = 0 ↔ tx_alloc.2 % 64 = tx_alloc.1 % 64) ∧
    (r.rx_phys % 64 = 0 ↔ rx_alloc.2 % 64 = rx_alloc.1 % 64) := by
  unfold zfifo_device_setup at h
  simp only [Bool.false_eq_true, if_false] at h
  split at h
  · simp [ENOMEM] at h
  · simp only [Prod.mk.injEq, Option.some.injEq, true_and] at h
    subst h
    simp only
    obtain ⟨t1, t2⟩ := desc_offset_spec tx_alloc.1
    obtain ⟨r1, r2⟩ := desc_offset_spec rx_alloc.1
    have hW : (2 : Nat) ^ BITS_PER_LONG a = 2 ^ 64 ∨ (2 : Nat) ^ BITS_PER_LONG a = 2 ^ 32 := by
      rcases BITS_PER_LONG_cases a with h | h <;> rw [h] <;> simp
    have hD : (2 : Nat) ^ DMA_ADDR_BITS a = 2 ^ 64 ∨ (2 : Nat) ^ DMA_ADDR_BITS a = 2 ^ 32 := by
      rcases DMA_ADDR_BITS_cases a with ⟨_, h⟩ | ⟨_, h⟩ <;> rw [h] <;> simp
    refine ⟨⟨_, t1, rfl, rfl⟩, ⟨_, r1, rfl, rfl⟩, ?_, ?_, ?_, ?_⟩
    · rcases hW with h | h <;> rw [h] <;> omega
    · rcases hW with h | h <;> rw [h] <;> omega
    · rcases hD with h | h <;> rw [h] <;> omega
    · rcases hD with h | h <;> rw [h] <;> omega

/-- C12. For every pair of bases (CPU pointer and bus address) of a
descriptor region whose two addresses have the same residue modulo 64, as
every pair returned by `dma_alloc_coherent` has (both addresses are
page-aligned), and for which `zfifo_device_setup` succeeds: the first usable
descriptor is reached by skipping fewer than 64 bytes from the base, and its
CPU address (`tx_desc`, `rx_desc`) and its bus address (`tx_phys`, `rx_phys`)
are both multiples of 64. -/
theorem C12_descriptors_aligned (a : Arch) (tx_alloc rx_alloc : Nat × Nat)
    (r : desc_regions)
    (htx : tx_alloc.2 % 64 = tx_alloc.1 % 64) (hrx : rx_alloc.2 % 64 = rx_alloc.1 % 64)
    (h : zfifo_device_setup a false tx_alloc rx_alloc = (0, some r)) :
    (∃ skip, skip < 64 ∧ r.tx_desc = (tx_alloc.1 + skip) % 2 ^ BITS_PER_LONG a ∧
      r.tx_phys = (tx_alloc.2 + skip) % 2 ^ DMA_ADDR_BITS a) ∧
    (∃ skip, skip < 64 ∧ r.rx_desc = (rx_alloc.1 + skip) % 2 ^ BITS_PER_LONG a ∧
      r.rx_phys = (rx_alloc.2 + skip) % 2 ^ DMA_ADDR_BITS a) ∧
    r.tx_desc % 64 = 0 ∧ r.tx_phys % 64 = 0 ∧ r.rx_desc % 64 = 0 ∧ r.rx_phys % 64 = 0 := by
  obtain ⟨s1, s2, a1, a2, a3, a4⟩ := zfifo_device_setup_skip a tx_alloc rx_alloc r h
  exact ⟨s1, s2, a1, a3.mpr htx, a2, a4.mpr hrx⟩

/-- Page-aligned addresses, as `dma_alloc_coherent` returns them, have the same
residue modulo 64. -/
theorem page_aligned_residue (cpu bus : Nat) (hc : cpu % 4096 = 0) (hb : bus % 4096 = 0) :
    bus % 64 = cpu % 64 := by
  omega

/-- Witness of C12: page-aligned bases, as `dma_alloc_coherent` returns them;
nothing is skipped and all four addresses are multiples of 64. -/
theorem C12_descriptors_aligned_witness :
    (∃ skip, skip < 64 ∧
      (0xffff000012340000 : Nat) = (0xffff000012340000 + skip) % 2 ^ BITS_PER_LONG arch64 ∧
      (0x40000000 : Nat) = (0x40000000 + skip) % 2 ^ DMA_ADDR_BITS arch64) ∧
    (∃ skip, skip < 64 ∧
      (0xffff000012560000 : Nat) = (0xffff000012560000 + skip) % 2 ^ BITS_PER_LONG arch64 ∧
      (0x40200000 : Nat) = (0x40200000 + skip) % 2 ^ DMA_ADDR_BITS arch64) ∧
    (0xffff000012340000 : Nat) % 64 = 0 ∧ (0x40000000 : Nat) % 64 = 0 ∧
    (0xffff000012560000 : Nat) % 64 = 0 ∧ (0x40200000 : Nat) % 64 = 0 :=
  C12_descriptors_aligned arch64 (0xffff000012340000, 0x40000000)
    (0xffff000012560000, 0x40200000)
    { tx_desc_base := 0xffff000012340000
      rx_desc_base := 0xffff000012560000
      tx_phys_base := 0x40000000
      rx_phys_base := 0x40200000
      tx_desc := 0xffff000012340000
      rx_desc := 0xffff000012560000
      tx_phys := 0x40000000
      rx_phys := 0x40200000 }
    (page_aligned_residue _ _ (by decide) (by decide))
    (page_aligned_residue _ _ (by decide) (by decide)) (by decide)

/-! ## Order of the register stores -/

/-- All register stores of a send whose `alloc_sg_buf` returned a mapping. -/
theorem zfifo_send_all_regs (k : Kernel) (this : zfifo_device_data) (bufp len fuel : Nat)
    (m : sg_mapping)
    (h : (alloc_sg_buf k this bufp len dma_data_direction.DMA_TO_DEVICE this.tx_desc
      this.tx_phys).sg_map = some m) :
    ∃ post, reg_writes (zfifo_send k this bufp len fuel).events =
      [(MM2S_CURDESC, LOW32 (this.tx_phys % 2 ^ DMA_ADDR_BITS k.arch)),
       (MM2S_CURDESC_H, HIGH32 k.arch (this.tx_phys % 2 ^ DMA_ADDR_BITS k.arch)),
       (MM2S_DMACR, DMACR_RS),
       (MM2S_TAILDESC, LOW32 (tail_desc k.arch this.tx_phys m.num_sg)),
       (MM2S_TAILDESC_H, HIGH32 k.arch (tail_desc k.arch this.tx_phys m.num_sg))] ++ post ∧
      (post = [] ∨ post = [(MM2S_DMASR, DMASR_IOC_Irq ||| DMASR_ERR_Irq), (MM2S_DMACR, 0)]) := by
  have hr := alloc_sg_buf_reg_writes k this bufp len _ _ _ m h
  simp only [zfifo_send, h]
  cases spin ioc_pending (k.reg_read MM2S_DMASR) fuel 0 with
  | none => exact ⟨[], by simp [reg_writes_append, hr, reg_writes], Or.inl rfl⟩
  | some n => exact ⟨_, by simp [reg_writes_append, hr, reg_writes], Or.inr rfl⟩

/-- All register stores of a receive whose `alloc_sg_buf` returned a mapping. -/
theorem zfifo_recv_all_regs (k : Kernel) (this : zfifo_device_data) (bufp len fuel : Nat)
    (m : sg_mapping)
    (h : (alloc_sg_buf k this bufp len dma_data_direction.DMA_FROM_DEVICE this.rx_desc
      this.rx_phys).sg_map = some m) :
    ∃ post, reg_writes (zfifo_recv k this bufp len fuel).events =
      [(S2MM_CURDESC, LOW32 (this.rx_phys % 2 ^ DMA_ADDR_BITS k.arch)),
       (S2MM_CURDESC_H, HIGH32 k.arch (this.rx_phys % 2 ^ DMA_ADDR_BITS k.arch)),
       (S2MM_DMACR, DMACR_RS),
       (S2MM_TAILDESC, LOW32 (tail_desc k.arch this.rx_phys m.num_sg)),
       (S2MM_TAILDESC_H, HIGH32 k.arch (tail_desc k.arch this.rx_phys m.num_sg))] ++ post ∧
      (post = [] ∨ post = [(S2MM_DMASR, DMASR_IOC_Irq ||| DMASR_ERR_Irq), (S2MM_DMACR, 0)]) := by
  have hr := alloc_sg_buf_reg_writes k this bufp len _ _ _ m h
  simp only [zfifo_recv, h]
  cases spin ioc_pending (k.reg_read S2MM_DMASR) fuel 0 with
  | none => exact ⟨[], by simp [reg_writes_append, hr, reg_writes], Or.inl rfl⟩
  | some n => exact ⟨_, by simp [reg_writes_append, hr, reg_writes], Or.inr rfl⟩

/-- C11 as stated fails: in the three-page send of `demo_kernel` the run bit is
the third register store; the two stores before it are the current-descriptor
words, and the tail-descriptor words are stored only after it. -/
theorem C11_run_bit_before_tail :
    (reg_writes (zfifo_send demo_kernel demo_dev 0x10ff8 8192 1).events).take 3 =
      [(MM2S_CURDESC, 0x40000000), (MM2S_CURDESC_H, 0), (MM2S_DMACR, DMACR_RS)] ∧
    (reg_writes (zfifo_send demo_kernel demo_dev 0x10ff8 8192 1).events).drop 3 =
      [(MM2S_TAILDESC, 0x40000040), (MM2S_TAILDESC_H, 0),
       (MM2S_DMASR, DMASR_IOC_Irq ||| DMASR_ERR_Irq), (MM2S_DMACR, 0)] ∧
    (reg_writes (zfifo_recv demo_kernel demo_dev 0x10ff8 8192 1).events).take 3 =
      [(S2MM_CURDESC, 0x40200000), (S2MM_CURDESC_H, 0), (S2MM_DMACR, DMACR_RS)] ∧
    (reg_writes (zfifo_recv demo_kernel demo_dev 0x10ff8 8192 1).events).drop 3 =
      [(S2MM_TAILDESC, 0x40200040), (S2MM_TAILDESC_H, 0),
       (S2MM_DMASR, DMASR_IOC_Irq ||| DMASR_ERR_Irq), (S2MM_DMACR, 0)] := by
  decide

/-- C11, amended. In every send (resp. receive) whose `alloc_sg_buf` returned
a mapping, the register stores are, in program order: the two
current-descriptor words, then the run bit (`DMACR = DMACR_RS`), then the two
tail-descriptor words, and, once the completion bit was seen, the status
clear and `DMACR = 0`. The run bit is written after both current-descriptor
words and before both tail-descriptor words, and nowhere else. -/
theorem C11_run_bit_order (k : Kernel) (this : zfifo_device_data) (bufp len fuel : Nat)
    (m : sg_mapping) :
    ((alloc_sg_buf k this bufp len dma_data_direction.DMA_TO_DEVICE this.tx_desc
        this.tx_phys).sg_map = some m →
      ∃ c0 c1 t0 t1 post,
        reg_writes (zfifo_send k this bufp len fuel).events =
          [(MM2S_CURDESC, c0), (MM2S_CURDESC_H, c1), (MM2S_DMACR, DMACR_RS),
           (MM2S_TAILDESC, t0), (MM2S_TAILDESC_H, t1)] ++ post ∧
        (post = [] ∨
          post = [(MM2S_DMASR, DMASR_IOC_Irq ||| DMASR_ERR_Irq), (MM2S_DMACR, 0)])) ∧
    ((alloc_sg_buf k this bufp len dma_data_direction.DMA_FROM_DEVICE this.rx_desc
        this.rx_phys).sg_map = some m →
      ∃ c0 c1 t0 t1 post,
        reg_writes (zfifo_recv k this bufp len fuel).events =
          [(S2MM_CURDESC, c0), (S2MM_CURDESC_H, c1), (S2MM_DMACR, DMACR_RS),
           (S2MM_TAILDESC, t0), (S2MM_TAILDESC_H, t1)] ++ post ∧
        (post = [] ∨
          post = [(S2MM_DMASR, DMASR_IOC_Irq ||| DMASR_ERR_Irq), (S2MM_DMACR, 0)])) := by
  constructor
  · intro h
    obtain ⟨post, h1, h2⟩ := zfifo_send_all_regs k this bufp len fuel m h
    exact ⟨_, _, _, _, post, h1, h2⟩
  · intro h
    obtain ⟨post, h1, h2⟩ := zfifo_recv_all_regs k this bufp len fuel m h
    exact ⟨_, _, _, _, post, h1, h2⟩

/-- Witness of the amended C11: the three-page send and receive of `demo_kernel`. -/
theorem C11_run_bit_order_witness :
    (∃ c0 c1 t0 t1 post,
        reg_writes (zfifo_send demo_kernel demo_dev 0x10ff8 8192 1).events =
          [(MM2S_CURDESC, c0), (MM2S_CURDESC_H, c1), (MM2S_DMACR, DMACR_RS),
           (MM2S_TAILDESC, t0), (MM2S_TAILDESC_H, t1)] ++ post ∧
        (post = [] ∨
          post = [(MM2S_DMASR, DMASR_IOC_Irq ||| DMASR_ERR_Irq), (MM2S_DMACR, 0)])) ∧
    (∃ c0 c1 t0 t1 post,
        reg_writes (zfifo_recv demo_kernel demo_dev 0x10ff8 8192 1).events =
          [(S2MM_CURDESC, c0), (S2MM_CURDESC_H, c1), (S2MM_DMACR, DMACR_RS),
           (S2MM_TAILDESC, t0), (S2MM_TAILDESC_H, t1)] ++ post ∧
        (post = [] ∨
          post = [(S2MM_DMASR, DMASR_IOC_Irq ||| DMASR_ERR_Irq), (S2MM_DMACR, 0)])) :=
  ⟨(C11_run_bit_order demo_kernel demo_dev 0x10ff8 8192 1 demo_map).1 (by decide),
   (C11_run_bit_order demo_kernel demo_dev 0x10ff8 8192 1 demo_map_rx).2 (by decide)⟩

/-! ## First and last descriptor of a transfer -/

/-- The loop over a concatenation. -/
theorem desc_loop_append (a : Arch) (cap sg_phys num_sg : Nat) :
    ∀ (xs ys : List Seg) (i : Nat) (st : DescState),
      desc_loop a cap sg_phys num_sg i (xs ++ ys) st =
        desc_loop a cap sg_phys num_sg (i + xs.length) ys
          (desc_loop a cap sg_phys num_sg i xs st) := by
  intro xs
  induction xs with
  | nil => intro ys i st; simp [desc_loop]
  | cons x xs ih =>
    intro ys i st
    simp only [List.cons_append, desc_loop, List.length_cons, List.append_eq]
    rw [ih, show i + 1 + xs.length = i + (xs.length + 1) by omega]

/-- The slots of a concatenation. -/
theorem placement_append (a : Arch) (cap sg_phys num_sg : Nat) :
    ∀ (xs ys : List Seg) (i : Nat) (st : DescState),
      placement a cap sg_phys num_sg i (xs ++ ys) st =
        placement a cap sg_phys num_sg i xs st ++
          placement a cap sg_phys num_sg (i + xs.length) ys
            (desc_loop a cap sg_phys num_sg i xs st) := by
  intro xs
  induction xs with
  | nil => intro ys i st; simp [desc_loop, placement]
  | cons x xs ih =>
    intro ys i st
    simp only [List.cons_append, desc_loop, placement, List.length_cons, List.append_eq]
    rw [ih, show i + 1 + xs.length = i + (xs.length + 1) by omega]

/-- One iteration adds at most one descriptor and never removes one. -/
theorem desc_step_d (a : Arch) (cap sg_phys num_sg i : Nat) (sg : Seg) (st : DescState) :
    st.d ≤ (desc_step a cap sg_phys num_sg i sg st).d ∧
      (desc_step a cap sg_phys num_sg i sg st).d ≤ st.d + 1 := by
  cases hm : merge_test a cap num_sg i sg st with
  | true => rw [desc_step_merge_d a cap sg_phys num_sg i sg st hm]; omega
  | false => rw [desc_step_fresh_d a cap sg_phys num_sg i sg st hm]; omega

/-- After any iteration whose predecessors left a descriptor, there is a descriptor. -/
theorem desc_step_d_pos (a : Arch) (cap sg_phys num_sg i : Nat) (sg : Seg) (st : DescState)
    (hd : i ≠ 0 → 0 < st.d) : 0 < (desc_step a cap sg_phys num_sg i sg st).d := by
  cases hm : merge_test a cap num_sg i sg st with
  | true =>
    rw [desc_step_merge_d a cap sg_phys num_sg i sg st hm]
    exact hd (merge_test_idx a cap num_sg i sg st hm).1
  | false => rw [desc_step_fresh_d a cap sg_phys num_sg i sg st hm]; omega

/-- The loop uses at least the descriptors it found and at most one more per entry. -/
theorem desc_loop_d (a : Arch) (cap sg_phys num_sg : Nat) :
    ∀ (rest : List Seg) (i : Nat) (st : DescState),
      st.d ≤ (desc_loop a cap sg_phys num_sg i rest st).d ∧
        (desc_loop a cap sg_phys num_sg i rest st).d ≤ st.d + rest.length := by
  intro rest
  induction rest with
  | nil => intro i st; simp [desc_loop]
  | cons sg rest ih =>
    intro i st
    simp only [desc_loop, List.length_cons]
    have h1 := desc_step_d a cap sg_phys num_sg i sg st
    have h2 := ih (i + 1) (desc_step a cap sg_phys num_sg i sg st)
    omega

/-- Every entry is stored in a slot that is in use when the loop ends. -/
theorem placement_lt (a : Arch) (cap sg_phys num_sg : Nat) :
    ∀ (rest : List Seg) (i : Nat) (st : DescState), (i ≠ 0 → 0 < st.d) →
      ∀ x ∈ placement a cap sg_phys num_sg i rest st,
        x < (desc_loop a cap sg_phys num_sg i rest st).d := by
  intro rest
  induction rest with
  | nil => intro i st _ x hx; simp [placement] at hx
  | cons sg rest ih =>
    intro i st hd x hx
    simp only [placement, List.mem_cons] at hx
    simp only [desc_loop]
    have hpos := desc_step_d_pos a cap sg_phys num_sg i sg st hd
    rcases hx with rfl | hx
    · have := (desc_loop_d a cap sg_phys num_sg rest (i + 1)
        (desc_step a cap sg_phys num_sg i sg st)).1
      omega
    · exact ih (i + 1) _ (fun _ => hpos) x hx

/-- The last entry is never merged. -/
theorem merge_test_last (a : Arch) (cap num_sg : Nat) (sg : Seg) (st : DescState) :
    merge_test a cap num_sg (num_sg - 1) sg st = false := by
  simp [merge_test]

/-- The slot list has one entry per scatterlist entry. -/
theorem placement_length (a : Arch) (cap sg_phys num_sg : Nat) :
    ∀ (rest : List Seg) (i : Nat) (st : DescState),
      (placement a cap sg_phys num_sg i rest st).length = rest.length := by
  intro rest
  induction rest with
  | nil => intro i st; rfl
  | cons sg rest ih => intro i st; simp [placement, ih]

/-- Once descriptor 0 exists, the loop never touches its address words. -/
theorem desc_loop_keeps_addr (a : Arch) (cap sg_phys num_sg : Nat) :
    ∀ (rest : List Seg) (i : Nat) (st : DescState), 0 < st.d →
      (desc_loop a cap sg_phys num_sg i rest st).mem 2 = st.mem 2 ∧
      (desc_loop a cap sg_phys num_sg i rest st).mem 3 = st.mem 3 := by
  intro rest
  induction rest with
  | nil => intro i st _; exact ⟨rfl, rfl⟩
  | cons sg rest ih =>
    intro i st hd
    simp only [desc_loop]
    have hd' := (desc_step_d a cap sg_phys num_sg i sg st).1
    obtain ⟨h2, h3⟩ := ih (i + 1) (desc_step a cap sg_phys num_sg i sg st) (by omega)
    rw [h2, h3]
    cases hm : merge_test a cap num_sg i sg st with
    | true =>
      exact ⟨desc_step_merge_frame a cap sg_phys num_sg i sg st hm 2 (by omega),
        desc_step_merge_frame a cap sg_phys num_sg i sg st hm 3 (by omega)⟩
    | false =>
      exact ⟨desc_step_fresh_frame a cap sg_phys num_sg i sg st hm 2 (by omega),
        desc_step_fresh_frame a cap sg_phys num_sg i sg st hm 3 (by omega)⟩

/-- The shape of a complete run over at least two entries `x, xs..., last`:
at least two descriptors are used; entry 0 is stored in descriptor 0, whose
address words are those of entry 0; the last entry gets the last descriptor,
written by a non-merging iteration with the end-of-frame flag, and no other
entry is stored there. -/
theorem desc_loop_first_last (a : Arch) (cap sg_phys : Nat) (mem0 : Nat → Nat)
    (x : Seg) (xs : List Seg) (last : Seg) :
    2 ≤ (desc_loop a cap sg_phys (xs.length + 2) 0 (x :: (xs ++ [last]))
      { mem := mem0, log := [], d := 0 }).d ∧
    (placement a cap sg_phys (xs.length + 2) 0 (x :: (xs ++ [last]))
      { mem := mem0, log := [], d := 0 })[0]? = some 0 ∧
    (∀ j, j < xs.length + 2 →
      ((placement a cap sg_phys (xs.length + 2) 0 (x :: (xs ++ [last]))
          { mem := mem0, log := [], d := 0 })[j]?
        = some ((desc_loop a cap sg_phys (xs.length + 2) 0 (x :: (xs ++ [last]))
            { mem := mem0, log := [], d := 0 }).d - 1) ↔ j = xs.length + 1)) ∧
    SlotWords a sg_phys
      (desc_loop a cap sg_phys (xs.length + 2) 0 (x :: (xs ++ [last]))
        { mem := mem0, log := [], d := 0 }).mem
      ((desc_loop a cap sg_phys (xs.length + 2) 0 (x :: (xs ++ [last]))
        { mem := mem0, log := [], d := 0 }).d - 1)
      (sg_dma_address a last) (sg_dma_len last) (2 ^ 26) ∧
    (desc_loop a cap sg_phys (xs.length + 2) 0 (x :: (xs ++ [last]))
      { mem := mem0, log := [], d := 0 }).mem 2 = sg_dma_address a x % 2 ^ 32 ∧
    (desc_loop a cap sg_phys (xs.length + 2) 0 (x :: (xs ++ [last]))
      { mem := mem0, log := [], d := 0 }).mem 3 = sg_dma_address a x / 2 ^ 32 := by
  simp only [desc_loop, placement, desc_loop_append, placement_append, Nat.zero_add]
  -- the first iteration
  have hm0 := merge_test_zero a cap (xs.length + 2) x { mem := mem0, log := [], d := 0 }
  have hd0 := desc_step_fresh_d a cap sg_phys (xs.length + 2) 0 x _ hm0
  obtain ⟨_, _, a2, a3, _⟩ := desc_step_fresh_slot a cap sg_phys (xs.length + 2) 0 x _ hm0
  simp only [Nat.zero_mul, Nat.zero_add] at hd0 a2 a3
  generalize desc_step a cap sg_phys (xs.length + 2) 0 x { mem := mem0, log := [], d := 0 }
    = st1 at hd0 a2 a3 ⊢
  -- the interior iterations
  have hd2 := (desc_loop_d a cap sg_phys (xs.length + 2) xs 1 st1).1
  have hpl := placement_lt a cap sg_phys (xs.length + 2) xs 1 st1 (fun _ => by omega)
  have hplen := placement_length a cap sg_phys (xs.length + 2) xs 1 st1
  obtain ⟨k2, k3⟩ := desc_loop_keeps_addr a cap sg_phys (xs.length + 2) xs 1 st1 (by omega)
  generalize placement a cap sg_phys (xs.length + 2) 1 xs st1 = P at hpl hplen ⊢
  generalize desc_loop a cap sg_phys (xs.length + 2) 1 xs st1 = st2 at hd2 hpl k2 k3 ⊢
  -- the last iteration
  have hm : merge_test a cap (xs.length + 2) (1 + xs.length) last st2 = false := by
    have : 1 + xs.length = xs.length + 2 - 1 := by omega
    rw [this]; exact merge_test_last a cap _ last _
  have hd1 := desc_step_fresh_d a cap sg_phys (xs.length + 2) (1 + xs.length) last _ hm
  have hs1 := desc_step_fresh_slot a cap sg_phys (xs.length + 2) (1 + xs.length) last _ hm
  have hfr := desc_step_fresh_frame a cap sg_phys (xs.length + 2) (1 + xs.length) last _ hm
  have hi0 : ¬ (1 + xs.length = 0) := by omega
  have hi1 : 1 + xs.length = xs.length + 2 - 1 := by omega
  rw [if_neg hi0, if_pos hi1, Nat.zero_add] at hs1
  rw [hd1, hd0]
  simp only [Nat.add_sub_cancel]
  refine ⟨by omega, by rw [List.getElem?_cons_zero], ?_, hs1, ?_, ?_⟩
  · intro j hj
    cases j with
    | zero =>
      simp only [List.getElem?_cons_zero, Option.some.injEq]
      omega
    | succ j =>
      simp only [List.getElem?_cons_succ]
      by_cases hjl : j < P.length
      · rw [List.getElem?_append_left hjl]
        constructor
        · intro h
          have := hpl _ (List.getElem?_mem h)
          omega
        · intro h; omega
      · have hje : j = P.length := by omega
        subst hje
        simp [hplen]
  · rw [hfr 2 (by omega), k2, a2]
  · rw [hfr 3 (by omega), k3, a3]

/-! ## Interior entries and the first descriptor -/

/-- A list of at least two entries is its head, an interior and its last entry. -/
theorem list_first_last {α : Type} (l : List α) (first last : α) (h2 : 2 ≤ l.length)
    (hf : l.head? = some first) (hl : l.getLast? = some last) :
    ∃ xs, l = first :: (xs ++ [last]) := by
  cases l with
  | nil => simp at h2
  | cons x tl =>
    simp only [List.head?_cons, Option.some.injEq] at hf
    subst hf
    have htl : tl ≠ [] := by intro h; subst h; simp at h2
    refine ⟨tl.dropLast, ?_⟩
    have h1 : (x :: tl).getLast? = tl.getLast? := by
      cases tl with
      | nil => exact absurd rfl htl
      | cons y ys => simp [List.getLast?_cons_cons]
    rw [h1, List.getLast?_eq_getLast _ htl] at hl
    have := List.dropLast_append_getLast htl
    rw [Option.some.inj hl] at this
    rw [this]

/-- C14 as stated fails: in the three-page send of `demo_kernel` the mapped
entries are bus-contiguous, the slots of the three entries are 0, 0, 1, and
descriptor 0 carries the length `4104 = 8 + 4096` of entries 0 and 1, not the
length 8 of entry 0: entry 1 is folded into descriptor 0. -/
theorem C14_interior_folded_into_first :
    mapped_sg demo_kernel 0x10ff8 8192 dma_data_direction.DMA_TO_DEVICE =
      [{ dma_address := 0x80000ff8, dma_length := 8 },
       { dma_address := 0x80001000, dma_length := 4096 },
       { dma_address := 0x80002000, dma_length := 4088 }] ∧
    placement arch64 probe_dmac_buf_len 0x40000000 3 0
        (mapped_sg demo_kernel 0x10ff8 8192 dma_data_direction.DMA_TO_DEVICE)
        { mem := demo_dev.tx_desc, log := [], d := 0 } = [0, 0, 1] ∧
    (alloc_sg_buf demo_kernel demo_dev 0x10ff8 8192 dma_data_direction.DMA_TO_DEVICE
      demo_dev.tx_desc demo_dev.tx_phys).sg_desc 6 &&& 0x007FFFFF = 4104 ∧
    (4104 : Nat) ≠ 8 := by
  decide

/-- C14, amended. For every transfer with at least two mapped entries: at
least two descriptors are used; entry 0 opens descriptor 0, which has the
address of entry 0 and holds a run of `n` entries from entry 0 on that never
includes the last entry (interior entries may be folded into descriptor 0),
its 23-bit length field being the sum of the lengths of the run modulo `2^23`,
hence that sum itself when it is below `2^23`; the last entry is emitted as the
standalone descriptor `num_sg-1`, with exactly its address, no other entry is
stored there, and its 23-bit length field is the length of the last entry
modulo `2^23`, hence that length itself when it is below `2^23`. -/
theorem C14_first_last_descriptors (k : Kernel) (this : zfifo_device_data) (bufp len : Nat)
    (dir : dma_data_direction) (sg_desc : Nat → Nat) (sg_phys : Nat) (m : sg_mapping)
    (first last : Seg)
    (h : (alloc_sg_buf k this bufp len dir sg_desc sg_phys).sg_map = some m)
    (h2 : 2 ≤ (mapped_sg k bufp len dir).length)
    (hf : (mapped_sg k bufp len dir).head? = some first)
    (hl : (mapped_sg k bufp len dir).getLast? = some last) :
    2 ≤ m.num_sg ∧
    (alloc_sg_buf k this bufp len dir sg_desc sg_phys).sg_desc 2
      = sg_dma_address k.arch first % 2 ^ 32 ∧
    (alloc_sg_buf k this bufp len dir sg_desc sg_phys).sg_desc 3
      = sg_dma_address k.arch first / 2 ^ 32 ∧
    (∃ n, 0 < n ∧ n < (mapped_sg k bufp len dir).length ∧
      (∀ j, j < (mapped_sg k bufp len dir).length →
        ((placement k.arch this.dmac_buf_len sg_phys (mapped_sg k bufp len dir).length 0
            (mapped_sg k bufp len dir) { mem := sg_desc, log := [], d := 0 })[j]? = some 0
          ↔ j < n)) ∧
      (alloc_sg_buf k this bufp len dir sg_desc sg_phys).sg_desc 6 &&& 0x007FFFFF =
        (((mapped_sg k bufp len dir).take n).map sg_dma_len).sum % 2 ^ 23 ∧
      ((((mapped_sg k bufp len dir).take n).map sg_dma_len).sum < 2 ^ 23 →
        (alloc_sg_buf k this bufp len dir sg_desc sg_phys).sg_desc 6 &&& 0x007FFFFF =
          (((mapped_sg k bufp len dir).take n).map sg_dma_len).sum)) ∧
    (∀ j, j < (mapped_sg k bufp len dir).length →
      ((placement k.arch this.dmac_buf_len sg_phys (mapped_sg k bufp len dir).length 0
          (mapped_sg k bufp len dir) { mem := sg_desc, log := [], d := 0 })[j]?
        = some (m.num_sg - 1) ↔ j = (mapped_sg k bufp len dir).length - 1)) ∧
    (alloc_sg_buf k this bufp len dir sg_desc sg_phys).sg_desc ((m.num_sg - 1) * 16 + 2)
      = sg_dma_address k.arch last % 2 ^ 32 ∧
    (alloc_sg_buf k this bufp len dir sg_desc sg_phys).sg_desc ((m.num_sg - 1) * 16 + 3)
      = sg_dma_address k.arch last / 2 ^ 32 ∧
    (alloc_sg_buf k this bufp len dir sg_desc sg_phys).sg_desc ((m.num_sg - 1) * 16 + 6)
      &&& 0x007FFFFF = sg_dma_len last % 2 ^ 23 ∧
    (sg_dma_len last < 2 ^ 23 →
      (alloc_sg_buf k this bufp len dir sg_desc sg_phys).sg_desc ((m.num_sg - 1) * 16 + 6)
        &&& 0x007FFFFF = sg_dma_len last) := by
  obtain ⟨e1, e2, _⟩ := alloc_sg_buf_some k this bufp len dir sg_desc sg_phys m h
  obtain ⟨_, p2⟩ := desc_loop_slots k.arch this.dmac_buf_len sg_phys (mapped_sg k bufp len dir)
    { mem := sg_desc, log := [], d := 0 } rfl
  obtain ⟨xs, hxs⟩ := list_first_last _ first last h2 hf hl
  rw [e1, e2]
  generalize mapped_sg k bufp len dir = segs at *
  subst hxs
  have hlen : (first :: (xs ++ [last])).length = xs.length + 2 := by simp
  rw [hlen] at p2 ⊢
  obtain ⟨q1, q2, q3, q4, q5, q6⟩ :=
    desc_loop_first_last k.arch this.dmac_buf_len sg_phys sg_desc first xs last
  obtain ⟨f, n, sg, hn, hfn, hsg, hpl, hw⟩ := p2 0 (by omega)
  have hf0 : f = 0 := by
    have := (hpl 0 (by omega)).mp q2
    omega
  subst hf0
  obtain ⟨_, _, _, _, _, _, w6, _⟩ := hw
  obtain ⟨_, _, l2, l3, _, _, l6, _⟩ := q4
  refine ⟨q1, q5, q6, ⟨n, hn, ?_, ?_, ?_⟩, ?_, l2, l3, ?_⟩
  · -- the last entry is not in descriptor 0
    by_contra hcon
    have hin : (placement k.arch this.dmac_buf_len sg_phys (xs.length + 2) 0
        (first :: (xs ++ [last])) { mem := sg_desc, log := [], d := 0 })[xs.length + 1]?
        = some 0 := (hpl (xs.length + 1) (by omega)).mpr ⟨by omega, by omega⟩
    have := (q3 (xs.length + 1) (by omega)).mpr rfl
    rw [this] at hin
    simp only [Option.some.injEq] at hin
    omega
  · intro j hj
    rw [hpl j hj]
    omega
  · rw [Nat.zero_mul, Nat.zero_add] at w6
    rw [w6, and_7FFFFF]
    simp only [List.drop_zero]
    have : (List.map sg_dma_len (List.take n (first :: (xs ++ [last])))).sum % 2 ^ 23 < 2 ^ 23 :=
      Nat.mod_lt _ (by decide)
    constructor
    · split <;> split <;> omega
    · intro hlt
      split <;> split <;> omega
  · intro j hj
    rw [q3 j hj]
    omega
  · rw [l6, and_7FFFFF]
    have : sg_dma_len last % 2 ^ 23 < 2 ^ 23 := Nat.mod_lt _ (by decide)
    exact ⟨by omega, fun hlt => by omega⟩

/-- Witness of the amended C14: the three-page send of `demo_kernel`. -/
theorem C14_first_last_descriptors_witness :
    2 ≤ demo_map.num_sg ∧
    (alloc_sg_buf demo_kernel demo_dev 0x10ff8 8192 dma_data_direction.DMA_TO_DEVICE
      demo_dev.tx_desc demo_dev.tx_phys).sg_desc 2
      = sg_dma_address demo_kernel.arch { dma_address := 0x80000ff8, dma_length := 8 }
          % 2 ^ 32 ∧
    (alloc_sg_buf demo_kernel demo_dev 0x10ff8 8192 dma_data_direction.DMA_TO_DEVICE
      demo_dev.tx_desc demo_dev.tx_phys).sg_desc 3
      = sg_dma_address demo_kernel.arch { dma_address := 0x80000ff8, dma_length := 8 }
          / 2 ^ 32 ∧
    (∃ n, 0 < n ∧
      n < (mapped_sg demo_kernel 0x10ff8 8192 dma_data_direction.DMA_TO_DEVICE).length ∧
      (∀ j, j < (mapped_sg demo_kernel 0x10ff8 8192 dma_data_direction.DMA_TO_DEVICE).length →
        ((placement demo_kernel.arch demo_dev.dmac_buf_len demo_dev.tx_phys
            (mapped_sg demo_kernel 0x10ff8 8192 dma_data_direction.DMA_TO_DEVICE).length 0
            (mapped_sg demo_kernel 0x10ff8 8192 dma_data_direction.DMA_TO_DEVICE)
            { mem := demo_dev.tx_desc, log := [], d := 0 })[j]? = some 0
          ↔ j < n)) ∧
      (alloc_sg_buf demo_kernel demo_dev 0x10ff8 8192 dma_data_direction.DMA_TO_DEVICE
        demo_dev.tx_desc demo_dev.tx_phys).sg_desc 6 &&& 0x007FFFFF =
        (((mapped_sg demo_kernel 0x10ff8 8192 dma_data_direction.DMA_TO_DEVICE).take n).map
          sg_dma_len).sum % 2 ^ 23 ∧
      ((((mapped_sg demo_kernel 0x10ff8 8192 dma_data_direction.DMA_TO_DEVICE).take n).map
          sg_dma_len).sum < 2 ^ 23 →
        (alloc_sg_buf demo_kernel demo_dev 0x10ff8 8192 dma_data_direction.DMA_TO_DEVICE
          demo_dev.tx_desc demo_dev.tx_phys).sg_desc 6 &&& 0x007FFFFF =
          (((mapped_sg demo_kernel 0x10ff8 8192 dma_data_direction.DMA_TO_DEVICE).take n).map
            sg_dma_len).sum)) ∧
    (∀ j, j < (mapped_sg demo_kernel 0x10ff8 8192 dma_data_direction.DMA_TO_DEVICE).length →
      ((placement demo_kernel.arch demo_dev.dmac_buf_len demo_dev.tx_phys
          (mapped_sg demo_kernel 0x10ff8 8192 dma_data_direction.DMA_TO_DEVICE).length 0
          (mapped_sg demo_kernel 0x10ff8 8192 dma_data_direction.DMA_TO_DEVICE)
          { mem := demo_dev.tx_desc, log := [], d := 0 })[j]?
        = some (demo_map.num_sg - 1)
        ↔ j = (mapped_sg demo_kernel 0x10ff8 8192
            dma_data_direction.DMA_TO_DEVICE).length - 1)) ∧
    (alloc_sg_buf demo_kernel demo_dev 0x10ff8 8192 dma_data_direction.DMA_TO_DEVICE
      demo_dev.tx_desc demo_dev.tx_phys).sg_desc ((demo_map.num_sg - 1) * 16 + 2)
      = sg_dma_address demo_kernel.arch { dma_address := 0x80002000, dma_length := 4088 }
          % 2 ^ 32 ∧
    (alloc_sg_buf demo_kernel demo_dev 0x10ff8 8192 dma_data_direction.DMA_TO_DEVICE
      demo_dev.tx_desc demo_dev.tx_phys).sg_desc ((demo_map.num_sg - 1) * 16 + 3)
      = sg_dma_address demo_kernel.arch { dma_address := 0x80002000, dma_length := 4088 }
          / 2 ^ 32 ∧
    (alloc_sg_buf demo_kernel demo_dev 0x10ff8 8192 dma_data_direction.DMA_TO_DEVICE
      demo_dev.tx_desc demo_dev.tx_phys).sg_desc ((demo_map.num_sg - 1) * 16 + 6)
      &&& 0x007FFFFF = sg_dma_len { dma_address := 0x80002000, dma_length := 4088 } % 2 ^ 23 ∧
    (sg_dma_len { dma_address := 0x80002000, dma_length := 4088 } < 2 ^ 23 →
      (alloc_sg_buf demo_kernel demo_dev 0x10ff8 8192 dma_data_direction.DMA_TO_DEVICE
        demo_dev.tx_desc demo_dev.tx_phys).sg_desc ((demo_map.num_sg - 1) * 16 + 6)
        &&& 0x007FFFFF = sg_dma_len { dma_address := 0x80002000, dma_length := 4088 }) :=
  C14_first_last_descriptors demo_kernel demo_dev 0x10ff8 8192
    dma_data_direction.DMA_TO_DEVICE demo_dev.tx_desc demo_dev.tx_phys demo_map
    { dma_address := 0x80000ff8, dma_length := 8 }
    { dma_address := 0x80002000, dma_length := 4088 }
    (by decide) (by decide) (by decide) (by decide)

/-! ## The merge pass keeps the byte ranges -/

/-- A range of `l1 + l2` bytes is a range of `l1` bytes followed by the range
of `l2` bytes that starts where the first one ends. -/
theorem bus_range_add (a : Arch) (addr l1 l2 : Nat) :
    bus_range a addr (l1 + l2) =
      bus_range a addr l1 ++ bus_range a ((addr + l1) % 2 ^ DMA_ADDR_BITS a) l2 := by
  unfold bus_range
  rw [List.range_add, List.map_append, List.map_map]
  congr 1
  apply List.map_congr_left
  intro i _
  simp only [Function.comp]
  rw [Nat.add_mod ((addr + l1) % 2 ^ DMA_ADDR_BITS a), Nat.mod_mod, ← Nat.add_mod, Nat.add_assoc]

/-- The fields read back from a well-formed descriptor. -/
theorem slot_fields (a : Arch) (sg_phys : Nat) (mem : Nat → Nat) (k A L F : Nat)
    (hs : SlotWords a sg_phys mem k A L F) (hL : L < 2 ^ 23) (hF : F % 2 ^ 23 = 0) :
    desc_addr mem k = A ∧ desc_len mem k = L := by
  obtain ⟨_, _, h2, h3, _, _, h6, _⟩ := hs
  unfold desc_addr desc_len
  rw [h2, h3, h6, and_7FFFFF]
  constructor <;> omega

/-- The address `prev_addr` read back from a well-formed descriptor `d-1`, on both targets. -/
theorem prev_addr_eq (a : Arch) (sg_phys : Nat) (st : DescState) (A L F : Nat)
    (hs : SlotWords a sg_phys st.mem (st.d - 1) A L F) (hA : A < 2 ^ DMA_ADDR_BITS a) :
    prev_addr a st = A := by
  obtain ⟨_, _, h2, h3, _⟩ := hs
  unfold prev_addr
  rcases DMA_ADDR_BITS_cases a with ⟨h1, hb⟩ | ⟨h1, hb⟩
  · rw [hb] at hA
    simp only [h1, if_true, h2, h3, Nat.shiftLeft_eq]
    omega
  · rw [hb] at hA
    simp only [h1, Bool.false_eq_true, if_false, h2]
    omega

/-- The length `prev_len` read back from a well-formed descriptor `d-1`. -/
theorem prev_len_eq (a : Arch) (sg_phys : Nat) (st : DescState) (A L F : Nat)
    (hs : SlotWords a sg_phys st.mem (st.d - 1) A L F) (hL : L < 2 ^ 23)
    (hF : F % 2 ^ 23 = 0) : prev_len st = L := by
  obtain ⟨_, _, _, _, _, _, h6, _⟩ := hs
  unfold prev_len
  rw [h6, and_7FFFFF]
  omega

/-- Descriptor ranges depend on the words of the descriptors below `d` only. -/
theorem desc_ranges_congr (a : Arch) (m1 m2 : Nat → Nat) (d : Nat)
    (h : ∀ j, j < d * 16 → m2 j = m1 j) :
    desc_ranges a m2 d = desc_ranges a m1 d ∧ desc_len_sum m2 d = desc_len_sum m1 d := by
  unfold desc_ranges desc_len_sum
  have hfields : ∀ k ∈ List.range d, desc_addr m2 k = desc_addr m1 k ∧ desc_len m2 k = desc_len m1 k := by
    intro k hk
    have hk' : k < d := List.mem_range.mp hk
    unfold desc_addr desc_len
    rw [h _ (by omega), h _ (by omega), h _ (by omega)]
    exact ⟨rfl, rfl⟩
  constructor
  · have : (List.range d).map (fun k => bus_range a (desc_addr m2 k) (desc_len m2 k)) =
        (List.range d).map (fun k => bus_range a (desc_addr m1 k) (desc_len m1 k)) := by
      apply List.map_congr_left
      intro k hk
      rw [(hfields k hk).1, (hfields k hk).2]
    simp only [List.flatMap, this]
  · congr 1
    apply List.map_congr_left
    intro k hk
    exact (hfields k hk).2

/-- Descriptor ranges of `d + 1` descriptors. -/
theorem desc_ranges_succ (a : Arch) (mem : Nat → Nat) (d : Nat) :
    desc_ranges a mem (d + 1) =
      desc_ranges a mem d ++ bus_range a (desc_addr mem d) (desc_len mem d) ∧
    desc_len_sum mem (d + 1) = desc_len_sum mem d + desc_len mem d := by
  unfold desc_ranges desc_len_sum
  rw [List.range_succ]
  simp [List.flatMap]

/-- One iteration appends the bus range of its entry to what the descriptors
describe, and keeps the descriptors well formed. -/
theorem desc_step_ranges (a : Arch) (cap sg_phys num_sg i : Nat) (sg : Seg) (st : DescState)
    (hcap : cap ≤ 2 ^ 23) (hd : i ≠ 0 → 0 < st.d) (hwf : SlotsExact a sg_phys st)
    (hlen : sg_dma_len sg < 2 ^ 23) :
    SlotsExact a sg_phys (desc_step a cap sg_phys num_sg i sg st) ∧
    desc_ranges a (desc_step a cap sg_phys num_sg i sg st).mem
        (desc_step a cap sg_phys num_sg i sg st).d =
      desc_ranges a st.mem st.d ++ bus_range a (sg_dma_address a sg) (sg_dma_len sg) ∧
    desc_len_sum (desc_step a cap sg_phys num_sg i sg st).mem
        (desc_step a cap sg_phys num_sg i sg st).d =
      desc_len_sum st.mem st.d + sg_dma_len sg := by
  cases hm : merge_test a cap num_sg i sg st with
  | true =>
    have hidx := merge_test_idx a cap num_sg i sg st hm
    have hd0 := hd hidx.1
    obtain ⟨A, L, F, hs, hA, hL, hF, hF2⟩ := hwf (st.d - 1) (by omega)
    have hpa := prev_addr_eq a sg_phys st A L F hs hA
    have hpl := prev_len_eq a sg_phys st A L F hs hL hF
    have hmt := hm
    unfold merge_test at hmt
    simp only [Bool.and_eq_true, decide_eq_true_eq, hpa, hpl] at hmt
    obtain ⟨⟨_, haddr⟩, hsum⟩ := hmt
    have hL' : L + sg_dma_len sg < 2 ^ 23 := by omega
    have hs1 := desc_step_merge_slot a cap sg_phys num_sg i sg st hm A L F hs hF hF2
    have hfr := desc_step_merge_frame a cap sg_phys num_sg i sg st hm
    have hd1 := desc_step_merge_d a cap sg_phys num_sg i sg st hm
    rw [hd1]
    have hdd : st.d = (st.d - 1) + 1 := by omega
    obtain ⟨f1, f2⟩ := slot_fields a sg_phys _ _ A _ F hs1 hL' hF
    obtain ⟨o1, o2⟩ := slot_fields a sg_phys _ _ A L F hs hL hF
    obtain ⟨c1, c2⟩ := desc_ranges_congr a st.mem
      (desc_step a cap sg_phys num_sg i sg st).mem (st.d - 1)
      (fun j hj => hfr j (by omega))
    refine ⟨?_, ?_, ?_⟩
    · intro k hk
      rw [hd1] at hk
      by_cases hkc : k = st.d - 1
      · subst hkc
        exact ⟨A, _, F, hs1, hA, hL', hF, hF2⟩
      · obtain ⟨A', L', F', hs', r⟩ := hwf k hk
        refine ⟨A', L', F', ?_, r⟩
        apply slotWords_congr a sg_phys st.mem _ _ _ _ _ _ hs'
        intro j hj1 hj2
        exact hfr j (by omega)
    · rw [hdd, (desc_ranges_succ a _ _).1, (desc_ranges_succ a st.mem _).1, f1, f2, o1, o2, c1,
        bus_range_add, haddr, List.append_assoc]
    · rw [hdd, (desc_ranges_succ a _ _).2, (desc_ranges_succ a st.mem _).2, f2, o2, c2]
      omega
  | false =>
    have hd1 := desc_step_fresh_d a cap sg_phys num_sg i sg st hm
    have hs1 := desc_step_fresh_slot a cap sg_phys num_sg i sg st hm
    have hfr := desc_step_fresh_frame a cap sg_phys num_sg i sg st hm
    have hA := sg_dma_address_lt a sg
    have hF : ((if i = 0 then 2 ^ 27 else 0) + (if i = num_sg - 1 then 2 ^ 26 else 0)) % 2 ^ 23
        = 0 := by split <;> split <;> simp
    have hF2 : ((if i = 0 then 2 ^ 27 else 0) + (if i = num_sg - 1 then 2 ^ 26 else 0)) < 2 ^ 32 := by
      split <;> split <;> simp
    obtain ⟨f1, f2⟩ := slot_fields a sg_phys _ _ _ _ _ hs1 hlen hF
    obtain ⟨c1, c2⟩ := desc_ranges_congr a st.mem
      (desc_step a cap sg_phys num_sg i sg st).mem st.d hfr
    rw [hd1]
    refine ⟨?_, ?_, ?_⟩
    · intro k hk
      rw [hd1] at hk
      by_cases hkc : k = st.d
      · subst hkc
        exact ⟨_, _, _, hs1, hA, hlen, hF, hF2⟩
      · obtain ⟨A', L', F', hs', r⟩ := hwf k (by omega)
        refine ⟨A', L', F', ?_, r⟩
        apply slotWords_congr a sg_phys st.mem _ _ _ _ _ _ hs'
        intro j hj1 hj2
        exact hfr j (by omega)
    · rw [(desc_ranges_succ a _ _).1, f1, f2, c1]
    · rw [(desc_ranges_succ a _ _).2, f2, c2]

/-- The loop appends the bus ranges of the remaining entries, in order. -/
theorem desc_loop_ranges (a : Arch) (cap sg_phys num_sg : Nat) (hcap : cap ≤ 2 ^ 23) :
    ∀ (rest : List Seg) (i : Nat) (st : DescState), (i ≠ 0 → 0 < st.d) →
      SlotsExact a sg_phys st → (∀ sg ∈ rest, sg_dma_len sg < 2 ^ 23) →
      desc_ranges a (desc_loop a cap sg_phys num_sg i rest st).mem
          (desc_loop a cap sg_phys num_sg i rest st).d =
        desc_ranges a st.mem st.d ++ spec_seg_ranges a rest ∧
      desc_len_sum (desc_loop a cap sg_phys num_sg i rest st).mem
          (desc_loop a cap sg_phys num_sg i rest st).d =
        desc_len_sum st.mem st.d + (rest.map sg_dma_len).sum := by
  intro rest
  induction rest with
  | nil => intro i st _ _ _; simp [desc_loop, spec_seg_ranges]
  | cons sg rest ih =>
    intro i st hd hwf hlen
    obtain ⟨w1, r1, s1⟩ := desc_step_ranges a cap sg_phys num_sg i sg st hcap hd hwf
      (hlen sg (List.mem_cons_self _ _))
    have hpos := desc_step_d_pos a cap sg_phys num_sg i sg st hd
    obtain ⟨r2, s2⟩ := ih (i + 1) _ (fun _ => hpos) w1
      (fun s hs => hlen s (List.mem_cons_of_mem _ hs))
    simp only [desc_loop]
    rw [r2, s2, r1, s1]
    simp only [spec_seg_ranges, List.flatMap_cons, List.append_assoc, List.map_cons,
      List.sum_cons, Nat.add_assoc, and_self]

/-- The merge pass keeps the bytes described. For every transfer whose mapped
entries are each shorter than `2^23`
bytes (the cap `dmac_buf_len` not exceeding the 23-bit length field; probe sets
`2^20 - 1`): the merge pass keeps the bytes described and their order. The
concatenation of the bus ranges `[buffer_address, buffer_address + length)` of
descriptors `0..num_sg-1`, read back from descriptor memory, is exactly the
concatenation of the bus ranges of the mapped entries, and the descriptor
lengths sum to the sum of the entry lengths. -/
theorem merge_keeps_ranges (k : Kernel) (this : zfifo_device_data) (bufp len : Nat)
    (dir : dma_data_direction) (sg_desc : Nat → Nat) (sg_phys : Nat) (m : sg_mapping)
    (h : (alloc_sg_buf k this bufp len dir sg_desc sg_phys).sg_map = some m)
    (hcap : this.dmac_buf_len ≤ 2 ^ 23)
    (hseg : ∀ sg ∈ mapped_sg k bufp len dir, sg_dma_len sg < 2 ^ 23) :
    desc_ranges k.arch (alloc_sg_buf k this bufp len dir sg_desc sg_phys).sg_desc m.num_sg =
      spec_seg_ranges k.arch (mapped_sg k bufp len dir) ∧
    desc_len_sum (alloc_sg_buf k this bufp len dir sg_desc sg_phys).sg_desc m.num_sg =
      ((mapped_sg k bufp len dir).map sg_dma_len).sum := by
  obtain ⟨e1, e2, _⟩ := alloc_sg_buf_some k this bufp len dir sg_desc sg_phys m h
  rw [e1, e2]
  obtain ⟨r, s⟩ := desc_loop_ranges k.arch this.dmac_buf_len sg_phys
    (mapped_sg k bufp len dir).length hcap (mapped_sg k bufp len dir) 0
    { mem := sg_desc, log := [], d := 0 } (fun h => absurd rfl h)
    (fun k hk => absurd hk (Nat.not_lt_zero _)) hseg
  rw [r, s]
  simp [desc_ranges, desc_len_sum]

/-- The three-page send of `demo_kernel`: 8192 bytes in two descriptors. -/
theorem merge_keeps_ranges_witness :
    desc_ranges demo_kernel.arch
        (alloc_sg_buf demo_kernel demo_dev 0x10ff8 8192 dma_data_direction.DMA_TO_DEVICE
          demo_dev.tx_desc demo_dev.tx_phys).sg_desc demo_map.num_sg =
      spec_seg_ranges demo_kernel.arch
        (mapped_sg demo_kernel 0x10ff8 8192 dma_data_direction.DMA_TO_DEVICE) ∧
    desc_len_sum
        (alloc_sg_buf demo_kernel demo_dev 0x10ff8 8192 dma_data_direction.DMA_TO_DEVICE
          demo_dev.tx_desc demo_dev.tx_phys).sg_desc demo_map.num_sg =
      ((mapped_sg demo_kernel 0x10ff8 8192 dma_data_direction.DMA_TO_DEVICE).map
        sg_dma_len).sum :=
  merge_keeps_ranges demo_kernel demo_dev 0x10ff8 8192 dma_data_direction.DMA_TO_DEVICE
    demo_dev.tx_desc demo_dev.tx_phys demo_map (by decide) (by decide) (by decide)

/-- The descriptor lengths sum to the requested length where the tiling
holds: for a buffer of `len > 0` bytes that does not wrap the address space,
when all `npages_req` pages are pinned and `dma_map_sg` keeps the total length
of the scatterlist built for them, the length fields of descriptors
`0..num_sg-1` sum to `len`. -/
theorem desc_len_sum_requested (k : Kernel) (this : zfifo_device_data) (bufp len : Nat)
    (dir : dma_data_direction) (sg_desc : Nat → Nat) (sg_phys : Nat) (m : sg_mapping)
    (h : (alloc_sg_buf k this bufp len dir sg_desc sg_phys).sg_map = some m)
    (hcap : this.dmac_buf_len ≤ 2 ^ 23)
    (hseg : ∀ sg ∈ mapped_sg k bufp len dir, sg_dma_len sg < 2 ^ 23)
    (hs : k.arch.PAGE_SHIFT < 32) (hlen : 0 < len)
    (hfit : bufp + len < 2 ^ BITS_PER_LONG k.arch)
    (hpin : k.get_user_pages bufp (npages_req k.arch bufp len)
      (decide (dir = dma_data_direction.DMA_FROM_DEVICE))
        = Int.ofNat (npages_req k.arch bufp len))
    (hmap : ((k.dma_map_sg (fill_sgl k.arch k.pages (npages_req k.arch bufp len) 0
        (first_page_offset k.arch bufp) len) dir).map sg_dma_len).sum =
      ((fill_sgl k.arch k.pages (npages_req k.arch bufp len) 0
        (first_page_offset k.arch bufp) len).map SgEntry.length).sum) :
    desc_len_sum (alloc_sg_buf k this bufp len dir sg_desc sg_phys).sg_desc m.num_sg = len := by
  rw [(merge_keeps_ranges k this bufp len dir sg_desc sg_phys m h hcap hseg).2]
  have hto : (Int.ofNat (npages_req k.arch bufp len)).toNat = npages_req k.arch bufp len := rfl
  simp only [mapped_sg, hpin, hto]
  rw [hmap, (fill_sgl_tiles k.arch k.pages hs bufp len hlen hfit).2.1]

/-- The three-page send of `demo_kernel`: the two descriptor lengths sum to
the requested 8192 bytes. -/
theorem desc_len_sum_requested_witness :
    desc_len_sum
        (alloc_sg_buf demo_kernel demo_dev 0x10ff8 8192 dma_data_direction.DMA_TO_DEVICE
          demo_dev.tx_desc demo_dev.tx_phys).sg_desc demo_map.num_sg = 8192 :=
  desc_len_sum_requested demo_kernel demo_dev 0x10ff8 8192 dma_data_direction.DMA_TO_DEVICE
    demo_dev.tx_desc demo_dev.tx_phys demo_map (by decide) (by decide) (by decide) (by decide)
    (by decide) (by decide) (by decide) (by decide)

/-- C13 fails on the code, by the defect of C1. A send of 8192 bytes at the
page-aligned address `0x10000` of which `get_user_pages` pins only the first
page: the single mapped entry is shorter than `2^23` bytes, the merge pass
keeps its bus range, one descriptor is written, and the descriptor lengths sum
to 4096, the sum of the segment lengths, not to the requested 8192; the call
still returns 0. -/
theorem C13_short_pin_length_sum :
    mapped_sg (mkKernel arch64 gup_one { len := 8192, data := 0x10000 }) 0x10000 8192
        dma_data_direction.DMA_TO_DEVICE
      = [{ dma_address := 0x80000000, dma_length := 4096 }] ∧
    sg_dma_len { dma_address := 0x80000000, dma_length := 4096 } < 2 ^ 23 ∧
    (alloc_sg_buf (mkKernel arch64 gup_one { len := 8192, data := 0x10000 }) demo_dev
      0x10000 8192 dma_data_direction.DMA_TO_DEVICE demo_dev.tx_desc demo_dev.tx_phys).sg_map
      = some { npages := 1, sgl := [{ page := 0, length := 4096, offset := 0 }],
               dir := dma_data_direction.DMA_TO_DEVICE, num_sg := 1 } ∧
    desc_ranges arch64
        (alloc_sg_buf (mkKernel arch64 gup_one { len := 8192, data := 0x10000 }) demo_dev
          0x10000 8192 dma_data_direction.DMA_TO_DEVICE demo_dev.tx_desc
          demo_dev.tx_phys).sg_desc 1 =
      spec_seg_ranges arch64
        (mapped_sg (mkKernel arch64 gup_one { len := 8192, data := 0x10000 }) 0x10000 8192
          dma_data_direction.DMA_TO_DEVICE) ∧
    desc_len_sum
        (alloc_sg_buf (mkKernel arch64 gup_one { len := 8192, data := 0x10000 }) demo_dev
          0x10000 8192 dma_data_direction.DMA_TO_DEVICE demo_dev.tx_desc
          demo_dev.tx_phys).sg_desc 1 = 4096 ∧
    (4096 : Nat) ≠ 8192 ∧
    (zfifo_ioctl (mkKernel arch64 gup_one { len := 8192, data := 0x10000 }) demo_dev
      (IOCTL_SEND arch64) 0 1).ret = Ret.value 0 := by
  refine ⟨by decide, by decide, by decide, ?_, by decide, by decide, by decide⟩
  exact (merge_keeps_ranges (mkKernel arch64 gup_one { len := 8192, data := 0x10000 })
    demo_dev 0x10000 8192 dma_data_direction.DMA_TO_DEVICE demo_dev.tx_desc demo_dev.tx_phys
    { npages := 1, sgl := [{ page := 0, length := 4096, offset := 0 }],
      dir := dma_data_direction.DMA_TO_DEVICE, num_sg := 1 }
    (by decide) (by decide) (by decide)).1

/-! ## Descriptor count of bus-contiguous transfers -/

/-- A bus-contiguous run, entry by entry. -/
theorem busContiguous_cons (a : Arch) (x : Seg) (rest : List Seg) :
    BusContiguous a (x :: rest) ↔
      contig_from a ((sg_dma_address a x + sg_dma_len x) % 2 ^ DMA_ADDR_BITS a) rest :=
  Iff.rfl

/-- An initial part of entries that follow one another does so too. -/
theorem contig_from_append_left (a : Arch) :
    ∀ (xs ys : List Seg) (s : Nat), contig_from a s (xs ++ ys) → contig_from a s xs := by
  intro xs
  induction xs with
  | nil => intro ys s _; trivial
  | cons y xs ih =>
    intro ys s h
    exact ⟨h.1, ih ys _ h.2⟩

/-- The tail of a bus-contiguous run is bus-contiguous. -/
theorem busContiguous_tail (a : Arch) (x : Seg) (rest : List Seg)
    (h : BusContiguous a (x :: rest)) : BusContiguous a rest := by
  cases rest with
  | nil => trivial
  | cons y ys =>
    have h1 := (busContiguous_cons a x (y :: ys)).mp h
    rw [busContiguous_cons]
    rw [← h1.1] at h1
    exact h1.2

/-- Interior entries that continue the current descriptor on the bus and keep
its length below the cap are all folded into it: the descriptor count does not
move, and the current descriptor grows by their total length. -/
theorem desc_loop_all_merge (a : Arch) (cap sg_phys num_sg : Nat) (hcap : cap ≤ 2 ^ 23) :
    ∀ (rest : List Seg) (i : Nat) (st : DescState) (A L F : Nat),
      0 < i → i + rest.length < num_sg → 0 < st.d →
      SlotWords a sg_phys st.mem (st.d - 1) A L F → A < 2 ^ DMA_ADDR_BITS a →
      L < 2 ^ 23 → F % 2 ^ 23 = 0 → F < 2 ^ 32 →
      contig_from a ((A + L) % 2 ^ DMA_ADDR_BITS a) rest →
      (rest ≠ [] → L + (rest.map sg_dma_len).sum < cap) →
      (desc_loop a cap sg_phys num_sg i rest st).d = st.d ∧
      SlotWords a sg_phys (desc_loop a cap sg_phys num_sg i rest st).mem (st.d - 1) A
        (L + (rest.map sg_dma_len).sum) F := by
  intro rest
  induction rest with
  | nil =>
    intro i st A L F _ _ _ hs _ _ _ _ _ _
    exact ⟨rfl, by simpa [desc_loop] using hs⟩
  | cons sg rest ih =>
    intro i st A L F hi hn hd hs hA hL hF hF2 hc hsum
    simp only [List.length_cons] at hn
    have hsum' := hsum (List.cons_ne_nil _ _)
    simp only [List.map_cons, List.sum_cons] at hsum'
    obtain ⟨hc1, hc2⟩ := hc
    have hpa := prev_addr_eq a sg_phys st A L F hs hA
    have hpl := prev_len_eq a sg_phys st A L F hs hL hF
    have hlen32 : sg_dma_len sg < 2 ^ 32 := Nat.mod_lt _ (by decide)
    have hm : merge_test a cap num_sg i sg st = true := by
      unfold merge_test
      simp only [Bool.and_eq_true, decide_eq_true_eq, hpa, hpl]
      refine ⟨⟨⟨by omega, by omega⟩, hc1⟩, ?_⟩
      rw [Nat.mod_eq_of_lt (by omega)]
      omega
    have hd1 := desc_step_merge_d a cap sg_phys num_sg i sg st hm
    have hs1 := desc_step_merge_slot a cap sg_phys num_sg i sg st hm A L F hs hF hF2
    rw [← hd1] at hs1
    have hc2' : contig_from a ((A + (L + sg_dma_len sg)) % 2 ^ DMA_ADDR_BITS a) rest := by
      have e : (A + (L + sg_dma_len sg)) % 2 ^ DMA_ADDR_BITS a
          = ((A + L) % 2 ^ DMA_ADDR_BITS a + sg_dma_len sg) % 2 ^ DMA_ADDR_BITS a := by
        rw [Nat.mod_add_mod, Nat.add_assoc]
      rw [e]; exact hc2
    obtain ⟨g1, g2⟩ := ih (i + 1) (desc_step a cap sg_phys num_sg i sg st) A
      (L + sg_dma_len sg) F (by omega) (by omega) (by omega) hs1 hA (by omega) hF hF2 hc2'
      (fun _ => by omega)
    simp only [desc_loop, List.map_cons, List.sum_cons]
    rw [hd1] at g1 g2
    exact ⟨g1, by rw [← Nat.add_assoc]; exact g2⟩

/-- A transfer of bus-contiguous entries `x, xs..., last` whose entries other
than the last total less than the cap uses exactly two descriptors. -/
theorem desc_loop_contiguous_two (a : Arch) (cap sg_phys : Nat) (mem0 : Nat → Nat)
    (hcap : cap ≤ 2 ^ 23) (x : Seg) (xs : List Seg) (last : Seg)
    (hc : BusContiguous a (x :: (xs ++ [last])))
    (hsum : xs ≠ [] → sg_dma_len x + (xs.map sg_dma_len).sum < cap) :
    (desc_loop a cap sg_phys (xs.length + 2) 0 (x :: (xs ++ [last]))
      { mem := mem0, log := [], d := 0 }).d = 2 := by
  simp only [desc_loop, desc_loop_append, Nat.zero_add]
  have hm0 := merge_test_zero a cap (xs.length + 2) x { mem := mem0, log := [], d := 0 }
  have hd0 := desc_step_fresh_d a cap sg_phys (xs.length + 2) 0 x _ hm0
  have hs0 := desc_step_fresh_slot a cap sg_phys (xs.length + 2) 0 x _ hm0
  simp only [Nat.zero_add] at hd0
  have hd0' : (desc_step a cap sg_phys (xs.length + 2) 0 x
      { mem := mem0, log := [], d := 0 }).d - 1 = 0 := by omega
  have hc' : contig_from a ((sg_dma_address a x + sg_dma_len x) % 2 ^ DMA_ADDR_BITS a) xs :=
    contig_from_append_left a xs [last] _ ((busContiguous_cons a x (xs ++ [last])).mp hc)
  have hL : xs ≠ [] → sg_dma_len x < 2 ^ 23 := fun h => by have := hsum h; omega
  by_cases hxs : xs = []
  · subst hxs
    simp only [desc_loop, List.length_nil, Nat.zero_add]
    have hm : merge_test a cap 2 1 last (desc_step a cap sg_phys 2 0 x
        { mem := mem0, log := [], d := 0 }) = false := merge_test_last a cap 2 last _
    rw [desc_step_fresh_d a cap sg_phys 2 1 last _ hm]
    simp only [List.length_nil, Nat.zero_add] at hd0
    omega
  · obtain ⟨g1, _⟩ := desc_loop_all_merge a cap sg_phys (xs.length + 2) hcap xs 1
      (desc_step a cap sg_phys (xs.length + 2) 0 x { mem := mem0, log := [], d := 0 })
      (sg_dma_address a x) (sg_dma_len x)
      ((if (0 : Nat) = 0 then 2 ^ 27 else 0) + (if 0 = xs.length + 2 - 1 then 2 ^ 26 else 0))
      (by omega) (by omega) (by omega) (by rw [hd0']; exact hs0) (sg_dma_address_lt a x)
      (hL hxs) (by split <;> split <;> simp) (by split <;> split <;> simp) hc' hsum
    have hm : merge_test a cap (xs.length + 2) (1 + xs.length) last
        (desc_loop a cap sg_phys (xs.length + 2) 1 xs
          (desc_step a cap sg_phys (xs.length + 2) 0 x { mem := mem0, log := [], d := 0 }))
        = false := by
      have : 1 + xs.length = xs.length + 2 - 1 := by omega
      rw [this]; exact merge_test_last a cap _ last _
    rw [desc_step_fresh_d a cap sg_phys (xs.length + 2) (1 + xs.length) last _ hm, g1]
    omega

/-- A transfer of a single entry uses exactly one descriptor. -/
theorem desc_loop_single (a : Arch) (cap sg_phys : Nat) (mem0 : Nat → Nat) (x : Seg) :
    (desc_loop a cap sg_phys 1 0 [x] { mem := mem0, log := [], d := 0 }).d = 1 := by
  simp only [desc_loop]
  rw [desc_step_fresh_d a cap sg_phys 1 0 x _ (merge_test_zero a cap 1 x _)]

/-- C15, amended. For every transfer whose mapped entries are all
bus-contiguous and, when there are three or more of them, whose entries other
than the last total less than the cap `dmac_buf_len` (which fits the 23-bit
length field): `alloc_sg_buf` produces exactly 1 descriptor for one entry and
exactly 2 descriptors (first run + last) for two or more. -/
theorem C15_contiguous_descriptor_count (k : Kernel) (this : zfifo_device_data)
    (bufp len : Nat) (dir : dma_data_direction) (sg_desc : Nat → Nat) (sg_phys : Nat)
    (m : sg_mapping)
    (h : (alloc_sg_buf k this bufp len dir sg_desc sg_phys).sg_map = some m)
    (hcap : this.dmac_buf_len ≤ 2 ^ 23)
    (hc : BusContiguous k.arch (mapped_sg k bufp len dir))
    (hsum : 3 ≤ (mapped_sg k bufp len dir).length →
      (((mapped_sg k bufp len dir).dropLast).map sg_dma_len).sum < this.dmac_buf_len) :
    ((mapped_sg k bufp len dir).length = 1 → m.num_sg = 1) ∧
    (2 ≤ (mapped_sg k bufp len dir).length → m.num_sg = 2) := by
  obtain ⟨_, e2, _⟩ := alloc_sg_buf_some k this bufp len dir sg_desc sg_phys m h
  rw [e2]
  generalize mapped_sg k bufp len dir = segs at *
  constructor
  · intro h1
    match segs, h1 with
    | [x], _ => exact desc_loop_single k.arch this.dmac_buf_len sg_phys sg_desc x
  · intro h2
    have hne : segs ≠ [] := by intro h0; subst h0; simp at h2
    obtain ⟨xs, hxs⟩ := list_first_last segs (segs.head hne) (segs.getLast hne) h2
      (List.head?_eq_head hne) (List.getLast?_eq_getLast _ hne)
    generalize segs.head hne = x at hxs
    generalize segs.getLast hne = last at hxs
    subst hxs
    have hlen : (x :: (xs ++ [last])).length = xs.length + 2 := by simp
    rw [hlen] at hsum ⊢
    apply desc_loop_contiguous_two k.arch this.dmac_buf_len sg_phys sg_desc hcap x xs last hc
    intro hne'
    have h3 : 3 ≤ xs.length + 2 := by
      have : 0 < xs.length := List.length_pos.mpr hne'
      omega
    have := hsum h3
    have e : (x :: (xs ++ [last])).dropLast = x :: xs := by
      rw [← List.cons_append, List.dropLast_concat]
    rw [e] at this
    simpa using this

/-- Witness of the amended C15: the three contiguous pages of `demo_kernel`
give two descriptors. -/
theorem C15_contiguous_descriptor_count_witness :
    ((mapped_sg demo_kernel 0x10ff8 8192 dma_data_direction.DMA_TO_DEVICE).length = 1 →
      demo_map.num_sg = 1) ∧
    (2 ≤ (mapped_sg demo_kernel 0x10ff8 8192 dma_data_direction.DMA_TO_DEVICE).length →
      demo_map.num_sg = 2) :=
  C15_contiguous_descriptor_count demo_kernel demo_dev 0x10ff8 8192
    dma_data_direction.DMA_TO_DEVICE demo_dev.tx_desc demo_dev.tx_phys demo_map
    (by decide) (by decide) (by decide) (by decide)

/-! ## Long transfers -/

/-- A transfer `x, xs..., last` whose entries are each below the cap but whose
entries other than the last total at least the cap needs at least three
descriptors, contiguous or not. -/
theorem desc_loop_long (a : Arch) (cap sg_phys : Nat) (mem0 : Nat → Nat) (hcap : cap ≤ 2 ^ 23)
    (x : Seg) (xs : List Seg) (last : Seg)
    (hlen : ∀ sg ∈ x :: (xs ++ [last]), sg_dma_len sg < cap)
    (hsum : cap ≤ sg_dma_len x + (xs.map sg_dma_len).sum) :
    3 ≤ (desc_loop a cap sg_phys (xs.length + 2) 0 (x :: (xs ++ [last]))
      { mem := mem0, log := [], d := 0 }).d := by
  obtain ⟨q1, _, _, q4, _, _⟩ := desc_loop_first_last a cap sg_phys mem0 x xs last
  have hl : (x :: (xs ++ [last])).length = xs.length + 2 := by simp
  have hcapd := desc_loop_cap a cap sg_phys mem0 (x :: (xs ++ [last])) hlen
  obtain ⟨_, hs⟩ := desc_loop_ranges a cap sg_phys (xs.length + 2) hcap (x :: (xs ++ [last])) 0
    { mem := mem0, log := [], d := 0 } (fun h => absurd rfl h)
    (fun k hk => absurd hk (Nat.not_lt_zero _)) (fun sg h => by have := hlen sg h; omega)
  rw [hl] at hcapd
  by_contra hcon
  have hd2 : (desc_loop a cap sg_phys (xs.length + 2) 0 (x :: (xs ++ [last]))
      { mem := mem0, log := [], d := 0 }).d = 2 := by omega
  rw [hd2] at q4 hs hcapd
  have hlast : sg_dma_len last < cap := hlen last (by simp)
  have q4' : SlotWords a sg_phys (desc_loop a cap sg_phys (xs.length + 2) 0
      (x :: (xs ++ [last])) { mem := mem0, log := [], d := 0 }).mem 1
      (sg_dma_address a last) (sg_dma_len last) (2 ^ 26) := q4
  obtain ⟨_, f2⟩ := slot_fields a sg_phys _ _ _ _ _ q4' (by omega) (by decide)
  have h0 : desc_len (desc_loop a cap sg_phys (xs.length + 2) 0 (x :: (xs ++ [last]))
      { mem := mem0, log := [], d := 0 }).mem 0 < cap := hcapd 0 (by omega)
  have e : desc_len_sum (desc_loop a cap sg_phys (xs.length + 2) 0 (x :: (xs ++ [last]))
      { mem := mem0, log := [], d := 0 }).mem 2 =
      desc_len (desc_loop a cap sg_phys (xs.length + 2) 0 (x :: (xs ++ [last]))
        { mem := mem0, log := [], d := 0 }).mem 0 +
      desc_len (desc_loop a cap sg_phys (xs.length + 2) 0 (x :: (xs ++ [last]))
        { mem := mem0, log := [], d := 0 }).mem 1 := by
    simp [desc_len_sum, List.range_succ]
  have e0 : desc_len_sum mem0 0 = 0 := rfl
  rw [e, f2] at hs
  simp only [e0, Nat.zero_add, List.map_cons, List.sum_cons, List.map_append, List.sum_append,
    List.map_nil, List.sum_nil, Nat.add_zero] at hs
  omega

/-- The result of `alloc_sg_buf` when every allocation succeeds and
`get_user_pages` pins at least one page. -/
theorem alloc_sg_buf_ok (k : Kernel) (this : zfifo_device_data) (bufp len : Nat)
    (dir : dma_data_direction) (sg_desc : Nat → Nat) (sg_phys : Nat)
    (h1 : k.kmalloc_sg_map = true) (h2 : k.kmalloc_pages (npages_req k.arch bufp len) = true)
    (h3 : 0 < k.get_user_pages bufp (npages_req k.arch bufp len)
      (decide (dir = dma_data_direction.DMA_FROM_DEVICE)))
    (h4 : k.kcalloc_sgl (k.get_user_pages bufp (npages_req k.arch bufp len)
      (decide (dir = dma_data_direction.DMA_FROM_DEVICE))).toNat = true) :
    ∃ m, (alloc_sg_buf k this bufp len dir sg_desc sg_phys).sg_map = some m ∧
      m.npages = (k.get_user_pages bufp (npages_req k.arch bufp len)
        (decide (dir = dma_data_direction.DMA_FROM_DEVICE))).toNat := by
  have h3' : ¬ k.get_user_pages bufp (npages_req k.arch bufp len)
      (decide (dir = dma_data_direction.DMA_FROM_DEVICE)) ≤ 0 := by omega
  simp only [alloc_sg_buf, h1, h2, h3', h4, Bool.not_true, Bool.false_eq_true, if_false]
  exact ⟨_, rfl, rfl⟩

/-- The fill loop on a page-aligned buffer of `n` whole pages: one full page
per entry. -/
theorem fill_sgl_aligned (a : Arch) (pages : Nat → Nat) (hs : a.PAGE_SHIFT < 32) :
    ∀ (n i : Nat), n * PAGE_SIZE a < 2 ^ BITS_PER_LONG a →
      fill_sgl a pages n i 0 (n * PAGE_SIZE a) =
        (List.range n).map
          (fun j => { page := pages (i + j), length := PAGE_SIZE a, offset := 0 }) := by
  intro n
  induction n with
  | zero => intro i _; rfl
  | succ n ih =>
    intro i hfit
    have hP := page_size_pos a
    have hmul : (n + 1) * PAGE_SIZE a = n * PAGE_SIZE a + PAGE_SIZE a := Nat.succ_mul _ _
    have hpl : page_len a 0 ((n + 1) * PAGE_SIZE a) = PAGE_SIZE a := by
      rw [page_len_eq a hs 0 _ hP (by omega)]
      split <;> omega
    simp only [fill_sgl, hpl]
    have hrem : ((n + 1) * PAGE_SIZE a + 2 ^ BITS_PER_LONG a - PAGE_SIZE a) % 2 ^ BITS_PER_LONG a
        = n * PAGE_SIZE a := by
      have : (n + 1) * PAGE_SIZE a + 2 ^ BITS_PER_LONG a - PAGE_SIZE a
          = n * PAGE_SIZE a + 2 ^ BITS_PER_LONG a := by omega
      rw [this, Nat.add_mod_right, Nat.mod_eq_of_lt (by omega)]
    rw [hrem, ih (i + 1) (by omega), List.range_succ_eq_map, List.map_cons, List.map_map]
    simp only [Nat.add_zero, List.cons.injEq, true_and]
    apply List.map_congr_left
    intro j _
    simp only [Function.comp, Nat.succ_eq_add_one]
    rw [show i + 1 + j = i + (j + 1) by omega]

/-! ## Long bus-contiguous transfers -/

/-- A transfer of at least two mapped entries, each below the cap, whose
entries other than the last total at least the cap, gets at least three
descriptors, whether it is bus-contiguous or not. -/
theorem alloc_sg_buf_long (k : Kernel) (this : zfifo_device_data) (bufp len : Nat)
    (dir : dma_data_direction) (sg_desc : Nat → Nat) (sg_phys : Nat) (m : sg_mapping)
    (h : (alloc_sg_buf k this bufp len dir sg_desc sg_phys).sg_map = some m)
    (hcap : this.dmac_buf_len ≤ 2 ^ 23)
    (h2 : 2 ≤ (mapped_sg k bufp len dir).length)
    (hlen : ∀ sg ∈ mapped_sg k bufp len dir, sg_dma_len sg < this.dmac_buf_len)
    (hsum : this.dmac_buf_len ≤ (((mapped_sg k bufp len dir).dropLast).map sg_dma_len).sum) :
    3 ≤ m.num_sg := by
  obtain ⟨_, e2, _⟩ := alloc_sg_buf_some k this bufp len dir sg_desc sg_phys m h
  rw [e2]
  generalize mapped_sg k bufp len dir = segs at *
  have hne : segs ≠ [] := by intro h0; subst h0; simp at h2
  obtain ⟨xs, hxs⟩ := list_first_last segs (segs.head hne) (segs.getLast hne) h2
    (List.head?_eq_head hne) (List.getLast?_eq_getLast _ hne)
  generalize segs.head hne = x at hxs
  generalize segs.getLast hne = last at hxs
  subst hxs
  have hl : (x :: (xs ++ [last])).length = xs.length + 2 := by simp
  have e : (x :: (xs ++ [last])).dropLast = x :: xs := by
    rw [← List.cons_append, List.dropLast_concat]
  rw [e] at hsum
  rw [hl]
  exact desc_loop_long k.arch this.dmac_buf_len sg_phys sg_desc hcap x xs last hlen
    (by simpa using hsum)

/-- The mapped scatterlist of a page-aligned buffer of `n` whole 4 KiB pages in
an environment built by `mkKernel` on the 64-bit target with every page
pinned: page `j` at bus address `0x80000000 + 0x1000 * j`. -/
theorem mapped_sg_aligned (zio : zfifo_io) (bufp n : Nat) (dir : dma_data_direction)
    (hb : bufp % 4096 = 0) (hn : 0 < n) (hfit : bufp + n * 4096 < 2 ^ 64) :
    mapped_sg (mkKernel arch64 gup_all zio) bufp (n * 4096) dir =
      (List.range n).map
        (fun j => { dma_address := 0x80000000 + 0x1000 * j + 0, dma_length := 4096 }) := by
  have hP : PAGE_SIZE arch64 = 4096 := by decide
  have hW : BITS_PER_LONG arch64 = 64 := by decide
  have hs : arch64.PAGE_SHIFT < 32 := by decide
  have hreq : npages_req arch64 bufp (n * 4096) = n := by
    rw [npages_req_eq arch64 bufp (n * 4096) (by omega) (by rw [hW]; omega), hP]
    omega
  have hoff : first_page_offset arch64 bufp = 0 := by
    rw [first_page_offset_eq arch64 hs, hP]; exact hb
  have hfill := fill_sgl_aligned arch64 (fun i => i) hs n 0 (by rw [hP, hW]; omega)
  rw [hP] at hfill
  have hto : (Int.ofNat n).toNat = n := rfl
  simp only [mapped_sg, mkKernel, gup_all, hreq, hoff, hto, hfill, List.map_map]
  apply List.map_congr_left
  intro j _
  simp [Function.comp]

set_option maxRecDepth 20000 in
/-- C15 as stated fails: a send of 257 whole pages (1052672 bytes) at the
page-aligned address `0x10000` whose pages are all bus-contiguous is given at
least three descriptors, not two. The first 256 pages total `2^20` bytes, which
reaches the cap `2^20 - 1`. -/
theorem C15_long_contiguous_transfer :
    BusContiguous arch64
      (mapped_sg (mkKernel arch64 gup_all { len := 257 * 4096, data := 0x10000 }) 0x10000
        (257 * 4096) dma_data_direction.DMA_TO_DEVICE) ∧
    (mapped_sg (mkKernel arch64 gup_all { len := 257 * 4096, data := 0x10000 }) 0x10000
      (257 * 4096) dma_data_direction.DMA_TO_DEVICE).length = 257 ∧
    ∃ m, (alloc_sg_buf (mkKernel arch64 gup_all { len := 257 * 4096, data := 0x10000 })
        demo_dev 0x10000 (257 * 4096) dma_data_direction.DMA_TO_DEVICE demo_dev.tx_desc
        demo_dev.tx_phys).sg_map = some m ∧ m.npages = 257 ∧ 3 ≤ m.num_sg := by
  have hmap := mapped_sg_aligned { len := 257 * 4096, data := 0x10000 } 0x10000 257
    dma_data_direction.DMA_TO_DEVICE (by decide) (by decide) (by decide)
  obtain ⟨m, hm, hnp⟩ := alloc_sg_buf_ok
    (mkKernel arch64 gup_all { len := 257 * 4096, data := 0x10000 }) demo_dev 0x10000
    (257 * 4096) dma_data_direction.DMA_TO_DEVICE demo_dev.tx_desc demo_dev.tx_phys
    rfl rfl (by decide) rfl
  refine ⟨?_, ?_, m, hm, ?_, ?_⟩
  · rw [hmap]; decide
  · rw [hmap]; simp
  · rw [hnp]; decide
  · apply alloc_sg_buf_long _ _ _ _ _ _ _ m hm (by decide)
    · rw [hmap]; simp
    · rw [hmap]; decide
    · rw [hmap]; decide

/-! ## The greedy merge uses the fewest descriptors -/

/-- One run of a policy partition costs the loop at most one new descriptor,
whatever the state it starts from. -/
theorem desc_loop_run (a : Arch) (cap sg_phys num_sg : Nat) (hcap : cap ≤ 2 ^ 23) :
    ∀ (R : List Seg) (i : Nat) (st : DescState), R ≠ [] → BusContiguous a R →
      (2 ≤ R.length → (R.map sg_dma_len).sum < cap ∧ i + R.length < num_sg) →
      (desc_loop a cap sg_phys num_sg i R st).d ≤ st.d + 1 := by
  intro R
  induction R with
  | nil => intro i st h _ _; exact absurd rfl h
  | cons r R ih =>
    intro i st _ hc h2
    cases R with
    | nil =>
      simp only [desc_loop]
      exact (desc_step_d a cap sg_phys num_sg i r st).2
    | cons r' R' =>
      obtain ⟨hsum, hidx⟩ := h2 (by simp)
      simp only [List.length_cons, List.map_cons, List.sum_cons] at hsum hidx
      rw [desc_loop]
      cases hm : merge_test a cap num_sg i r st with
      | true =>
        have hd1 := desc_step_merge_d a cap sg_phys num_sg i r st hm
        have := ih (i + 1) (desc_step a cap sg_phys num_sg i r st) (by simp)
          (busContiguous_tail a r _ hc)
          (fun _ => ⟨by simp only [List.map_cons, List.sum_cons]; omega,
            by simp only [List.length_cons]; omega⟩)
        omega
      | false =>
        have hd1 := desc_step_fresh_d a cap sg_phys num_sg i r st hm
        have hs1 := desc_step_fresh_slot a cap sg_phys num_sg i r st hm
        have hd1' : (desc_step a cap sg_phys num_sg i r st).d - 1 = st.d := by omega
        obtain ⟨g1, _⟩ := desc_loop_all_merge a cap sg_phys num_sg hcap (r' :: R') (i + 1)
          (desc_step a cap sg_phys num_sg i r st) (sg_dma_address a r) (sg_dma_len r)
          ((if i = 0 then 2 ^ 27 else 0) + (if i = num_sg - 1 then 2 ^ 26 else 0))
          (by omega) (by simp only [List.length_cons]; omega) (by omega)
          (by rw [hd1']; exact hs1) (sg_dma_address_lt a r) (by omega)
          (by split <;> split <;> simp) (by split <;> split <;> simp)
          ((busContiguous_cons a r _).mp hc)
          (fun _ => by simp only [List.map_cons, List.sum_cons]; omega)
        omega

/-- The loop uses at most one descriptor per run of a policy partition of the
remaining entries. -/
theorem desc_loop_runs (a : Arch) (cap sg_phys num_sg : Nat) (hcap : cap ≤ 2 ^ 23) :
    ∀ (P : List (List Seg)) (i : Nat) (st : DescState), RunsOK a cap num_sg i P →
      (desc_loop a cap sg_phys num_sg i P.flatten st).d ≤ st.d + P.length := by
  intro P
  induction P with
  | nil => intro i st _; simp [desc_loop]
  | cons R P ih =>
    intro i st h
    obtain ⟨h1, h2, h3, h4⟩ := h
    rw [List.flatten_cons, desc_loop_append]
    have hR := desc_loop_run a cap sg_phys num_sg hcap R i st h1 h2 h3
    have hP := ih (i + R.length) (desc_loop a cap sg_phys num_sg i R st) h4
    simp only [List.length_cons]
    omega

/-- A policy partition of the entries from index `i` to the end lays out as
`RunsOK`: a run of two or more entries is never the last run, so it ends
before the last index. -/
theorem runsOK_of_valid (a : Arch) (cap num_sg : Nat) :
    ∀ (P : List (List Seg)) (i : Nat), (∀ R ∈ P, R ≠ []) → (∀ R ∈ P, BusContiguous a R) →
      (∀ R ∈ P, 2 ≤ R.length → (R.map sg_dma_len).sum < cap) →
      (∀ R, P.getLast? = some R → R.length = 1) → i + P.flatten.length = num_sg →
      RunsOK a cap num_sg i P := by
  intro P
  induction P with
  | nil => intro i _ _ _ _ _; trivial
  | cons R P ih =>
    intro i hne hc hs hl hn
    rw [List.flatten_cons, List.length_append] at hn
    refine ⟨hne R (List.mem_cons_self _ _), hc R (List.mem_cons_self _ _), ?_, ?_⟩
    · intro h2
      refine ⟨hs R (List.mem_cons_self _ _) h2, ?_⟩
      cases P with
      | nil =>
        have := hl R rfl
        omega
      | cons R' P' =>
        have hR' : R' ≠ [] := hne R' (by simp)
        have : 0 < R'.length := List.length_pos.mpr hR'
        simp only [List.flatten_cons, List.length_append] at hn
        omega
    · apply ih (i + R.length) (fun R' h => hne R' (List.mem_cons_of_mem _ h))
        (fun R' h => hc R' (List.mem_cons_of_mem _ h))
        (fun R' h => hs R' (List.mem_cons_of_mem _ h))
      · intro R' h
        cases P with
        | nil => simp at h
        | cons R'' P' =>
          apply hl R'
          rw [List.getLast?_cons_cons]; exact h
      · omega

/-- C16. The greedy merge is optimal for its policy. For every transfer (the
cap `dmac_buf_len` not exceeding the 23-bit length field; probe sets
`2^20 - 1`) and every partition of the mapped entries into consecutive runs in
which every run is bus-contiguous, every run of two or more entries has total
length strictly below the cap, and the last entry forms a run by itself: the
partition has at least as many runs as `alloc_sg_buf` emits descriptors. -/
theorem C16_greedy_optimal (k : Kernel) (this : zfifo_device_data) (bufp len : Nat)
    (dir : dma_data_direction) (sg_desc : Nat → Nat) (sg_phys : Nat) (m : sg_mapping)
    (P : List (List Seg))
    (h : (alloc_sg_buf k this bufp len dir sg_desc sg_phys).sg_map = some m)
    (hcap : this.dmac_buf_len ≤ 2 ^ 23)
    (hP : spec_valid_partition k.arch this.dmac_buf_len (mapped_sg k bufp len dir) P) :
    m.num_sg ≤ P.length := by
  obtain ⟨_, e2, _⟩ := alloc_sg_buf_some k this bufp len dir sg_desc sg_phys m h
  obtain ⟨p1, p2, p3, p4, p5⟩ := hP
  rw [e2, ← p1]
  have hr := runsOK_of_valid k.arch this.dmac_buf_len P.flatten.length P 0 p2 p3 p4 p5
    (by omega)
  have := desc_loop_runs k.arch this.dmac_buf_len sg_phys P.flatten.length hcap P 0
    { mem := sg_desc, log := [], d := 0 } hr
  simpa using this

/-- Witness of C16: for the three contiguous pages of `demo_kernel` the
partition into the run of pages 0 and 1 and the run of page 2 is allowed by the
policy; it has two runs and two descriptors are emitted. -/
theorem C16_greedy_optimal_witness :
    demo_map.num_sg ≤
      ([[{ dma_address := 0x80000ff8, dma_length := 8 },
         { dma_address := 0x80001000, dma_length := 4096 }],
        [{ dma_address := 0x80002000, dma_length := 4088 }]] : List (List Seg)).length :=
  C16_greedy_optimal demo_kernel demo_dev 0x10ff8 8192 dma_data_direction.DMA_TO_DEVICE
    demo_dev.tx_desc demo_dev.tx_phys demo_map
    [[{ dma_address := 0x80000ff8, dma_length := 8 },
      { dma_address := 0x80001000, dma_length := 4096 }],
     [{ dma_address := 0x80002000, dma_length := 4088 }]]
    (by decide) (by decide)
    ⟨by decide, by decide, by decide, by decide, by
      intro R hR
      simp only [List.getLast?_cons_cons, List.getLast?_singleton, Option.some.injEq] at hR
      rw [← hR]; rfl⟩

/-! ## Descriptor count and the capacity of the region -/

/-- The stores of a merging iteration. -/
theorem desc_step_merge_log (a : Arch) (cap sg_phys num_sg i : Nat) (sg : Seg) (st : DescState)
    (h : merge_test a cap num_sg i sg st = true) :
    ∃ v, (desc_step a cap sg_phys num_sg i sg st).log = st.log ++ [((st.d - 1) * 16 + 6, v)] := by
  unfold desc_step
  simp only [h, ↓reduceIte]
  exact ⟨_, rfl⟩

/-- The stores of a non-merging iteration: the eight words of descriptor `d`. -/
theorem desc_step_fresh_log (a : Arch) (cap sg_phys num_sg i : Nat) (sg : Seg) (st : DescState)
    (h : merge_test a cap num_sg i sg st = false) :
    ∃ v0 v1 v2 v3 v4 v5 v6 v7, (desc_step a cap sg_phys num_sg i sg st).log = st.log ++
      [(st.d * 16 + 0, v0), (st.d * 16 + 1, v1), (st.d * 16 + 2, v2), (st.d * 16 + 3, v3),
       (st.d * 16 + 4, v4), (st.d * 16 + 5, v5), (st.d * 16 + 6, v6), (st.d * 16 + 7, v7)] := by
  unfold desc_step
  simp only [h, Bool.false_eq_true, ↓reduceIte]
  simp only [DescState.store, List.append_assoc, List.singleton_append, List.cons_append,
    List.nil_append]
  exact ⟨_, _, _, _, _, _, _, _, rfl⟩

/-- One iteration keeps the store log sound. -/
theorem desc_step_log_ok (a : Arch) (cap sg_phys num_sg i : Nat) (sg : Seg) (st : DescState)
    (hd : i ≠ 0 → 0 < st.d) (hl : LogOK st) :
    LogOK (desc_step a cap sg_phys num_sg i sg st) := by
  obtain ⟨l1, l2⟩ := hl
  cases hm : merge_test a cap num_sg i sg st with
  | true =>
    have hd0 := hd (merge_test_idx a cap num_sg i sg st hm).1
    obtain ⟨v, hv⟩ := desc_step_merge_log a cap sg_phys num_sg i sg st hm
    have hd1 := desc_step_merge_d a cap sg_phys num_sg i sg st hm
    constructor
    · intro p hp
      rw [hv, List.mem_append] at hp
      rw [hd1]
      rcases hp with hp | hp
      · exact l1 p hp
      · simp only [List.mem_singleton] at hp
        rw [hp]; simp only; omega
    · intro k hk
      rw [hd1] at hk
      obtain ⟨w, hw⟩ := l2 k hk
      exact ⟨w, by rw [hv]; exact List.mem_append_left _ hw⟩
  | false =>
    obtain ⟨v0, v1, v2, v3, v4, v5, v6, v7, hv⟩ :=
      desc_step_fresh_log a cap sg_phys num_sg i sg st hm
    have hd1 := desc_step_fresh_d a cap sg_phys num_sg i sg st hm
    constructor
    · intro p hp
      rw [hv, List.mem_append] at hp
      rw [hd1]
      rcases hp with hp | hp
      · have := l1 p hp; omega
      · simp only [List.mem_cons, List.mem_singleton, List.not_mem_nil, or_false] at hp
        rcases hp with h | h | h | h | h | h | h | h <;> rw [h] <;> simp only <;> omega
    · intro k hk
      rw [hd1] at hk
      by_cases hkd : k = st.d
      · subst hkd
        exact ⟨v7, by rw [hv]; simp⟩
      · obtain ⟨w, hw⟩ := l2 k (by omega)
        exact ⟨w, by rw [hv]; exact List.mem_append_left _ hw⟩

/-- The loop keeps the store log sound. -/
theorem desc_loop_log_ok (a : Arch) (cap sg_phys num_sg : Nat) :
    ∀ (rest : List Seg) (i : Nat) (st : DescState), (i ≠ 0 → 0 < st.d) → LogOK st →
      LogOK (desc_loop a cap sg_phys num_sg i rest st) := by
  intro rest
  induction rest with
  | nil => intro i st _ h; exact h
  | cons sg rest ih =>
    intro i st hd hl
    exact ih (i + 1) _ (fun _ => desc_step_d_pos a cap sg_phys num_sg i sg st hd)
      (desc_step_log_ok a cap sg_phys num_sg i sg st hd hl)

/-- What holds of the descriptor count and of the stores of every transfer:
with at least one mapped entry, between 1 and the number of mapped entries
descriptors are used; every descriptor store goes to a word of a used
descriptor, and the last word of every used descriptor is stored to. Whether
the stores stay inside the descriptor region therefore depends on `num_sg`
alone. -/
theorem alloc_sg_buf_stores (k : Kernel) (this : zfifo_device_data) (bufp len : Nat)
    (dir : dma_data_direction) (sg_desc : Nat → Nat) (sg_phys : Nat) (m : sg_mapping)
    (h : (alloc_sg_buf k this bufp len dir sg_desc sg_phys).sg_map = some m) :
    (mapped_sg k bufp len dir ≠ [] → 1 ≤ m.num_sg) ∧
    m.num_sg ≤ (mapped_sg k bufp len dir).length ∧
    (∀ idx v, Event.desc idx v ∈ (alloc_sg_buf k this bufp len dir sg_desc sg_phys).events →
      idx < m.num_sg * 16) ∧
    (∀ d, d < m.num_sg → ∃ v,
      Event.desc (d * 16 + 7) v ∈ (alloc_sg_buf k this bufp len dir sg_desc sg_phys).events) := by
  obtain ⟨_, e2, e3⟩ := alloc_sg_buf_some k this bufp len dir sg_desc sg_phys m h
  obtain ⟨p1, _⟩ := desc_loop_slots k.arch this.dmac_buf_len sg_phys (mapped_sg k bufp len dir)
    { mem := sg_desc, log := [], d := 0 } rfl
  have hd := desc_loop_d k.arch this.dmac_buf_len sg_phys (mapped_sg k bufp len dir).length
    (mapped_sg k bufp len dir) 0 { mem := sg_desc, log := [], d := 0 }
  obtain ⟨l1, l2⟩ := desc_loop_log_ok k.arch this.dmac_buf_len sg_phys
    (mapped_sg k bufp len dir).length (mapped_sg k bufp len dir) 0
    { mem := sg_desc, log := [], d := 0 } (fun h => absurd rfl h)
    ⟨fun p hp => by simp at hp, fun k hk => absurd hk (Nat.not_lt_zero _)⟩
  rw [e2, e3]
  refine ⟨fun hne => p1 hne, by simpa using hd.2, ?_, ?_⟩
  · intro idx v hmem
    simp only [List.mem_cons, List.mem_map, reduceCtorEq, false_or] at hmem
    obtain ⟨p, hp, hpe⟩ := hmem
    simp only [Event.desc.injEq] at hpe
    rw [← hpe.1]
    exact l1 p hp
  · intro d hd'
    obtain ⟨v, hv⟩ := l2 d hd'
    exact ⟨v, List.mem_cons_of_mem _ (List.mem_map.mpr ⟨_, hv, rfl⟩)⟩

/-- The flag bits of a control word leave the 23-bit length field clear. -/
theorem flags_mod (p q : Prop) [Decidable p] [Decidable q] :
    ((if p then 2 ^ 27 else 0) + (if q then 2 ^ 26 else 0)) % 2 ^ 23 = 0 := by
  by_cases hp : p <;> by_cases hq : q <;> simp only [hp, hq, if_true, if_false] <;> rfl

/-- The length `prev_len` read back from descriptor `d-1`, whatever was folded into it. -/
theorem prev_len_mod (a : Arch) (sg_phys : Nat) (st : DescState) (A L F : Nat)
    (hs : SlotWords a sg_phys st.mem (st.d - 1) A L F) (hF : F % 2 ^ 23 = 0) :
    prev_len st = L % 2 ^ 23 := by
  obtain ⟨_, _, _, _, _, _, h6, _⟩ := hs
  unfold prev_len
  rw [h6, and_7FFFFF]
  omega

/-- Entries that never continue their predecessor on the bus get one
descriptor each. -/
theorem desc_loop_scattered (a : Arch) (cap sg_phys num_sg : Nat) :
    ∀ (rest : List Seg) (i : Nat) (st : DescState) (A L F : Nat),
      SlotWords a sg_phys st.mem (st.d - 1) A L F → A < 2 ^ DMA_ADDR_BITS a →
      F % 2 ^ 23 = 0 →
      scattered_from a ((A + L % 2 ^ 23) % 2 ^ DMA_ADDR_BITS a) rest →
      (desc_loop a cap sg_phys num_sg i rest st).d = st.d + rest.length := by
  intro rest
  induction rest with
  | nil => intro i st A L F _ _ _ _; rfl
  | cons sg rest ih =>
    intro i st A L F hs hA hF hsc
    obtain ⟨hne, hsc1⟩ := hsc
    have hm : merge_test a cap num_sg i sg st = false := by
      cases hm : merge_test a cap num_sg i sg st with
      | false => rfl
      | true =>
        simp only [merge_test, Bool.and_eq_true, decide_eq_true_eq] at hm
        exfalso
        apply hne
        rw [hm.1.2, prev_addr_eq a sg_phys st A L F hs hA, prev_len_mod a sg_phys st A L F hs hF]
    have hd := desc_step_fresh_d a cap sg_phys num_sg i sg st hm
    have hslot := desc_step_fresh_slot a cap sg_phys num_sg i sg st hm
    have hF1 := flags_mod (i = 0) (i = num_sg - 1)
    simp only [desc_loop]
    rw [ih (i + 1) _ (sg_dma_address a sg) (sg_dma_len sg) _
      (by rw [hd, Nat.add_sub_cancel]; exact hslot) (sg_dma_address_lt a sg) hF1 hsc1, hd,
      List.length_cons]
    omega

/-- A transfer none of whose entries continues its predecessor on the bus
uses as many descriptors as it has entries. -/
theorem desc_loop_scattered_all (a : Arch) (cap sg_phys num_sg : Nat) (mem0 : Nat → Nat)
    (x : Seg) (rest : List Seg)
    (hsc : scattered_from a
      ((sg_dma_address a x + sg_dma_len x % 2 ^ 23) % 2 ^ DMA_ADDR_BITS a) rest) :
    (desc_loop a cap sg_phys num_sg 0 (x :: rest) { mem := mem0, log := [], d := 0 }).d =
      rest.length + 1 := by
  have hm := merge_test_zero a cap num_sg x { mem := mem0, log := [], d := 0 }
  have hd := desc_step_fresh_d a cap sg_phys num_sg 0 x _ hm
  have hslot := desc_step_fresh_slot a cap sg_phys num_sg 0 x _ hm
  have hF1 := flags_mod ((0 : Nat) = 0) (0 = num_sg - 1)
  simp only [desc_loop]
  rw [desc_loop_scattered a cap sg_phys num_sg rest (0 + 1) _ (sg_dma_address a x)
    (sg_dma_len x) _ (by rw [hd]; exact hslot) (sg_dma_address_lt a x) hF1 hsc, hd]
  exact Nat.add_comm _ _

/-- Whole pages in every other page frame never continue one another. -/
theorem scattered_range : ∀ (n s e : Nat), e < 0x80000000 + 0x2000 * s → s + n < 2 ^ 50 →
    scattered_from arch64 e ((List.range' s n).map
      (fun j => ({ dma_address := 0x80000000 + 0x1000 * (2 * j) + 0, dma_length := 4096 } : Seg)))
  | 0, _, _, _, _ => trivial
  | n + 1, s, e, he, hs => by
    have hD : DMA_ADDR_BITS arch64 = 64 := by decide
    simp only [List.range'_succ, List.map_cons, scattered_from, sg_dma_address, sg_dma_len, hD]
    refine ⟨by omega, scattered_range n (s + 1) _ (by omega) (by omega)⟩

/-- The mapped scatterlist of a page-aligned buffer of `n` whole 4 KiB pages
in `scattered_kernel`: page `j` at bus address `0x80000000 + 0x2000 * j`. -/
theorem mapped_sg_scattered (zio : zfifo_io) (bufp n : Nat) (dir : dma_data_direction)
    (hb : bufp % 4096 = 0) (hn : 0 < n) (hfit : bufp + n * 4096 < 2 ^ 64) :
    mapped_sg (scattered_kernel zio) bufp (n * 4096) dir =
      (List.range n).map
        (fun j => { dma_address := 0x80000000 + 0x1000 * (2 * j) + 0, dma_length := 4096 }) := by
  have hP : PAGE_SIZE arch64 = 4096 := by decide
  have hW : BITS_PER_LONG arch64 = 64 := by decide
  have hs : arch64.PAGE_SHIFT < 32 := by decide
  have hreq : npages_req arch64 bufp (n * 4096) = n := by
    rw [npages_req_eq arch64 bufp (n * 4096) (by omega) (by rw [hW]; omega), hP]
    omega
  have hoff : first_page_offset arch64 bufp = 0 := by
    rw [first_page_offset_eq arch64 hs, hP]; exact hb
  have hfill := fill_sgl_aligned arch64 (fun i => 2 * i) hs n 0 (by rw [hP, hW]; omega)
  rw [hP] at hfill
  have hto : (Int.ofNat n).toNat = n := rfl
  simp only [mapped_sg, scattered_kernel, mkKernel, gup_all, hreq, hoff, hto, hfill,
    List.map_map]
  apply List.map_congr_left
  intro j _
  simp [Function.comp]

/-- In `scattered_kernel` a page-aligned transfer of `n + 1` whole pages uses
`n + 1` descriptors, one per page. -/
theorem alloc_sg_buf_scattered (zio : zfifo_io) (this : zfifo_device_data) (bufp n : Nat)
    (dir : dma_data_direction) (sg_desc : Nat → Nat) (sg_phys : Nat) (m : sg_mapping)
    (hb : bufp % 4096 = 0) (hn : n + 1 < 2 ^ 50) (hfit : bufp + (n + 1) * 4096 < 2 ^ 64)
    (h : (alloc_sg_buf (scattered_kernel zio) this bufp ((n + 1) * 4096) dir sg_desc
      sg_phys).sg_map = some m) :
    m.num_sg = n + 1 := by
  obtain ⟨_, e2, _⟩ := alloc_sg_buf_some _ this bufp ((n + 1) * 4096) dir sg_desc sg_phys m h
  have hD : DMA_ADDR_BITS arch64 = 64 := by decide
  rw [e2, mapped_sg_scattered zio bufp (n + 1) dir hb (Nat.succ_pos n) hfit,
    List.range_eq_range', List.range'_succ, List.map_cons]
  have ha : (scattered_kernel zio).arch = arch64 := rfl
  rw [ha, desc_loop_scattered_all arch64 this.dmac_buf_len sg_phys _ sg_desc _ _
    (by
      simp only [sg_dma_address, sg_dma_len, hD]
      refine scattered_range n (0 + 1) _ ?_ ?_
      · decide
      · omega)]
  simp

/-- The actions of `alloc_sg_buf` are among the actions of the send that called it. -/
theorem zfifo_send_events (k : Kernel) (this : zfifo_device_data) (bufp len fuel : Nat)
    (m : sg_mapping)
    (h : (alloc_sg_buf k this bufp len dma_data_direction.DMA_TO_DEVICE this.tx_desc
      this.tx_phys).sg_map = some m) (e : Event)
    (he : e ∈ (alloc_sg_buf k this bufp len dma_data_direction.DMA_TO_DEVICE this.tx_desc
      this.tx_phys).events) :
    e ∈ (zfifo_send k this bufp len fuel).events := by
  simp only [zfifo_send, h]
  cases spin ioc_pending (k.reg_read MM2S_DMASR) fuel 0 <;> simp [he]

/-- A send whose `alloc_sg_buf` returned a mapping and whose status register
shows completion within the fuel returns 0. -/
theorem zfifo_send_ret (k : Kernel) (this : zfifo_device_data) (bufp len fuel n : Nat)
    (m : sg_mapping)
    (h : (alloc_sg_buf k this bufp len dma_data_direction.DMA_TO_DEVICE this.tx_desc
      this.tx_phys).sg_map = some m)
    (hs : spin ioc_pending (k.reg_read MM2S_DMASR) fuel 0 = some n) :
    (zfifo_send k this bufp len fuel).ret = Ret.value 0 := by
  simp only [zfifo_send, h, hs]

/-- C17, defect: nothing bounds the descriptor count by the capacity of the
descriptor region. A send of 17601 whole pages (72093696 bytes) at the
page-aligned address `0x10000`, whose pages are physically scattered, is
accepted and returns 0; it pins 17601 pages and writes 17601 descriptors,
while the region of `desc_size` bytes holds `desc_size / 64 = 17600`. The
last word of descriptor 17600 is stored at word index `281607`, byte offset
`1126428`, past the `desc_size = 1126400` bytes of the region. -/
theorem C17_descriptor_ring_overflow :
    (∃ m, (alloc_sg_buf (scattered_kernel { len := 17601 * 4096, data := 0x10000 }) demo_dev
        0x10000 (17601 * 4096) dma_data_direction.DMA_TO_DEVICE demo_dev.tx_desc
        demo_dev.tx_phys).sg_map = some m ∧
      m.npages = 17601 ∧ m.num_sg = 17601 ∧ desc_size / 64 < m.num_sg) ∧
    (zfifo_send (scattered_kernel { len := 17601 * 4096, data := 0x10000 }) demo_dev
      0x10000 (17601 * 4096) 1).ret = Ret.value 0 ∧
    ∃ v, Event.desc (17600 * 16 + 7) v ∈
        (zfifo_send (scattered_kernel { len := 17601 * 4096, data := 0x10000 }) demo_dev
          0x10000 (17601 * 4096) 1).events ∧
      desc_size ≤ 4 * (17600 * 16 + 7) := by
  obtain ⟨m, hm, hnp⟩ := alloc_sg_buf_ok
    (scattered_kernel { len := 17601 * 4096, data := 0x10000 }) demo_dev 0x10000
    (17601 * 4096) dma_data_direction.DMA_TO_DEVICE demo_dev.tx_desc demo_dev.tx_phys
    rfl rfl (by decide) rfl
  have hnum : m.num_sg = 17600 + 1 :=
    alloc_sg_buf_scattered { len := 17601 * 4096, data := 0x10000 } demo_dev 0x10000 17600
      dma_data_direction.DMA_TO_DEVICE demo_dev.tx_desc demo_dev.tx_phys m (by decide)
      (by decide) (by decide) hm
  obtain ⟨_, _, _, hst⟩ := alloc_sg_buf_stores _ demo_dev 0x10000 (17601 * 4096)
    dma_data_direction.DMA_TO_DEVICE demo_dev.tx_desc demo_dev.tx_phys m hm
  obtain ⟨v, hv⟩ := hst 17600 (by rw [hnum]; decide)
  refine ⟨⟨m, hm, ?_, hnum, ?_⟩, ?_, v, ?_, by decide⟩
  · rw [hnp]; decide
  · rw [hnum]; decide
  · exact zfifo_send_ret _ demo_dev 0x10000 (17601 * 4096) 1 1 m hm (by decide)
  · exact zfifo_send_events _ demo_dev 0x10000 (17601 * 4096) 1 m hm _ hv

end ZFifo
